import Mathlib

/-!
# Restarted GMRES (`magma_zgmres`) over exact arithmetic

A shallow embedding of `sparse-iter/src/zgmres.cpp`.  Real scalars (`double`) are the
elements of an arbitrary linearly ordered field `K`; complex scalars
(`magmaDoubleComplex`) are pairs over `K`.  The square root used by the Euclidean norm
is a parameter `sqrt : K → K`, so that the model runs on `ℚ` (with an exact rational
square root) as well as on `ℝ`.

Device vectors and host arrays are flat memories `Nat → magmaDoubleComplex K`, indexed
exactly as the source indexes them (`q(i) = q.val + i*dofs`, `H(i,j) = H[i + j*ldh]`).
Variables the source reads without ever writing them (`RNorm`, the initial content of
the stack arrays, `m` before the first inner step) are inputs of the model, collected
in `Uninit`.  The vectors `x`, `b` and the buffers the solver allocates are assumed not
to overlap.  In a field `a / 0 = 0`, where floating point gives an infinity or a NaN; the
state therefore carries the flag `div_ok`, cleared by the first division whose divisor is
zero, and computed values are only relied on where it is still set.  The state also
counts the sparse matrix-vector products dispatched (`n_spmv`).

Two smaller embeddings follow the solver: the complex helpers of
`include/magma_hip_complex.h` (`hipConj`, `hipCmul`, `hipCdiv`, `hipCfma` and their
single-precision twins) over a field, and the status bookkeeping of `main` in
`testing/testing_zunmql_gpu.cpp`, where the relative error of each case, the result of
LAPACK and MAGMA calls, is an input, `status` is a signed machine integer, and the
observed exit status is the low 8 bits of what `main` returns or passes to `exit`.
-/

/-- Complex scalar: the two components `x` (real part) and `y` (imaginary part). -/
@[ext]
structure magmaDoubleComplex (K : Type) where
  x : K
  y : K
deriving DecidableEq

namespace magmaDoubleComplex

variable {K : Type} [LinearOrderedField K]

instance : Zero (magmaDoubleComplex K) := ⟨⟨0, 0⟩⟩

instance : One (magmaDoubleComplex K) := ⟨⟨1, 0⟩⟩

instance : Add (magmaDoubleComplex K) := ⟨fun a b => ⟨a.x + b.x, a.y + b.y⟩⟩

instance : Neg (magmaDoubleComplex K) := ⟨fun a => ⟨-a.x, -a.y⟩⟩

instance : Sub (magmaDoubleComplex K) := ⟨fun a b => ⟨a.x - b.x, a.y - b.y⟩⟩

/-- Complex product, `ret.x = lhs.x*rhs.x - lhs.y*rhs.y`, `ret.y = lhs.x*rhs.y + lhs.y*rhs.x`. -/
instance : Mul (magmaDoubleComplex K) :=
  ⟨fun a b => ⟨a.x * b.x - a.y * b.y, a.x * b.y + a.y * b.x⟩⟩

/-- Complex quotient: numerator `lhs * conj rhs`, both parts over `rhs.x² + rhs.y²`. -/
instance : Div (magmaDoubleComplex K) :=
  ⟨fun a b => ⟨(a.x * b.x + a.y * b.y) / (b.x * b.x + b.y * b.y),
               (b.x * a.y - a.x * b.y) / (b.x * b.x + b.y * b.y)⟩⟩

instance : Inv (magmaDoubleComplex K) :=
  ⟨fun b => ⟨b.x / (b.x * b.x + b.y * b.y), (-b.y) / (b.x * b.x + b.y * b.y)⟩⟩

instance : CommRing (magmaDoubleComplex K) where
  add_assoc a b c := magmaDoubleComplex.ext
    (show a.x + b.x + c.x = a.x + (b.x + c.x) by ring)
    (show a.y + b.y + c.y = a.y + (b.y + c.y) by ring)
  zero_add a := magmaDoubleComplex.ext (show 0 + a.x = a.x by ring) (show 0 + a.y = a.y by ring)
  add_zero a := magmaDoubleComplex.ext (show a.x + 0 = a.x by ring) (show a.y + 0 = a.y by ring)
  add_comm a b := magmaDoubleComplex.ext
    (show a.x + b.x = b.x + a.x by ring) (show a.y + b.y = b.y + a.y by ring)
  neg_add_cancel a := magmaDoubleComplex.ext
    (show -a.x + a.x = 0 by ring) (show -a.y + a.y = 0 by ring)
  sub_eq_add_neg a b := magmaDoubleComplex.ext
    (show a.x - b.x = a.x + -b.x by ring) (show a.y - b.y = a.y + -b.y by ring)
  mul_assoc a b c := magmaDoubleComplex.ext
    (show (a.x * b.x - a.y * b.y) * c.x - (a.x * b.y + a.y * b.x) * c.y
        = a.x * (b.x * c.x - b.y * c.y) - a.y * (b.x * c.y + b.y * c.x) by ring)
    (show (a.x * b.x - a.y * b.y) * c.y + (a.x * b.y + a.y * b.x) * c.x
        = a.x * (b.x * c.y + b.y * c.x) + a.y * (b.x * c.x - b.y * c.y) by ring)
  one_mul a := magmaDoubleComplex.ext
    (show 1 * a.x - 0 * a.y = a.x by ring) (show 1 * a.y + 0 * a.x = a.y by ring)
  mul_one a := magmaDoubleComplex.ext
    (show a.x * 1 - a.y * 0 = a.x by ring) (show a.x * 0 + a.y * 1 = a.y by ring)
  mul_comm a b := magmaDoubleComplex.ext
    (show a.x * b.x - a.y * b.y = b.x * a.x - b.y * a.y by ring)
    (show a.x * b.y + a.y * b.x = b.x * a.y + b.y * a.x by ring)
  left_distrib a b c := magmaDoubleComplex.ext
    (show a.x * (b.x + c.x) - a.y * (b.y + c.y)
        = a.x * b.x - a.y * b.y + (a.x * c.x - a.y * c.y) by ring)
    (show a.x * (b.y + c.y) + a.y * (b.x + c.x)
        = a.x * b.y + a.y * b.x + (a.x * c.y + a.y * c.x) by ring)
  right_distrib a b c := magmaDoubleComplex.ext
    (show (a.x + b.x) * c.x - (a.y + b.y) * c.y
        = a.x * c.x - a.y * c.y + (b.x * c.x - b.y * c.y) by ring)
    (show (a.x + b.x) * c.y + (a.y + b.y) * c.x
        = a.x * c.y + a.y * c.x + (b.x * c.y + b.y * c.x) by ring)
  zero_mul a := magmaDoubleComplex.ext
    (show 0 * a.x - 0 * a.y = 0 by ring) (show 0 * a.y + 0 * a.x = 0 by ring)
  mul_zero a := magmaDoubleComplex.ext
    (show a.x * 0 - a.y * 0 = 0 by ring) (show a.x * 0 + a.y * 0 = 0 by ring)
  nsmul := nsmulRec
  zsmul := zsmulRec

instance : Field (magmaDoubleComplex K) where
  exists_pair_ne := ⟨0, 1, fun h =>
    absurd (congrArg magmaDoubleComplex.x h) (show (0 : K) ≠ 1 from zero_ne_one)⟩
  div_eq_mul_inv a b := magmaDoubleComplex.ext
    (show (a.x * b.x + a.y * b.y) / (b.x * b.x + b.y * b.y)
        = a.x * (b.x / (b.x * b.x + b.y * b.y)) - a.y * ((-b.y) / (b.x * b.x + b.y * b.y)) by
      ring)
    (show (b.x * a.y - a.x * b.y) / (b.x * b.x + b.y * b.y)
        = a.x * ((-b.y) / (b.x * b.x + b.y * b.y)) + a.y * (b.x / (b.x * b.x + b.y * b.y)) by
      ring)
  mul_inv_cancel a h := by
    have hne : a.x * a.x + a.y * a.y ≠ 0 := by
      intro h0
      apply h
      have hx : a.x * a.x = 0 := by nlinarith [mul_self_nonneg a.x, mul_self_nonneg a.y]
      have hy : a.y * a.y = 0 := by nlinarith [mul_self_nonneg a.x, mul_self_nonneg a.y]
      exact magmaDoubleComplex.ext (mul_self_eq_zero.mp hx) (mul_self_eq_zero.mp hy)
    exact magmaDoubleComplex.ext
      (show a.x * (a.x / (a.x * a.x + a.y * a.y)) - a.y * ((-a.y) / (a.x * a.x + a.y * a.y)) = 1 by
        field_simp)
      (show a.x * ((-a.y) / (a.x * a.x + a.y * a.y)) + a.y * (a.x / (a.x * a.x + a.y * a.y)) = 0 by
        field_simp; ring)
  inv_zero := magmaDoubleComplex.ext
    (show (0 : K) / (0 * 0 + 0 * 0) = 0 by simp) (show (-0 : K) / (0 * 0 + 0 * 0) = 0 by simp)
  nnqsmul := _
  nnqsmul_def := fun _ _ => rfl
  qsmul := _
  qsmul_def := fun _ _ => rfl

/-- Complex conjugate, applied by the `dotc` kernels to their first operand. -/
def conj (a : magmaDoubleComplex K) : magmaDoubleComplex K := ⟨a.x, -a.y⟩

end magmaDoubleComplex

section Model

variable {K : Type} [LinearOrderedField K]

/-- Source line 21: `#define RTOLERANCE 10e-10`. -/
def RTOLERANCE : K := 10 / 10 ^ 10

/-- Source line 22: `#define ATOLERANCE 10e-10`. -/
def ATOLERANCE : K := 10 / 10 ^ 10

/-- Modelled from the spec: the scalar constructor macro `MAGMA_Z_MAKE(re, im)` of the
type header of the library, which is not among the sources. -/
def MAGMA_Z_MAKE (r i : K) : magmaDoubleComplex K := ⟨r, i⟩

/-- Modelled from the spec: the macro `MAGMA_Z_REAL`, the real part of a scalar. -/
def MAGMA_Z_REAL (a : magmaDoubleComplex K) : K := a.x

/-- Modelled from the spec: the constant `MAGMA_Z_ZERO` (`c_zero`). -/
def MAGMA_Z_ZERO : magmaDoubleComplex K := MAGMA_Z_MAKE 0 0

/-- Modelled from the spec: the constant `MAGMA_Z_ONE` (`c_one`). -/
def MAGMA_Z_ONE : magmaDoubleComplex K := MAGMA_Z_MAKE 1 0

/-- Modelled from the spec: the constant `MAGMA_Z_NEG_ONE` (`c_mone`). -/
def MAGMA_Z_NEG_ONE : magmaDoubleComplex K := MAGMA_Z_MAKE (-1) 0

/-- Modelled from the spec: the sparse matrix descriptor (spec section 3, SparseMatrix).
Only the row count `dofs` and the entries matter to the solver; the operator is square. -/
structure magma_z_sparse_matrix (K : Type) where
  num_rows : Nat
  val : Nat → Nat → magmaDoubleComplex K

/-- Modelled from the spec: the caller-owned configuration and result record (spec
section 3, SolverParameters and SolverResult), with the fields the solver touches. -/
structure magma_solver_parameters (K : Type) where
  epsilon : K
  maxiter : Nat
  restart : Nat
  numiter : Nat
  residual : K

/-- Pointer arithmetic on a flat memory: the view starting `off` elements in. -/
def ptr_add (mem : Nat → magmaDoubleComplex K) (off : Nat) : Nat → magmaDoubleComplex K :=
  fun t => mem (off + t)

/-- Modelled from the spec: `dense_scale(alpha, x)`, in place on the `n` elements
starting at `xoff`. -/
def magma_zscal (n : Nat) (alpha : magmaDoubleComplex K)
    (xmem : Nat → magmaDoubleComplex K) (xoff : Nat) : Nat → magmaDoubleComplex K :=
  fun p => if xoff ≤ p ∧ p < xoff + n then alpha * xmem p else xmem p

/-- Modelled from the spec: `dense_copy(src, dst)`, writing the `n` elements of `ymem`
starting at `yoff`. -/
def magma_zcopy (n : Nat) (x : Nat → magmaDoubleComplex K)
    (ymem : Nat → magmaDoubleComplex K) (yoff : Nat) : Nat → magmaDoubleComplex K :=
  fun p => if yoff ≤ p ∧ p < yoff + n then x (p - yoff) else ymem p

/-- Modelled from the spec: `dense_norm2(v)`, the Euclidean norm of `n` elements. -/
def magma_dznrm2 (sqrt : K → K) (n : Nat) (x : Nat → magmaDoubleComplex K) : K :=
  sqrt (Finset.sum (Finset.range n) fun t => (x t).x * (x t).x + (x t).y * (x t).y)

/-- Modelled from the spec: `dense_dot(u, v)`, conjugate-linear in its first argument. -/
def magma_zdotc (n : Nat) (x y : Nat → magmaDoubleComplex K) : magmaDoubleComplex K :=
  Finset.sum (Finset.range n) fun t => magmaDoubleComplex.conj (x t) * y t

/-- Modelled from the spec: the host BLAS conjugated dot product `cblas_zdotc_sub`; the
value it stores through its last argument is returned. -/
def cblas_zdotc_sub (n : Nat) (x y : Nat → magmaDoubleComplex K) : magmaDoubleComplex K :=
  Finset.sum (Finset.range n) fun t => magmaDoubleComplex.conj (x t) * y t

/-- Modelled from the spec: `dense_axpy(alpha, x, y)`, `y ← alpha*x + y` on the `n`
elements of `ymem` starting at `yoff`. -/
def magma_zaxpy (n : Nat) (alpha : magmaDoubleComplex K) (x : Nat → magmaDoubleComplex K)
    (ymem : Nat → magmaDoubleComplex K) (yoff : Nat) : Nat → magmaDoubleComplex K :=
  fun p => if yoff ≤ p ∧ p < yoff + n then alpha * x (p - yoff) + ymem p else ymem p

/-- Modelled from the spec: `sparse_matvec(alpha, A, x, beta, y)`, `y ← alpha*A*x + beta*y`. -/
def magma_z_spmv (alpha : magmaDoubleComplex K) (A : magma_z_sparse_matrix K)
    (x : Nat → magmaDoubleComplex K) (beta : magmaDoubleComplex K)
    (y : Nat → magmaDoubleComplex K) : Nat → magmaDoubleComplex K :=
  fun p =>
    if p < A.num_rows then
      alpha * (Finset.sum (Finset.range A.num_rows) fun j => A.val p j * x j) + beta * y p
    else y p

/-- Modelled from the spec: `dense_matvec_apply`, the BLAS `gemv` without transposition:
`y ← alpha*M*x + beta*y` for the column-major `m × n` matrix `M` with leading dimension
`lda`. -/
def magma_zgemv (m n : Nat) (alpha : magmaDoubleComplex K) (M : Nat → magmaDoubleComplex K)
    (lda : Nat) (x : Nat → magmaDoubleComplex K) (beta : magmaDoubleComplex K)
    (y : Nat → magmaDoubleComplex K) : Nat → magmaDoubleComplex K :=
  fun p =>
    if p < m then
      alpha * (Finset.sum (Finset.range n) fun c => M (p + c * lda) * x c) + beta * y p
    else y p

/-- Modelled from the spec: the host-to-device transfer of a column-major `m × n` matrix
(`hA`, leading dimension `lda`) into `dB` (leading dimension `ldb`). -/
def magma_zsetmatrix (m n : Nat) (hA : Nat → magmaDoubleComplex K) (lda : Nat)
    (dB : Nat → magmaDoubleComplex K) (ldb : Nat) : Nat → magmaDoubleComplex K :=
  fun p => if p / ldb < n ∧ p % ldb < m then hA (p % ldb + p / ldb * lda) else dB p

/-- Memory and locals of one solve: the device vectors `x`, `b`, `r`, `q`, `dy`, the host
arrays `H`, `HH`, `y`, `h1`, and the locals `m`, `rNorm`; and two observations of the run
that the source does not store: `n_spmv`, the number of sparse matrix-vector products
dispatched inside the outer loop so far, and `div_ok`, which is `true` as long as no
division had a zero divisor. -/
structure GmresState (K : Type) where
  x : Nat → magmaDoubleComplex K
  b : Nat → magmaDoubleComplex K
  r : Nat → magmaDoubleComplex K
  q : Nat → magmaDoubleComplex K
  dy : Nat → magmaDoubleComplex K
  H : Nat → magmaDoubleComplex K
  HH : Nat → magmaDoubleComplex K
  y : Nat → magmaDoubleComplex K
  h1 : Nat → magmaDoubleComplex K
  m : Nat
  rNorm : K
  n_spmv : Nat
  div_ok : Bool

/-- Record of a division by `d`: the flag stays `true` only when `d` is not zero. -/
def div_check (ok : Bool) (d : magmaDoubleComplex K) : Bool :=
  ok && decide (d ≠ 0)

/-- Loop `for (i = lo; i < lo + n; i++) body(i)`. -/
def forUp {σ : Type} (body : Nat → σ → σ) (lo : Nat) : Nat → σ → σ
  | 0, s => s
  | n + 1, s => body (lo + n) (forUp body lo n s)

/-- Loop `for (i = n; i >= 1; i--) body(i)`. -/
def forDown {σ : Type} (body : Nat → σ → σ) : Nat → σ → σ
  | 0, s => s
  | n + 1, s => forDown body n (body (n + 1) s)

/-- Lines 101-102: `H(i,k) = q(i) . r;  r = r - H(i,k) q(i)`. -/
def mgs_body (dofs ldh k i : Nat) (s : GmresState K) : GmresState K :=
  let h := magma_zdotc dofs (ptr_add s.q (i * dofs)) s.r
  let s1 := { s with H := Function.update s.H (i + k * ldh) h }
  { s1 with r := magma_zaxpy dofs (-(s1.H (i + k * ldh))) (ptr_add s1.q (i * dofs)) s1.r 0 }

/-- Lines 94-98: `v = 1/H(k,k-1)`, `q(k) = v r`, `r = A q(k)`; `H[k][k-1]` of line 94 is
read as `H(k,k-1)`. -/
def arnoldi_apply (A : magma_z_sparse_matrix K) (ldh k : Nat) (s : GmresState K) :
    GmresState K :=
  let dofs := A.num_rows
  let v : magmaDoubleComplex K := MAGMA_Z_MAKE 1 0 / s.H (k + (k - 1) * ldh)
  let s0 := { s with div_ok := div_check s.div_ok (s.H (k + (k - 1) * ldh)) }
  let s1 := { s0 with q := magma_zcopy dofs s0.r s0.q (k * dofs) }
  let s2 := { s1 with q := magma_zscal dofs v s1.q (k * dofs) }
  let q_t := ptr_add s2.q (k * dofs)
  let s3 := { s2 with r := magma_z_spmv MAGMA_Z_ONE A q_t MAGMA_Z_ZERO s2.r }
  { s3 with n_spmv := s3.n_spmv + 1 }

/-- Lines 94-105, the Arnoldi part of inner step `k`. -/
def arnoldi_step (sqrt : K → K) (A : magma_z_sparse_matrix K) (ldh k : Nat)
    (s : GmresState K) : GmresState K :=
  let dofs := A.num_rows
  let s3 := arnoldi_apply A ldh k s
  let s4 := forUp (mgs_body dofs ldh k) 1 k s3
  let nrm := MAGMA_Z_MAKE (magma_dznrm2 sqrt dofs s4.r) 0
  { s4 with H := Function.update s4.H (k + 1 + k * ldh) nrm }

/-- Line 110: `HH(k,i) = H(1..i+1,k)^H H(1..i+1,i)`. -/
def hh_body (ldh k i : Nat) (s : GmresState K) : GmresState K :=
  let d := cblas_zdotc_sub (i + 1) (ptr_add s.H (1 + k * ldh)) (ptr_add s.H (1 + i * ldh))
  { s with HH := Function.update s.HH (k + i * ldh) d }

/-- Line 121: `HH(k,m) -= HH(k,i) * HH(m,i)`. -/
def elim_inner (ldh k i m : Nat) (s : GmresState K) : GmresState K :=
  let e := s.HH (k + m * ldh) - s.HH (k + i * ldh) * s.HH (m + i * ldh)
  { s with HH := Function.update s.HH (k + m * ldh) e }

/-- Lines 120-125, the body of the elimination loop over `i`. -/
def elim_body (ldh k i : Nat) (s : GmresState K) : GmresState K :=
  let s1 := forUp (elim_inner ldh k i) (i + 1) (k - (i + 1)) s
  let d := s1.HH (k + k * ldh) - s1.HH (k + i * ldh) * s1.HH (k + i * ldh) / s1.HH (i + i * ldh)
  let s2 := { s1 with HH := Function.update s1.HH (k + k * ldh) d,
                      div_ok := div_check s1.div_ok (s1.HH (i + i * ldh)) }
  let l := s2.HH (k + i * ldh) / s2.HH (i + i * ldh)
  let s3 := { s2 with HH := Function.update s2.HH (k + i * ldh) l,
                      div_ok := div_check s2.div_ok (s2.HH (i + i * ldh)) }
  { s3 with h1 := Function.update s3.h1 k (s3.h1 k - s3.h1 i * s3.HH (k + i * ldh)) }

/-- Line 132: `y[i] -= y[j] * HH(j,i)`. -/
def back_inner (ldh i j : Nat) (s : GmresState K) : GmresState K :=
  { s with y := Function.update s.y i (s.y i - s.y j * s.HH (j + i * ldh)) }

/-- Lines 130-132, the body of the back-substitution loop over `i`. -/
def back_body (ldh k i : Nat) (s : GmresState K) : GmresState K :=
  let s1 := { s with y := Function.update s.y i (s.h1 i / s.HH (i + i * ldh)),
                     div_ok := div_check s.div_ok (s.HH (i + i * ldh)) }
  forUp (back_inner ldh i) (i + 1) (k - i) s1

/-- Lines 107-133, the projected least-squares part of inner step `k`. -/
def lsq_step (ldh k : Nat) (s : GmresState K) : GmresState K :=
  let s1 := forUp (hh_body ldh k) 1 k s
  let s2 := { s1 with h1 := Function.update s1.h1 k (s1.H (1 + k * ldh) * s1.H (1 + 0 * ldh)) }
  let s3 := if k ≠ 1 then forUp (elim_body ldh k) 1 (k - 1) s2 else s2
  let s4 := { s3 with y := Function.update s3.y k (s3.h1 k / s3.HH (k + k * ldh)),
                      div_ok := div_check s3.div_ok (s3.HH (k + k * ldh)) }
  if k ≠ 1 then forDown (back_body ldh k) (k - 1) s4 else s4

/-- Lines 94-137, one inner step.  Line 135 sets `m = k`, overwriting the use of `m` as
the counter of the loop of line 120. -/
def inner_step (sqrt : K → K) (A : magma_z_sparse_matrix K) (ldh k : Nat)
    (s : GmresState K) : GmresState K :=
  let s1 := arnoldi_step sqrt A ldh k s
  let s2 := lsq_step ldh k s1
  let s3 := { s2 with m := k }
  { s3 with rNorm := |MAGMA_Z_REAL (s3.H (k + 1 + k * ldh))| }

/-- Lines 142-143: `dy = y[1..m]`, then `x += Q[1..m] dy` by `gemv`. -/
def update_x (dofs : Nat) (s : GmresState K) : GmresState K :=
  let s1 := { s with dy := magma_zsetmatrix s.m 1 (ptr_add s.y 1) s.m s.dy s.m }
  let q1 := ptr_add s1.q (1 * dofs)
  { s1 with x := magma_zgemv dofs s1.m MAGMA_Z_ONE q1 dofs s1.dy MAGMA_Z_ONE s1.x }

/-- Line 153: `HH(k,i) += H(j,k) * H(j,i)`, the brackets read as the macros. -/
def post_inner (ldh k i j : Nat) (s : GmresState K) : GmresState K :=
  let e := s.HH (k + i * ldh) + s.H (j + k * ldh) * s.H (j + i * ldh)
  { s with HH := Function.update s.HH (k + i * ldh) e }

/-- Lines 151-153, the body of the loop after the solution update. -/
def post_body (ldh k i : Nat) (s : GmresState K) : GmresState K :=
  let s1 := { s with HH := Function.update s.HH (k + i * ldh) (MAGMA_Z_MAKE 0 0) }
  forUp (post_inner ldh k i) 1 (i + 1) s1

/-- State at the exit of the inner loop of line 92: `restart` inner steps, `k = 1..restart`. -/
def inner_loop (sqrt : K → K) (A : magma_z_sparse_matrix K) (restart : Nat)
    (s : GmresState K) : GmresState K :=
  forUp (inner_step sqrt A (restart + 1)) 1 restart s

/-- Lines 92-154, one outer cycle: the inner loop, the solution update, and the loop of
lines 150-154 run with the exit value `k = restart + 1` of the inner loop. -/
def outer_cycle (sqrt : K → K) (A : magma_z_sparse_matrix K) (restart : Nat)
    (s : GmresState K) : GmresState K :=
  let ldh := restart + 1
  let s1 := inner_loop sqrt A restart s
  let k := restart + 1
  let s2 := update_x A.num_rows s1
  forUp (post_body ldh k) 1 k s2

/-- Outcome of the outer loop: the final value of `iter` and the final state, together
with two observations of the run that the source does not store: the number of outer
cycles executed and whether the loop was left through the `break` of line 158. -/
structure OuterResult (K : Type) where
  iter : Nat
  cycles : Nat
  brk : Bool
  st : GmresState K

/-- Lines 91-160, the outer loop with `n` iterations left.  `RNorm` is declared on line
62 and never assigned. -/
def outer_loop (sqrt : K → K) (A : magma_z_sparse_matrix K) (restart : Nat) (RNorm r0 : K) :
    Nat → Nat → Nat → GmresState K → OuterResult K
  | 0, iter, cycles, s => ⟨iter, cycles, false, s⟩
  | n + 1, iter, cycles, s =>
    let s1 := outer_cycle sqrt A restart s
    if |RNorm * RNorm| < r0 then ⟨iter, cycles + 1, true, s1⟩
    else outer_loop sqrt A restart RNorm r0 n (iter + 1) (cycles + 1) s1

/-- Values the source reads or may read without having written them: the initial content
of the stack arrays `H`, `HH`, `y`, `h1`, of the buffer `dy`, and the locals `m`, `rNorm`,
`RNorm`. -/
structure Uninit (K : Type) where
  H : Nat → magmaDoubleComplex K
  HH : Nat → magmaDoubleComplex K
  y : Nat → magmaDoubleComplex K
  h1 : Nat → magmaDoubleComplex K
  dy : Nat → magmaDoubleComplex K
  m : Nat
  rNorm : K
  RNorm : K

/-- Line 87: `if ((r0 *= epsilon) < ATOLERANCE) r0 = ATOLERANCE;`. -/
def effective_tolerance (r0 epsilon : K) : K :=
  let r0 := r0 * epsilon
  if r0 < ATOLERANCE then ATOLERANCE else r0

/-- Lines 70-84: workspace set to zero, `x = 0`, `r = b`, `r0 = ||r||`, `H(1,0) = r0`.
Returns `r0` and the state before the outer loop, in which no sparse product has been
dispatched and no division made. -/
def gmres_init (sqrt : K → K) (A : magma_z_sparse_matrix K) (b x : Nat → magmaDoubleComplex K)
    (restart : Nat) (u : Uninit K) : K × GmresState K :=
  let dofs := A.num_rows
  let ldh := restart + 1
  let r : Nat → magmaDoubleComplex K := fun _ => MAGMA_Z_ZERO
  let q : Nat → magmaDoubleComplex K := fun _ => MAGMA_Z_ZERO
  let x := magma_zscal dofs MAGMA_Z_ZERO x 0
  let r := magma_zcopy dofs b r 0
  let r0 := magma_dznrm2 sqrt dofs r
  let H := Function.update u.H (1 + 0 * ldh) (MAGMA_Z_MAKE r0 0)
  (r0, ⟨x, b, r, q, u.dy, H, u.HH, u.y, u.h1, u.m, u.rNorm, 0, true⟩)

/-- What a call leaves behind: the returned value, the solution vector, the parameter
record, and the outcome of the outer loop. -/
structure GmresResult (K : Type) where
  ret : Int
  x : Nat → magmaDoubleComplex K
  solver_par : magma_solver_parameters K
  loop : OuterResult K

/-- Lines 25-179.  `MAGMA_SUCCESS` is the value of the constant of that name, which is
defined outside the sources. -/
def magma_zgmres (sqrt : K → K) (MAGMA_SUCCESS : Int) (A : magma_z_sparse_matrix K)
    (b x : Nat → magmaDoubleComplex K) (solver_par : magma_solver_parameters K)
    (u : Uninit K) : GmresResult K :=
  let dofs := A.num_rows
  let i0 := gmres_init sqrt A b x solver_par.restart u
  let r0 := effective_tolerance i0.1 solver_par.epsilon
  let res := outer_loop sqrt A solver_par.restart u.RNorm r0 solver_par.maxiter 0 0 i0.2
  let s := res.st
  let par1 : magma_solver_parameters K :=
    if solver_par.epsilon = RTOLERANCE then
      let r := magma_z_spmv MAGMA_Z_ONE A s.x MAGMA_Z_ZERO s.r
      let r := magma_zaxpy dofs MAGMA_Z_NEG_ONE s.b r 0
      let den := magma_dznrm2 sqrt dofs r
      { solver_par with residual := den }
    else solver_par
  let par2 := { par1 with numiter := res.iter }
  ⟨MAGMA_SUCCESS, s.x, par2, res⟩

/-- Modelled from the spec: the dense vector descriptor (spec section 3, DenseVector), a
device array `val` together with its length `num_rows`. -/
structure magma_z_vector (K : Type) where
  num_rows : Nat
  val : Nat → magmaDoubleComplex K

/-- The call as line 26 declares it, on vector descriptors `b` and `*x`.  The body reads
`b.val` and `x->val` and takes every length from `A.num_rows` (line 60); the field
`num_rows` of the vectors is never read. -/
def magma_zgmres_call (sqrt : K → K) (MAGMA_SUCCESS : Int) (A : magma_z_sparse_matrix K)
    (b x : magma_z_vector K) (solver_par : magma_solver_parameters K) (u : Uninit K) :
    GmresResult K :=
  magma_zgmres sqrt MAGMA_SUCCESS A b.val x.val solver_par u

/-- Product of the operator with a vector, `(A v)(t) = Σ_j A(t,j) v(j)`. -/
def mat_apply (A : magma_z_sparse_matrix K) (v : Nat → magmaDoubleComplex K) :
    Nat → magmaDoubleComplex K :=
  fun t => Finset.sum (Finset.range A.num_rows) fun j => A.val t j * v j

/-- Basis column `q(i)` as inner step `k` leaves it (line 54: `q(i) = q.val + i*dofs`). -/
def arnoldi_q (sqrt : K → K) (A : magma_z_sparse_matrix K) (ldh k : Nat) (s : GmresState K)
    (i : Nat) : Nat → magmaDoubleComplex K :=
  ptr_add (arnoldi_step sqrt A ldh k s).q (i * A.num_rows)

/-- Entry `H(i,k)` as inner step `k` leaves it (line 55: `H(i,j) = H[i + j*ldh]`). -/
def arnoldi_H (sqrt : K → K) (A : magma_z_sparse_matrix K) (ldh k : Nat) (s : GmresState K)
    (i : Nat) : magmaDoubleComplex K :=
  (arnoldi_step sqrt A ldh k s).H (i + k * ldh)

end Model

section Observations

variable {K : Type} [LinearOrderedField K]

/-- True residual norm `‖A x − b‖` of a vector `x`, computed from `A`, `x` and `b` alone. -/
def true_residual (sqrt : K → K) (A : magma_z_sparse_matrix K)
    (b x : Nat → magmaDoubleComplex K) : K :=
  magma_dznrm2 sqrt A.num_rows fun t => mat_apply A x t - b t

/-- Residual vector `b − A x`. -/
def residual_vec (A : magma_z_sparse_matrix K) (b x : Nat → magmaDoubleComplex K) :
    Nat → magmaDoubleComplex K :=
  fun t => b t - mat_apply A x t

/-- Squared Euclidean norm `Σ_{t<n} |v(t)|²` of the first `n` entries of `v`. -/
def norm_sq (n : Nat) (v : Nat → magmaDoubleComplex K) : K :=
  Finset.sum (Finset.range n) fun t => (v t).x * (v t).x + (v t).y * (v t).y

/-- Entry `(i,j)` of the Hessenberg matrix `H_k` held in the flat array `H`: `H(i,j)` for
`i ≤ j+1`, zero below the first subdiagonal. -/
def hess (H : Nat → magmaDoubleComplex K) (ldh i j : Nat) : magmaDoubleComplex K :=
  if i ≤ j + 1 then H (i + j * ldh) else 0

/-- Squared Euclidean norm of `β e₁ − H_k y`, with `β = H(1,0)` and `H_k` the
`(k+1) × k` Hessenberg matrix. -/
def lsq_residual_sq (H : Nat → magmaDoubleComplex K) (ldh k : Nat)
    (y : Nat → magmaDoubleComplex K) : K :=
  Finset.sum (Finset.Icc 1 (k + 1)) fun i =>
    ((if i = 1 then H (1 + 0 * ldh) else 0) -
        Finset.sum (Finset.Icc 1 k) fun j => hess H ldh i j * y j).x ^ 2 +
    ((if i = 1 then H (1 + 0 * ldh) else 0) -
        Finset.sum (Finset.Icc 1 k) fun j => hess H ldh i j * y j).y ^ 2

/-- Row `i` of the left-hand side `H_k^H H_k y` of the normal equations. -/
def normal_lhs (H : Nat → magmaDoubleComplex K) (ldh k : Nat)
    (y : Nat → magmaDoubleComplex K) (i : Nat) : magmaDoubleComplex K :=
  Finset.sum (Finset.Icc 1 k) fun j =>
    (Finset.sum (Finset.Icc 1 (k + 1)) fun t =>
      magmaDoubleComplex.conj (hess H ldh t i) * hess H ldh t j) * y j

/-- Row `i` of the right-hand side `β H_k^H e₁` of the normal equations. -/
def normal_rhs (H : Nat → magmaDoubleComplex K) (ldh i : Nat) : magmaDoubleComplex K :=
  magmaDoubleComplex.conj (hess H ldh 1 i) * H (1 + 0 * ldh)

end Observations

section Inputs

/-- Integer square root of a perfect square (0 for any other number). -/
def isqrt (n : Nat) : Nat := ((List.range (n + 1)).find? fun r => r * r = n).getD 0

/-- Square root on `ℚ`, exact on squares of rationals; every argument the runs below pass
to it is such a square (`0`, `1`, `4`, `100` and `64/25`). -/
def sqrtQ (a : ℚ) : ℚ := (isqrt a.num.toNat : ℚ) / (isqrt a.den : ℚ)

/-- First unit vector. -/
def unit_vec : Nat → magmaDoubleComplex ℚ := fun t => if t = 0 then 1 else 0

/-- Garbage-free stack: every uninitialised array is zero, `m = 0`, and `RNorm` as given. -/
def zero_stack (RNorm : ℚ) : Uninit ℚ :=
  ⟨fun _ => 0, fun _ => 0, fun _ => 0, fun _ => 0, fun _ => 0, 0, 0, RNorm⟩

/-- The 2 × 2 complex matrix with first column `(i, 1)` and second column zero. -/
def A_complex : magma_z_sparse_matrix ℚ where
  num_rows := 2
  val := fun i j => if i = 0 ∧ j = 0 then ⟨0, 1⟩ else if i = 1 ∧ j = 0 then ⟨1, 0⟩ else 0

/-- The 2 × 2 real matrix with first column `(1, 1)` and second column zero. -/
def A_real : magma_z_sparse_matrix ℚ where
  num_rows := 2
  val := fun i j => if j = 0 ∧ i < 2 then 1 else 0

/-- The 1 × 1 identity. -/
def A_one : magma_z_sparse_matrix ℚ where
  num_rows := 1
  val := fun i j => if i = 0 ∧ j = 0 then 1 else 0

/-- The 3 × 3 real matrix with `A e₁ = 2 e₂`, `A e₂ = 2 e₃`, `A e₃ = 4 e₁ + e₃`. -/
def A_shift : magma_z_sparse_matrix ℚ where
  num_rows := 3
  val := fun i j =>
    if i = 1 ∧ j = 0 then ⟨2, 0⟩ else if i = 2 ∧ j = 1 then ⟨2, 0⟩
    else if i = 0 ∧ j = 2 then ⟨4, 0⟩ else if i = 2 ∧ j = 2 then ⟨1, 0⟩ else 0

/-- The 2 × 2 matrix of rank 1 with `A e₁ = e₁`, `A e₂ = 0`. -/
def A_rank1 : magma_z_sparse_matrix ℚ where
  num_rows := 2
  val := fun i j => if i = 0 ∧ j = 0 then 1 else 0

/-- The 2 × 2 matrix of rank 1 with `A e₁ = e₂`, `A e₂ = 0`. -/
def A_nil : magma_z_sparse_matrix ℚ where
  num_rows := 2
  val := fun i j => if i = 1 ∧ j = 0 then 1 else 0

/-- The 2 × 2 lower triangular matrix with rows `(1, 0)` and `(1, 1)`. -/
def A_tri : magma_z_sparse_matrix ℚ where
  num_rows := 2
  val := fun i j => if j ≤ i ∧ i < 2 then 1 else 0

/-- The 2 × 2 strictly diagonally dominant real matrix with rows `(2, 0)` and `(1, 2)`. -/
def A_dom : magma_z_sparse_matrix ℚ where
  num_rows := 2
  val := fun i j =>
    if i = j ∧ i < 2 then ⟨2, 0⟩ else if i = 1 ∧ j = 0 then ⟨1, 0⟩ else 0

end Inputs

section ConcreteRuns

/-- Parameter record with the given tolerance, budget, restart length and entry value of
the field `residual`; `numiter` is 0 on entry. -/
def params (epsilon : ℚ) (maxiter restart : Nat) (residual : ℚ) : magma_solver_parameters ℚ :=
  ⟨epsilon, maxiter, restart, 0, residual⟩

/-- A solve over `ℚ` with right-hand side `e₁`, zero entry content of `x`, the constant
`MAGMA_SUCCESS = 0`, and the given never-assigned value of `RNorm`. -/
def solve (A : magma_z_sparse_matrix ℚ) (par : magma_solver_parameters ℚ) (RNorm : ℚ) :
    GmresResult ℚ :=
  magma_zgmres sqrtQ 0 A unit_vec (fun _ => 0) par (zero_stack RNorm)

/-- State before the outer loop of such a solve. -/
def start_state (A : magma_z_sparse_matrix ℚ) (restart : Nat) : GmresState ℚ :=
  (gmres_init sqrtQ A unit_vec (fun _ => 0) restart (zero_stack 0)).2

/-- State after inner step 1 of the first outer cycle. -/
def first_step (A : magma_z_sparse_matrix ℚ) (restart : Nat) : GmresState ℚ :=
  inner_step sqrtQ A (restart + 1) 1 (start_state A restart)

/-- State after the first outer cycle. -/
def first_cycle (A : magma_z_sparse_matrix ℚ) (restart : Nat) : GmresState ℚ :=
  outer_cycle sqrtQ A restart (start_state A restart)

end ConcreteRuns

/-- Single-precision complex number of `magma_hip_complex.h`: components `x` and `y`. -/
@[ext] structure hipFloatComplex (K : Type) where
  x : K
  y : K
deriving DecidableEq

/-- Double-precision complex number of `magma_hip_complex.h`: components `x` and `y`. -/
@[ext] structure hipDoubleComplex (K : Type) where
  x : K
  y : K
deriving DecidableEq

/-- The header's `typedef hipFloatComplex hipComplex`. -/
abbrev hipComplex (K : Type) : Type := hipFloatComplex K

section HipComplex

variable {K : Type} [Field K]

/-- Source `make_hipFloatComplex(a, b)` (lines 165-170). -/
def make_hipFloatComplex (a b : K) : hipFloatComplex K := ⟨a, b⟩

/-- Source `hipConjf(z)` (lines 172-177): `ret.x = z.x; ret.y = -z.y`. -/
def hipConjf (z : hipFloatComplex K) : hipFloatComplex K := ⟨z.x, -z.y⟩

/-- Source `hipCsqabsf(z) = z.x * z.x + z.y * z.y`. -/
def hipCsqabsf (z : hipFloatComplex K) : K := z.x * z.x + z.y * z.y

/-- Source `hipCaddf(p, q)`. -/
def hipCaddf (p q : hipFloatComplex K) : hipFloatComplex K :=
  make_hipFloatComplex (p.x + q.x) (p.y + q.y)

/-- Source `hipCsubf(p, q)`. -/
def hipCsubf (p q : hipFloatComplex K) : hipFloatComplex K :=
  make_hipFloatComplex (p.x - q.x) (p.y - q.y)

/-- Source `hipCmulf(p, q)`. -/
def hipCmulf (p q : hipFloatComplex K) : hipFloatComplex K :=
  make_hipFloatComplex (p.x * q.x - p.y * q.y) (p.y * q.x + p.x * q.y)

/-- Source `hipCdivf(p, q)`: both components are divided by `sqabs = hipCsqabsf(q)`. -/
def hipCdivf (p q : hipFloatComplex K) : hipFloatComplex K :=
  let sqabs := hipCsqabsf q
  ⟨(p.x * q.x + p.y * q.y) / sqabs, (p.y * q.x - p.x * q.y) / sqabs⟩

/-- Source `make_hipDoubleComplex(a, b)` (lines 228-233). -/
def make_hipDoubleComplex (a b : K) : hipDoubleComplex K := ⟨a, b⟩

/-- Source `hipConj(z)`: `ret.x = z.x; ret.y = z.y`, as lines 235-240 have it. -/
def hipConj (z : hipDoubleComplex K) : hipDoubleComplex K := ⟨z.x, z.y⟩

/-- Source `hipCsqabs(z) = z.x * z.x + z.y * z.y`. -/
def hipCsqabs (z : hipDoubleComplex K) : K := z.x * z.x + z.y * z.y

/-- Source `hipCadd(p, q)`. -/
def hipCadd (p q : hipDoubleComplex K) : hipDoubleComplex K :=
  make_hipDoubleComplex (p.x + q.x) (p.y + q.y)

/-- Source `hipCsub(p, q)`. -/
def hipCsub (p q : hipDoubleComplex K) : hipDoubleComplex K :=
  make_hipDoubleComplex (p.x - q.x) (p.y - q.y)

/-- Source `hipCmul(p, q)`. -/
def hipCmul (p q : hipDoubleComplex K) : hipDoubleComplex K :=
  make_hipDoubleComplex (p.x * q.x - p.y * q.y) (p.y * q.x + p.x * q.y)

/-- Source `hipCdiv(p, q)`: both components are divided by `sqabs = hipCsqabs(q)`. -/
def hipCdiv (p q : hipDoubleComplex K) : hipDoubleComplex K :=
  let sqabs := hipCsqabs q
  ⟨(p.x * q.x + p.y * q.y) / sqabs, (p.y * q.x - p.x * q.y) / sqabs⟩

/-- Source `make_hipComplex(x, y) = make_hipFloatComplex(x, y)`. -/
def make_hipComplex (x y : K) : hipComplex K := make_hipFloatComplex x y

/-- Source `hipCfmaf(p, q, r)`, with the two assignments to `real` and to `imag` of lines
340-348 in their order. -/
def hipCfmaf (p q r : hipComplex K) : hipComplex K :=
  let real := (p.x * q.x) + r.x
  let imag := (q.x * p.y) + r.y
  let real := -(p.y * q.y) + real
  let imag := (p.x * q.y) + imag
  make_hipComplex real imag

/-- Source `hipCfma(p, q, r)`, with the two assignments to `real` and to `imag` of lines
350-359 in their order. -/
def hipCfma (p q r : hipDoubleComplex K) : hipDoubleComplex K :=
  let real := (p.x * q.x) + r.x
  let imag := (q.x * p.y) + r.y
  let real := -(p.y * q.y) + real
  let imag := (p.x * q.y) + imag
  make_hipDoubleComplex real imag

end HipComplex

/-- Side argument of `zunmql` (`magma_side_t`). -/
inductive magma_side_t where
  | MagmaLeft
  | MagmaRight
deriving DecidableEq

/-- Transposition argument of `zunmql` (`magma_trans_t`), the two values the driver uses. -/
inductive magma_trans_t where
  | MagmaNoTrans
  | Magma_ConjTrans
deriving DecidableEq

/-- The fields of `magma_opts` that `main` of `testing_zunmql_gpu.cpp` reads. -/
structure magma_opts (K : Type) where
  ntest : Nat
  niter : Nat
  msize : Nat → Int
  nsize : Nat → Int
  ksize : Nat → Int
  tolerance : K

/-- What `main` of `testing_zunmql_gpu.cpp` has done to the outside so far: the value of
the variable `status`, and the argument of `exit` once one of the allocation macros has
ended the process. -/
structure DriverState where
  status : Int
  exited : Option Int

namespace testing_zunmql_gpu

variable {K : Type} [LinearOrderedField K]

/-- Value that a signed integer variable of `w` bits holds after being assigned the
integer `v`: `v` itself inside `[-2^(w-1), 2^(w-1))`, wrapped around outside. -/
def wrap_signed (w : Nat) (v : Int) : Int :=
  (v + 2 ^ (w - 1)) % 2 ^ w - 2 ^ (w - 1)

/-- Exit status that the parent process observes when `main` returns the `int` value `v`
or `exit(v)` is called: the low 8 bits of `v`. -/
def exit_status (v : Int) : Nat := (v % 256).toNat

/-- Line 50: the array `side[]` holds `MagmaLeft`, then `MagmaRight`. -/
def side (iside : Nat) : magma_side_t :=
  if iside = 0 then magma_side_t.MagmaLeft else magma_side_t.MagmaRight

/-- Line 51: the array `trans[]` holds `Magma_ConjTrans`, then `MagmaNoTrans`. -/
def trans (itran : Nat) : magma_trans_t :=
  if itran = 0 then magma_trans_t.Magma_ConjTrans else magma_trans_t.MagmaNoTrans

/-- The test of lines 69 and 76 taken together: the body `continue`s before any
computation when it holds. -/
def skipped (opts : magma_opts K) (itest iside : Nat) : Bool :=
  let m := opts.msize itest
  let n := opts.nsize itest
  let k := opts.ksize itest
  (decide (side iside = magma_side_t.MagmaLeft) && decide (m < k)) ||
    (decide (side iside = magma_side_t.MagmaRight) && decide (n < k))

/-- Lines 46-47: `tol = opts.tolerance * lapackf77_dlamch("E")` after
`opts.tolerance = max( 60., opts.tolerance )`; `eps` is the value of `dlamch("E")`. -/
def tol (opts : magma_opts K) (eps : K) : K :=
  let tolerance := max 60 opts.tolerance
  tolerance * eps

/-- One pass of the body of the innermost loop (lines 59-191). Nothing runs once the
process has exited. After the two `continue` tests of lines 69 and 76 come the allocation
macros `TESTING_MALLOC_CPU` and `TESTING_MALLOC_DEV` of lines 87-94, defined outside this
file: `alloc_exit itest iside itran iter` is the argument with which they call `exit` in
this pass, `none` when every allocation succeeds. The value `error` of line 173 comes out
of the LAPACK and MAGMA calls of lines 96-173 and is given by
`error itest iside itran iter`; the body uses it in `status += ! (error < tol)` (line 181)
and in printing only. The variable `status` is a `magma_int_t`, a signed integer of `bits`
bits (32, or 64 in an ILP64 build); an overflowing sum wraps around. A non-zero `info` is
printed and changes nothing else. -/
def case_body (bits : Nat) (opts : magma_opts K) (tol : K)
    (error : Nat → Nat → Nat → Nat → K) (alloc_exit : Nat → Nat → Nat → Nat → Option Int)
    (itest iside itran iter : Nat) (s : DriverState) : DriverState :=
  if s.exited.isSome then s
  else
    let m := opts.msize itest
    let n := opts.nsize itest
    let k := opts.ksize itest
    if side iside = magma_side_t.MagmaLeft ∧ m < k then s
    else if side iside = magma_side_t.MagmaRight ∧ n < k then s
    else
      match alloc_exit itest iside itran iter with
      | some c => { s with exited := some c }
      | none =>
        let failed : Int := if error itest iside itran iter < tol then 0 else 1
        { s with status := wrap_signed bits (s.status + failed) }

/-- State of the driver after the four nested loops of lines 55-58, started with
`status = 0` (line 40). -/
def run (bits : Nat) (opts : magma_opts K) (eps : K) (error : Nat → Nat → Nat → Nat → K)
    (alloc_exit : Nat → Nat → Nat → Nat → Option Int) : DriverState :=
  let status := 0
  let tol := tol opts eps
  forUp (fun itest =>
    forUp (fun iside =>
      forUp (fun itran =>
        forUp (fun iter => case_body bits opts tol error alloc_exit itest iside itran iter)
          0 opts.niter)
        0 2) 0 2) 0 opts.ntest ⟨status, none⟩

/-- Exit status of the process that runs `main`: that of the `exit` call of a failed
allocation if there was one, otherwise that of `return status` (line 202), where the
`magma_int_t` value is converted to the 32-bit `int` that `int main` returns. -/
def main (bits : Nat) (opts : magma_opts K) (eps : K) (error : Nat → Nat → Nat → Nat → K)
    (alloc_exit : Nat → Nat → Nat → Nat → Option Int) : Nat :=
  match (run bits opts eps error alloc_exit).exited with
  | some c => exit_status c
  | none => exit_status (wrap_signed 32 (run bits opts eps error alloc_exit).status)

/-- The executed cases that fail: indices `(itest, iside, itran, iter)` inside the loop
bounds that are not skipped and whose error is not strictly below `tol`. -/
def failed_cases (opts : magma_opts K) (tol : K) (error : Nat → Nat → Nat → Nat → K) :
    Finset (Nat × Nat × Nat × Nat) :=
  (Finset.range opts.ntest ×ˢ Finset.range 2 ×ˢ Finset.range 2 ×ˢ
      Finset.range opts.niter).filter
    fun c => skipped opts c.1 c.2.1 = false ∧ ¬ error c.1 c.2.1 c.2.2.1 c.2.2.2 < tol

/-- Options of a run of 64 tests of size `m = n = k = 1`, one iteration each, with the
tolerance left at 60: 256 cases, none skipped. -/
def opts_many : magma_opts ℚ := ⟨64, 1, fun _ => 1, fun _ => 1, fun _ => 1, 60⟩

/-- Options of a run of one test with `m = 2`, `n = 1`, `k = 2`, one iteration: the two
left-side cases are executed, the two right-side cases are skipped. -/
def opts_one : magma_opts ℚ := ⟨1, 1, fun _ => 2, fun _ => 1, fun _ => 2, 60⟩

end testing_zunmql_gpu

section Workspace

/-- Number of elements of `H`, declared as `H[(ldh+1)*ldh]` (line 65). -/
def H_size (ldh : Nat) : Nat := (ldh + 1) * ldh

/-- Number of elements of `HH`, declared as `HH[ldh*ldh]` (line 65). -/
def HH_size (ldh : Nat) : Nat := ldh * ldh

/-- Number of elements of `y` and of `h1`, declared as `y[ldh]`, `h1[ldh]` (line 66). -/
def y_size (ldh : Nat) : Nat := ldh

/-- Stack content before a solve over `ℚ` in which cell `p` of the never-initialised array
`H` holds the value `g` and every other never-initialised cell holds zero. -/
def marked_stack (p : Nat) (g : ℚ) : Uninit ℚ :=
  ⟨fun q => if q = p then ⟨g, 0⟩ else 0, fun _ => 0, fun _ => 0, fun _ => 0, fun _ => 0,
    0, 0, 0⟩

/-- State after the first outer cycle of a solve of `A x = e₁` started on `marked_stack p g`. -/
def marked_cycle (A : magma_z_sparse_matrix ℚ) (restart p : Nat) (g : ℚ) : GmresState ℚ :=
  outer_cycle sqrtQ A restart (gmres_init sqrtQ A unit_vec (fun _ => 0) restart
    (marked_stack p g)).2

end Workspace

section Factorisation

variable {K : Type} [LinearOrderedField K]

/-- Unit lower triangular factor read off `HH`: `L(j,m) = HH(j,m)` off the diagonal and
`L(j,j) = 1`. -/
def ldl_L (HH : Nat → magmaDoubleComplex K) (ldh j m : Nat) : magmaDoubleComplex K :=
  if m = j then 1 else HH (j + m * ldh)

/-- Diagonal factor read off `HH`: `D(m) = HH(m,m)`. -/
def ldl_D (HH : Nat → magmaDoubleComplex K) (ldh m : Nat) : magmaDoubleComplex K :=
  HH (m + m * ldh)

/-- Entry `(j,i)`, `i ≤ j`, of the product `L D Lᵀ`: `Σ_{m=1..i} L(j,m) D(m) L(i,m)`. -/
def ldl_entry (HH : Nat → magmaDoubleComplex K) (ldh j i : Nat) : magmaDoubleComplex K :=
  Finset.sum (Finset.Icc 1 i) fun m => ldl_L HH ldh j m * ldl_D HH ldh m * ldl_L HH ldh i m

/-- Entry `(j,i)`, `i ≤ j`, of the Gram matrix of the Hessenberg columns:
`Σ_{t=1..i+1} conj(H(t,j)) H(t,i)`. -/
def gram (H : Nat → magmaDoubleComplex K) (ldh j i : Nat) : magmaDoubleComplex K :=
  Finset.sum (Finset.Icc 1 (i + 1)) fun t =>
    magmaDoubleComplex.conj (H (t + j * ldh)) * H (t + i * ldh)

/-- Entry `(i,j)` of `H_kᵀ H_k`, with `H_k` the `(k+1) × k` Hessenberg matrix held in `H`
(transpose without conjugation). -/
def normal_matrix (H : Nat → magmaDoubleComplex K) (ldh k i j : Nat) : magmaDoubleComplex K :=
  Finset.sum (Finset.Icc 1 (k + 1)) fun t => hess H ldh t i * hess H ldh t j

/-- The state `s` with the array `y` replaced. -/
def with_y (s : GmresState K) (y : Nat → magmaDoubleComplex K) : GmresState K :=
  { s with y := y }

end Factorisation

namespace magmaDoubleComplex

variable {K : Type} [LinearOrderedField K]

@[simp] theorem zero_x : (0 : magmaDoubleComplex K).x = 0 := rfl
@[simp] theorem zero_y : (0 : magmaDoubleComplex K).y = 0 := rfl
@[simp] theorem one_x : (1 : magmaDoubleComplex K).x = 1 := rfl
@[simp] theorem one_y : (1 : magmaDoubleComplex K).y = 0 := rfl
@[simp] theorem add_x (a b : magmaDoubleComplex K) : (a + b).x = a.x + b.x := rfl
@[simp] theorem add_y (a b : magmaDoubleComplex K) : (a + b).y = a.y + b.y := rfl
@[simp] theorem neg_x (a : magmaDoubleComplex K) : (-a).x = -a.x := rfl
@[simp] theorem neg_y (a : magmaDoubleComplex K) : (-a).y = -a.y := rfl
@[simp] theorem sub_x (a b : magmaDoubleComplex K) : (a - b).x = a.x - b.x := rfl
@[simp] theorem sub_y (a b : magmaDoubleComplex K) : (a - b).y = a.y - b.y := rfl
@[simp] theorem mul_x (a b : magmaDoubleComplex K) : (a * b).x = a.x * b.x - a.y * b.y := rfl
@[simp] theorem mul_y (a b : magmaDoubleComplex K) : (a * b).y = a.x * b.y + a.y * b.x := rfl
@[simp] theorem div_x (a b : magmaDoubleComplex K) :
    (a / b).x = (a.x * b.x + a.y * b.y) / (b.x * b.x + b.y * b.y) := rfl
@[simp] theorem div_y (a b : magmaDoubleComplex K) :
    (a / b).y = (b.x * a.y - a.x * b.y) / (b.x * b.x + b.y * b.y) := rfl
@[simp] theorem conj_x (a : magmaDoubleComplex K) : (conj a).x = a.x := rfl
@[simp] theorem conj_y (a : magmaDoubleComplex K) : (conj a).y = -a.y := rfl

end magmaDoubleComplex

section Basics

variable {K : Type} [LinearOrderedField K]

theorem MAGMA_Z_ONE_eq : (MAGMA_Z_ONE : magmaDoubleComplex K) = 1 := rfl

theorem MAGMA_Z_ZERO_eq : (MAGMA_Z_ZERO : magmaDoubleComplex K) = 0 := rfl

theorem MAGMA_Z_NEG_ONE_eq : (MAGMA_Z_NEG_ONE : magmaDoubleComplex K) = -1 := by
  ext <;> simp [MAGMA_Z_NEG_ONE, MAGMA_Z_MAKE]

/-- Loop rule for `forUp`: an invariant indexed by the number of iterations done. -/
theorem forUp_induct {σ : Type} (P : Nat → σ → Prop) (body : Nat → σ → σ) (lo : Nat) (s : σ)
    (h0 : P 0 s) (hstep : ∀ n st, P n st → P (n + 1) (body (lo + n) st)) :
    ∀ n, P n (forUp body lo n s) := by
  intro n
  induction n with
  | zero => exact h0
  | succ n ih => exact hstep n _ ih

/-- Loop rule for `forUp` with an invariant that does not mention the counter. -/
theorem forUp_preserves {σ : Type} (P : σ → Prop) (body : Nat → σ → σ) (lo n : Nat) (s : σ)
    (h0 : P s) (hstep : ∀ i st, P st → P (body i st)) : P (forUp body lo n s) :=
  forUp_induct (fun _ st => P st) body lo s h0 (fun m st h => hstep (lo + m) st h) n

/-- Loop rule for `forDown`. -/
theorem forDown_preserves {σ : Type} (P : σ → Prop) (body : Nat → σ → σ) (n : Nat) (s : σ)
    (h0 : P s) (hstep : ∀ i st, P st → P (body i st)) : P (forDown body n s) := by
  induction n generalizing s with
  | zero => exact h0
  | succ n ih => exact ih _ (hstep _ _ h0)

end Basics

section Arnoldi

variable {K : Type} [LinearOrderedField K]

/-- Invariant of the modified Gram-Schmidt loop of lines 100-103 after `n` passes. -/
theorem mgs_loop_spec (dofs ldh k : Nat) (s : GmresState K) (n : Nat) :
    (forUp (mgs_body dofs ldh k) 1 n s).q = s.q ∧
    (∀ p, (forUp (mgs_body dofs ldh k) 1 n s).r p =
      if p < dofs then
        s.r p - Finset.sum (Finset.Ico 1 (n + 1)) fun i =>
          (forUp (mgs_body dofs ldh k) 1 n s).H (i + k * ldh) * s.q (i * dofs + p)
      else s.r p) ∧
    (∀ i, 1 ≤ i → i < n + 1 →
      (forUp (mgs_body dofs ldh k) 1 n s).H (i + k * ldh) =
        magma_zdotc dofs (ptr_add s.q (i * dofs)) fun t =>
          s.r t - Finset.sum (Finset.Ico 1 i) fun j =>
            (forUp (mgs_body dofs ldh k) 1 n s).H (j + k * ldh) * s.q (j * dofs + t)) ∧
    (∀ p, (∀ i, 1 ≤ i → i < n + 1 → p ≠ i + k * ldh) →
      (forUp (mgs_body dofs ldh k) 1 n s).H p = s.H p) := by
  induction n with
  | zero =>
    refine ⟨rfl, ?_, ?_, ?_⟩
    · intro p; simp [forUp]
    · intro i h1 h2; omega
    · intro p _; rfl
  | succ n ih =>
    obtain ⟨ihq, ihr, ihH, ihF⟩ := ih
    generalize hst : forUp (mgs_body dofs ldh k) 1 n s = st at ihq ihr ihH ihF
    have hrec : forUp (mgs_body dofs ldh k) 1 (n + 1) s = mgs_body dofs ldh k (1 + n) st := by
      simp [forUp, hst]
    rw [hrec]
    have hH : ∀ p, (mgs_body dofs ldh k (1 + n) st).H p =
        Function.update st.H (1 + n + k * ldh)
          (magma_zdotc dofs (ptr_add st.q ((1 + n) * dofs)) st.r) p := fun p => rfl
    have hold : ∀ i, i < n + 1 →
        (mgs_body dofs ldh k (1 + n) st).H (i + k * ldh) = st.H (i + k * ldh) := by
      intro i hi
      rw [hH, Function.update_noteq]
      omega
    have hnew : (mgs_body dofs ldh k (1 + n) st).H (n + 1 + k * ldh) =
        magma_zdotc dofs (ptr_add s.q ((n + 1) * dofs)) fun t =>
          s.r t - Finset.sum (Finset.Ico 1 (n + 1)) fun j =>
            st.H (j + k * ldh) * s.q (j * dofs + t) := by
      rw [hH, show 1 + n + k * ldh = n + 1 + k * ldh by omega, Function.update_same, ihq,
        show 1 + n = n + 1 by omega]
      unfold magma_zdotc
      apply Finset.sum_congr rfl
      intro t ht
      rw [ihr t, if_pos (Finset.mem_range.mp ht)]
    refine ⟨?_, ?_, ?_, ?_⟩
    · exact ihq
    · intro p
      have hr : (mgs_body dofs ldh k (1 + n) st).r p =
          if 0 ≤ p ∧ p < 0 + dofs then
            -(mgs_body dofs ldh k (1 + n) st).H (1 + n + k * ldh) * st.q ((1 + n) * dofs + (p - 0))
              + st.r p
          else st.r p := rfl
      rw [hr]
      by_cases hp : p < dofs
      · have hp' : 0 ≤ p ∧ p < 0 + dofs := ⟨Nat.zero_le _, by omega⟩
        rw [if_pos hp', if_pos hp, Finset.sum_Ico_succ_top (by omega), ihr p, if_pos hp, ihq]
        have hs : (Finset.sum (Finset.Ico 1 (n + 1)) fun i =>
            (mgs_body dofs ldh k (1 + n) st).H (i + k * ldh) * s.q (i * dofs + p)) =
            Finset.sum (Finset.Ico 1 (n + 1)) fun i => st.H (i + k * ldh) * s.q (i * dofs + p) := by
          apply Finset.sum_congr rfl
          intro i hi
          rw [hold i (Finset.mem_Ico.mp hi).2]
        rw [hs, show 1 + n = n + 1 by omega, Nat.sub_zero]
        ring
      · have hp' : ¬ (0 ≤ p ∧ p < 0 + dofs) := by omega
        rw [if_neg hp', if_neg hp, ihr p, if_neg hp]
    · intro i h1 h2
      have hs : ∀ t, (Finset.sum (Finset.Ico 1 i) fun j =>
          (mgs_body dofs ldh k (1 + n) st).H (j + k * ldh) * s.q (j * dofs + t)) =
          Finset.sum (Finset.Ico 1 i) fun j => st.H (j + k * ldh) * s.q (j * dofs + t) := by
        intro t
        apply Finset.sum_congr rfl
        intro j hj
        rw [hold j (by have := (Finset.mem_Ico.mp hj).2; omega)]
      simp only [hs]
      by_cases hi : i < n + 1
      · rw [hold i hi]
        exact ihH i h1 hi
      · have hin : i = n + 1 := by omega
        subst hin
        exact hnew
    · intro p hp
      rw [hH, Function.update_noteq, ihF p]
      · intro i h1 h2
        exact hp i h1 (by omega)
      · have := hp (n + 1) (by omega) (by omega)
        omega

end Arnoldi

section ArnoldiStep

variable {K : Type} [LinearOrderedField K]

/-- C3: inner step `k` with `w = A q(k)` writes `H(i,k) = <q(i), w - Σ_{j<i} H(j,k) q(j)>`
for `i = 1..k` (conjugate-linear in the first argument, one pass in increasing `i`),
leaves `r = A q(k) - Σ_{i=1..k} H(i,k) q(i)` (the Arnoldi relation), and stores the
Euclidean norm of that `r` in `H(k+1,k)`. -/
theorem arnoldi_step_spec (sqrt : K → K) (A : magma_z_sparse_matrix K) (ldh k : Nat)
    (s : GmresState K) :
    (∀ i, 1 ≤ i → i ≤ k →
      arnoldi_H sqrt A ldh k s i =
        magma_zdotc A.num_rows (arnoldi_q sqrt A ldh k s i) fun t =>
          mat_apply A (arnoldi_q sqrt A ldh k s k) t -
            Finset.sum (Finset.Ico 1 i) fun j =>
              arnoldi_H sqrt A ldh k s j * arnoldi_q sqrt A ldh k s j t) ∧
    (∀ t, t < A.num_rows →
      (arnoldi_step sqrt A ldh k s).r t =
        mat_apply A (arnoldi_q sqrt A ldh k s k) t -
          Finset.sum (Finset.Icc 1 k) fun i =>
            arnoldi_H sqrt A ldh k s i * arnoldi_q sqrt A ldh k s i t) ∧
    arnoldi_H sqrt A ldh k s (k + 1) =
      MAGMA_Z_MAKE (magma_dznrm2 sqrt A.num_rows (arnoldi_step sqrt A ldh k s).r) 0 := by
  obtain ⟨hq, hr, hH, -⟩ := mgs_loop_spec A.num_rows ldh k (arnoldi_apply A ldh k s) k
  generalize hst : forUp (mgs_body A.num_rows ldh k) 1 k (arnoldi_apply A ldh k s) = st
    at hq hr hH
  have eq : (arnoldi_step sqrt A ldh k s).q = (arnoldi_apply A ldh k s).q := by
    simp only [arnoldi_step, hst]; exact hq
  have er : (arnoldi_step sqrt A ldh k s).r = st.r := by
    simp only [arnoldi_step, hst]
  have eH : ∀ p, (arnoldi_step sqrt A ldh k s).H p =
      Function.update st.H (k + 1 + k * ldh)
        (MAGMA_Z_MAKE (magma_dznrm2 sqrt A.num_rows st.r) 0) p := by
    intro p; simp only [arnoldi_step, hst]
  have eHi : ∀ i, i ≤ k → arnoldi_H sqrt A ldh k s i = st.H (i + k * ldh) := by
    intro i hi
    unfold arnoldi_H
    rw [eH, Function.update_noteq]
    omega
  have eqi : ∀ i t, arnoldi_q sqrt A ldh k s i t =
      (arnoldi_apply A ldh k s).q (i * A.num_rows + t) := by
    intro i t
    unfold arnoldi_q ptr_add
    rw [eq]
  have eqf : ∀ i, arnoldi_q sqrt A ldh k s i =
      ptr_add (arnoldi_apply A ldh k s).q (i * A.num_rows) := by
    intro i
    unfold arnoldi_q
    rw [eq]
  have ew : ∀ t, t < A.num_rows →
      (arnoldi_apply A ldh k s).r t = mat_apply A (arnoldi_q sqrt A ldh k s k) t := by
    intro t ht
    have h0 : (arnoldi_apply A ldh k s).r t =
        magma_z_spmv MAGMA_Z_ONE A (ptr_add (arnoldi_apply A ldh k s).q (k * A.num_rows))
          MAGMA_Z_ZERO s.r t := rfl
    rw [h0, eqf]
    unfold magma_z_spmv mat_apply
    rw [if_pos ht, MAGMA_Z_ONE_eq, MAGMA_Z_ZERO_eq, one_mul, zero_mul, add_zero]
  refine ⟨?_, ?_, ?_⟩
  · intro i h1 h2
    rw [eHi i h2, hH i h1 (by omega), eqf]
    unfold magma_zdotc
    apply Finset.sum_congr rfl
    intro t ht
    beta_reduce
    rw [ew t (Finset.mem_range.mp ht)]
    congr 2
    apply Finset.sum_congr rfl
    intro j hj
    rw [eHi j (by have := (Finset.mem_Ico.mp hj).2; omega), eqi]
  · intro t ht
    rw [er, hr t, if_pos ht, ew t ht]
    congr 1
    have hIcc : Finset.Icc 1 k = Finset.Ico 1 (k + 1) := by
      ext i; simp only [Finset.mem_Icc, Finset.mem_Ico]; omega
    rw [hIcc]
    apply Finset.sum_congr rfl
    intro i hi
    rw [eHi i (by have := (Finset.mem_Ico.mp hi).2; omega), eqi]
  · unfold arnoldi_H
    rw [eH, Function.update_same, er]

end ArnoldiStep

section Frame

variable {K : Type} [LinearOrderedField K]

/-- No inner step writes the solution vector or the right-hand side. -/
theorem inner_step_frame (sqrt : K → K) (A : magma_z_sparse_matrix K) (ldh k : Nat)
    (s : GmresState K) :
    (inner_step sqrt A ldh k s).x = s.x ∧ (inner_step sqrt A ldh k s).b = s.b := by
  have h1 : (arnoldi_step sqrt A ldh k s).x = s.x ∧ (arnoldi_step sqrt A ldh k s).b = s.b := by
    have := forUp_preserves (fun st : GmresState K => st.x = s.x ∧ st.b = s.b)
      (mgs_body A.num_rows ldh k) 1 k (arnoldi_apply A ldh k s) ⟨rfl, rfl⟩
      (fun i st h => h)
    exact this
  have h2 : ∀ st : GmresState K, (lsq_step ldh k st).x = st.x ∧ (lsq_step ldh k st).b = st.b := by
    intro st
    have e1 := forUp_preserves (fun t : GmresState K => t.x = st.x ∧ t.b = st.b)
      (hh_body ldh k) 1 k st ⟨rfl, rfl⟩ (fun i t h => h)
    have hel : ∀ i (t : GmresState K), (t.x = st.x ∧ t.b = st.b) →
        ((elim_body ldh k i t).x = st.x ∧ (elim_body ldh k i t).b = st.b) := by
      intro i t h
      exact forUp_preserves (fun t : GmresState K => t.x = st.x ∧ t.b = st.b)
        (elim_inner ldh k i) (i + 1) (k - (i + 1)) t h (fun j t h => h)
    have hbk : ∀ i (t : GmresState K), (t.x = st.x ∧ t.b = st.b) →
        ((back_body ldh k i t).x = st.x ∧ (back_body ldh k i t).b = st.b) := by
      intro i t h
      exact forUp_preserves (fun t : GmresState K => t.x = st.x ∧ t.b = st.b)
        (back_inner ldh i) (i + 1) (k - i) _ h (fun j t h => h)
    unfold lsq_step
    by_cases hk : k ≠ 1
    · simp only [if_pos hk]
      apply forDown_preserves (fun t : GmresState K => t.x = st.x ∧ t.b = st.b) _ _ _ _ hbk
      exact forUp_preserves (fun t : GmresState K => t.x = st.x ∧ t.b = st.b)
        (elim_body ldh k) 1 (k - 1) _ e1 hel
    · simp only [if_neg hk]
      exact e1
  have h3 := h2 (arnoldi_step sqrt A ldh k s)
  exact ⟨h3.1.trans h1.1, h3.2.trans h1.2⟩

/-- The inner loop of a cycle writes neither `x` nor `b`. -/
theorem inner_loop_frame (sqrt : K → K) (A : magma_z_sparse_matrix K) (restart : Nat)
    (s : GmresState K) :
    (inner_loop sqrt A restart s).x = s.x ∧ (inner_loop sqrt A restart s).b = s.b :=
  forUp_preserves (fun st : GmresState K => st.x = s.x ∧ st.b = s.b)
    (inner_step sqrt A (restart + 1)) 1 restart s ⟨rfl, rfl⟩
    (fun i st h => ⟨(inner_step_frame sqrt A (restart + 1) i st).1.trans h.1,
      (inner_step_frame sqrt A (restart + 1) i st).2.trans h.2⟩)

/-- The loop of lines 150-154 writes only `HH`. -/
theorem post_block_frame (ldh k n : Nat) (s : GmresState K) :
    (forUp (post_body ldh k) 1 n s).x = s.x ∧ (forUp (post_body ldh k) 1 n s).b = s.b :=
  forUp_preserves (fun st : GmresState K => st.x = s.x ∧ st.b = s.b)
    (post_body ldh k) 1 n s ⟨rfl, rfl⟩
    (fun i _ h => forUp_preserves (fun t : GmresState K => t.x = s.x ∧ t.b = s.b)
      (post_inner ldh k i) 1 (i + 1) _ h (fun _ _ h => h))

/-- After at least one inner step, `m` holds the index of the last step. -/
theorem inner_loop_m (sqrt : K → K) (A : magma_z_sparse_matrix K) (restart : Nat)
    (s : GmresState K) (h : 1 ≤ restart) : (inner_loop sqrt A restart s).m = restart := by
  obtain ⟨n, rfl⟩ : ∃ n, restart = n + 1 := ⟨restart - 1, by omega⟩
  show (inner_step sqrt A (n + 1 + 1) (1 + n) _).m = n + 1
  show 1 + n = n + 1
  omega

/-- Lines 142-143 add `Σ_{i=1..m} y[i] q(i)` to the first `dofs` entries of `x`. -/
theorem update_x_spec (dofs : Nat) (s : GmresState K) (t : Nat) :
    (update_x dofs s).x t =
      if t < dofs then
        s.x t + Finset.sum (Finset.Icc 1 s.m) fun i => s.y i * s.q (i * dofs + t)
      else s.x t := by
  have h0 : (update_x dofs s).x t =
      magma_zgemv dofs s.m MAGMA_Z_ONE (ptr_add s.q (1 * dofs)) dofs
        (magma_zsetmatrix s.m 1 (ptr_add s.y 1) s.m s.dy s.m) MAGMA_Z_ONE s.x t := rfl
  rw [h0]
  unfold magma_zgemv
  by_cases ht : t < dofs
  · rw [if_pos ht, if_pos ht, MAGMA_Z_ONE_eq]
    simp only [one_mul]
    rw [add_comm]
    congr 1
    have hIcc : Finset.Icc 1 s.m = Finset.Ico 1 (s.m + 1) := by
      ext i; simp only [Finset.mem_Icc, Finset.mem_Ico]; omega
    rw [hIcc, Finset.sum_Ico_eq_sum_range, Nat.add_sub_cancel]
    apply Finset.sum_congr rfl
    intro c hc
    have hc' : c < s.m := Finset.mem_range.mp hc
    have hdy : magma_zsetmatrix s.m 1 (ptr_add s.y 1) s.m s.dy s.m c = s.y (1 + c) := by
      unfold magma_zsetmatrix ptr_add
      have h1 : c / s.m = 0 := Nat.div_eq_of_lt hc'
      have h2 : c % s.m = c := Nat.mod_eq_of_lt hc'
      rw [h1, h2, if_pos ⟨by omega, hc'⟩]
      simp
    rw [hdy]
    unfold ptr_add
    rw [mul_comm]
    congr 2
    ring
  · rw [if_neg ht, if_neg ht]

end Frame

section Update

variable {K : Type} [LinearOrderedField K]

/-- The outer loop never writes the right-hand side. -/
theorem outer_loop_b (sqrt : K → K) (A : magma_z_sparse_matrix K) (restart : Nat)
    (RNorm r0 : K) (n iter cycles : Nat) (s : GmresState K) :
    (outer_loop sqrt A restart RNorm r0 n iter cycles s).st.b = s.b := by
  have hc : ∀ st : GmresState K, (outer_cycle sqrt A restart st).b = st.b := by
    intro st
    unfold outer_cycle
    exact (post_block_frame _ _ _ _).2.trans (inner_loop_frame sqrt A restart st).2
  induction n generalizing iter cycles s with
  | zero => rfl
  | succ n ih =>
    unfold outer_loop
    by_cases hb : |RNorm * RNorm| < r0
    · simp only [if_pos hb]
      exact hc s
    · simp only [if_neg hb]
      exact (ih _ _ _).trans (hc s)

/-- C2: at the end of an outer cycle (restart length at least 1) `m` is the number
`restart` of inner steps the cycle ran, the solution is `x + Σ_{i=1..m} y[i] q(i)` with
the coefficients and basis columns left by the last inner step, entries of `x` beyond
`dofs` are untouched, and neither the cycle nor the whole solve modifies `b`. -/
theorem outer_cycle_update (sqrt : K → K) (MAGMA_SUCCESS : Int) (A : magma_z_sparse_matrix K)
    (b x : Nat → magmaDoubleComplex K) (solver_par : magma_solver_parameters K) (u : Uninit K)
    (restart : Nat) (s : GmresState K) (h : 1 ≤ restart) :
    (inner_loop sqrt A restart s).m = restart ∧
    (∀ t, t < A.num_rows →
      (outer_cycle sqrt A restart s).x t =
        s.x t + Finset.sum (Finset.Icc 1 restart) fun i =>
          (inner_loop sqrt A restart s).y i *
            (inner_loop sqrt A restart s).q (i * A.num_rows + t)) ∧
    (∀ t, A.num_rows ≤ t → (outer_cycle sqrt A restart s).x t = s.x t) ∧
    (outer_cycle sqrt A restart s).b = s.b ∧
    (magma_zgmres sqrt MAGMA_SUCCESS A b x solver_par u).loop.st.b = b := by
  have hm := inner_loop_m sqrt A restart s h
  have hf := inner_loop_frame sqrt A restart s
  have hx : ∀ t, (outer_cycle sqrt A restart s).x t =
      (update_x A.num_rows (inner_loop sqrt A restart s)).x t := by
    intro t
    unfold outer_cycle
    rw [(post_block_frame _ _ _ _).1]
  refine ⟨hm, ?_, ?_, ?_, ?_⟩
  · intro t ht
    rw [hx, update_x_spec, if_pos ht, hm, hf.1]
  · intro t ht
    rw [hx, update_x_spec, if_neg (by omega), hf.1]
  · unfold outer_cycle
    exact (post_block_frame _ _ _ _).2.trans hf.2
  · unfold magma_zgmres
    exact outer_loop_b _ _ _ _ _ _ _ _ _

end Update

section Control

variable {K : Type} [LinearOrderedField K]

/-- Counting lemma for the outer loop: at most `n` further cycles run; a run that is
not left through the `break` runs exactly `n` more and advances `iter` as often; a run
left through the `break` reports one cycle fewer in `iter`. -/
theorem outer_loop_count (sqrt : K → K) (A : magma_z_sparse_matrix K) (restart : Nat)
    (RNorm r0 : K) (n iter cycles : Nat) (s : GmresState K) :
    (outer_loop sqrt A restart RNorm r0 n iter cycles s).cycles ≤ cycles + n ∧
    ((outer_loop sqrt A restart RNorm r0 n iter cycles s).brk = false →
      (outer_loop sqrt A restart RNorm r0 n iter cycles s).cycles = cycles + n ∧
      (outer_loop sqrt A restart RNorm r0 n iter cycles s).iter = iter + n) ∧
    ((outer_loop sqrt A restart RNorm r0 n iter cycles s).brk = true →
      (outer_loop sqrt A restart RNorm r0 n iter cycles s).cycles + iter =
        (outer_loop sqrt A restart RNorm r0 n iter cycles s).iter + cycles + 1) := by
  induction n generalizing iter cycles s with
  | zero =>
    refine ⟨Nat.le_refl _, fun _ => ⟨rfl, rfl⟩, ?_⟩
    intro h
    exact absurd h (by simp [outer_loop])
  | succ n ih =>
    unfold outer_loop
    by_cases hb : |RNorm * RNorm| < r0
    · simp only [if_pos hb]
      refine ⟨by omega, ?_, ?_⟩
      · intro h; exact absurd h (by simp)
      · intro _; omega
    · simp only [if_neg hb]
      obtain ⟨h1, h2, h3⟩ := ih (iter + 1) (cycles + 1) (outer_cycle sqrt A restart s)
      refine ⟨by omega, ?_, ?_⟩
      · intro h
        obtain ⟨h4, h5⟩ := h2 h
        exact ⟨by omega, by omega⟩
      · intro h
        have := h3 h
        omega

/-- The outer loop is left through the `break` exactly when at least one cycle runs and
`fabs(RNorm*RNorm) < r0`: the decision depends on nothing the cycles compute. -/
theorem outer_loop_brk_iff (sqrt : K → K) (A : magma_z_sparse_matrix K) (restart : Nat)
    (RNorm r0 : K) (n iter cycles : Nat) (s : GmresState K) :
    (outer_loop sqrt A restart RNorm r0 n iter cycles s).brk = true ↔
      (0 < n ∧ |RNorm * RNorm| < r0) := by
  induction n generalizing iter cycles s with
  | zero => simp [outer_loop]
  | succ n ih =>
    unfold outer_loop
    by_cases hb : |RNorm * RNorm| < r0
    · simp only [if_pos hb]
      exact ⟨fun _ => ⟨Nat.succ_pos n, hb⟩, fun _ => trivial⟩
    · simp only [if_neg hb]
      rw [ih]
      exact ⟨fun h => absurd h.2 hb, fun h => absurd h.2 hb⟩

/-- C10: the tolerance in force after line 87 is `max (epsilon * ‖r‖, ATOLERANCE)`, where
`r` is the initial residual vector and `ATOLERANCE = 10e-10`, for every `epsilon` and
every initial residual. -/
theorem effective_tolerance_eq_max (sqrt : K → K) (A : magma_z_sparse_matrix K)
    (b x : Nat → magmaDoubleComplex K) (restart : Nat) (u : Uninit K) (epsilon : K) :
    effective_tolerance (gmres_init sqrt A b x restart u).1 epsilon =
      max (epsilon * magma_dznrm2 sqrt A.num_rows (gmres_init sqrt A b x restart u).2.r)
        ATOLERANCE ∧
    (ATOLERANCE : K) = 10 * (1 / 10 ^ 10) := by
  have h0 : (gmres_init sqrt A b x restart u).1 =
      magma_dznrm2 sqrt A.num_rows (gmres_init sqrt A b x restart u).2.r := rfl
  rw [← h0]
  generalize (gmres_init sqrt A b x restart u).1 = r0
  refine ⟨?_, by unfold ATOLERANCE; ring⟩
  unfold effective_tolerance
  simp only [mul_comm r0 epsilon]
  by_cases h : epsilon * r0 < ATOLERANCE
  · rw [if_pos h, max_eq_right (le_of_lt h)]
  · rw [if_neg h, max_eq_left (not_lt.mp h)]

/-- C5 (amended): when `epsilon` equals `RTOLERANCE` the reported residual is the
true residual norm `‖A x − b‖` of the returned `x`; for any other `epsilon` the field
`residual` keeps the value it had on entry. -/
theorem residual_reported (sqrt : K → K) (MAGMA_SUCCESS : Int) (A : magma_z_sparse_matrix K)
    (b x : Nat → magmaDoubleComplex K) (solver_par : magma_solver_parameters K) (u : Uninit K) :
    (solver_par.epsilon = RTOLERANCE →
      (magma_zgmres sqrt MAGMA_SUCCESS A b x solver_par u).solver_par.residual =
        true_residual sqrt A b (magma_zgmres sqrt MAGMA_SUCCESS A b x solver_par u).x) ∧
    (solver_par.epsilon ≠ RTOLERANCE →
      (magma_zgmres sqrt MAGMA_SUCCESS A b x solver_par u).solver_par.residual =
        solver_par.residual) := by
  constructor
  · intro h
    have hb := outer_loop_b sqrt A solver_par.restart u.RNorm
      (effective_tolerance (gmres_init sqrt A b x solver_par.restart u).1 solver_par.epsilon)
      solver_par.maxiter 0 0 (gmres_init sqrt A b x solver_par.restart u).2
    have hb0 : (gmres_init sqrt A b x solver_par.restart u).2.b = b := rfl
    rw [hb0] at hb
    unfold magma_zgmres true_residual
    simp only [if_pos h]
    rw [hb]
    unfold magma_dznrm2
    congr 1
    apply Finset.sum_congr rfl
    intro t ht
    have ht' : t < A.num_rows := Finset.mem_range.mp ht
    have e : magma_zaxpy A.num_rows MAGMA_Z_NEG_ONE b
        (magma_z_spmv MAGMA_Z_ONE A
          (outer_loop sqrt A solver_par.restart u.RNorm
            (effective_tolerance (gmres_init sqrt A b x solver_par.restart u).1
              solver_par.epsilon)
            solver_par.maxiter 0 0 (gmres_init sqrt A b x solver_par.restart u).2).st.x
          MAGMA_Z_ZERO
          (outer_loop sqrt A solver_par.restart u.RNorm
            (effective_tolerance (gmres_init sqrt A b x solver_par.restart u).1
              solver_par.epsilon)
            solver_par.maxiter 0 0 (gmres_init sqrt A b x solver_par.restart u).2).st.r) 0 t =
        mat_apply A
          (outer_loop sqrt A solver_par.restart u.RNorm
            (effective_tolerance (gmres_init sqrt A b x solver_par.restart u).1
              solver_par.epsilon)
            solver_par.maxiter 0 0 (gmres_init sqrt A b x solver_par.restart u).2).st.x t
          - b t := by
      unfold magma_zaxpy magma_z_spmv mat_apply
      rw [if_pos ⟨Nat.zero_le _, by omega⟩, if_pos ht', MAGMA_Z_ONE_eq, MAGMA_Z_ZERO_eq,
        MAGMA_Z_NEG_ONE_eq, Nat.sub_zero]
      ring
    rw [e]
  · intro h
    unfold magma_zgmres
    simp only [if_neg h]

/-- C7 (amended): the value returned is `MAGMA_SUCCESS` on every path, whether the outer
loop was left through the `break` or by exhausting `maxiter`. -/
theorem return_value_constant (sqrt : K → K) (MAGMA_SUCCESS : Int)
    (A : magma_z_sparse_matrix K) (b x : Nat → magmaDoubleComplex K)
    (solver_par : magma_solver_parameters K) (u : Uninit K) :
    (magma_zgmres sqrt MAGMA_SUCCESS A b x solver_par u).ret = MAGMA_SUCCESS :=
  rfl

/-- C8 (amended): the solver runs at most `maxiter` outer cycles; a run whose loop is not
left through the `break` runs exactly `maxiter` cycles and reports `numiter = maxiter`;
and a zero relative tolerance gives the effective tolerance `ATOLERANCE`, not zero. -/
theorem maxiter_bound (sqrt : K → K) (MAGMA_SUCCESS : Int) (A : magma_z_sparse_matrix K)
    (b x : Nat → magmaDoubleComplex K) (solver_par : magma_solver_parameters K) (u : Uninit K)
    (r0 : K) :
    (magma_zgmres sqrt MAGMA_SUCCESS A b x solver_par u).loop.cycles ≤ solver_par.maxiter ∧
    ((magma_zgmres sqrt MAGMA_SUCCESS A b x solver_par u).loop.brk = false →
      (magma_zgmres sqrt MAGMA_SUCCESS A b x solver_par u).loop.cycles = solver_par.maxiter ∧
      (magma_zgmres sqrt MAGMA_SUCCESS A b x solver_par u).solver_par.numiter =
        solver_par.maxiter) ∧
    effective_tolerance r0 0 = (ATOLERANCE : K) ∧ (0 : K) < ATOLERANCE := by
  have hc := outer_loop_count sqrt A solver_par.restart u.RNorm
    (effective_tolerance (gmres_init sqrt A b x solver_par.restart u).1 solver_par.epsilon)
    solver_par.maxiter 0 0 (gmres_init sqrt A b x solver_par.restart u).2
  have hpos : (0 : K) < ATOLERANCE := by unfold ATOLERANCE; positivity
  refine ⟨?_, ?_, ?_, hpos⟩
  · have := hc.1
    simpa [magma_zgmres] using this
  · intro h
    have := hc.2.1 h
    simpa [magma_zgmres] using this
  · unfold effective_tolerance
    simp only [mul_zero, if_pos hpos]

end Control

section Runs

/-- The rational square root is exact at every argument the runs below pass to it. -/
theorem sqrtQ_exact :
    sqrtQ 0 = 0 ∧ sqrtQ 1 = 1 ∧ sqrtQ 4 = 2 ∧ sqrtQ 100 = 10 ∧ sqrtQ (64 / 25) = 8 / 5 := by
  decide!


/-- C1, failing input: `A = [[i,0],[1,0]]`, `b = e₁`, `restart = 1`.  After inner step 1 of
the first cycle `β = H(1,0) = 1`, `H(1,1) = i`, `H(2,1) = 1`, the pivot `HH(1,1) = 2` is
nonzero and the code has `y[1] = i/2`.  The first normal equation fails (left side `i`,
right side `−i`), and `y = −i/2` gives the squared residual `1/2 < 5/2`: the computed `y`
does not minimise `‖β e₁ − H₁ y‖`. -/
theorem lsq_complex_not_minimal :
    (first_step A_complex 1).H (1 + 0 * 2) = ⟨1, 0⟩ ∧
    (first_step A_complex 1).H (1 + 1 * 2) = ⟨0, 1⟩ ∧
    (first_step A_complex 1).H (2 + 1 * 2) = ⟨1, 0⟩ ∧
    (first_step A_complex 1).HH (1 + 1 * 2) = ⟨2, 0⟩ ∧
    (first_step A_complex 1).y 1 = ⟨0, 1 / 2⟩ ∧
    normal_lhs (first_step A_complex 1).H 2 1 (first_step A_complex 1).y 1 = ⟨0, 1⟩ ∧
    normal_rhs (first_step A_complex 1).H 2 1 = ⟨0, -1⟩ ∧
    lsq_residual_sq (first_step A_complex 1).H 2 1 (first_step A_complex 1).y = 5 / 2 ∧
    lsq_residual_sq (first_step A_complex 1).H 2 1 (fun _ => ⟨0, -1 / 2⟩) = 1 / 2 := by
  decide!

/-- C4, failing input: `A e₁ = 2e₂`, `A e₂ = 2e₃`, `A e₃ = 4e₁ + e₃`, `b = e₁`,
`restart = 2`, `maxiter = 2`, no `break`.  The columns of the first cycle are orthogonal.
The second cycle starts from `q(1) = r / H(1,0)` with the `H(1,0) = 1` of the
initialisation, although `‖r‖ = 2`; the norms it divides by, `H(1,0) = 1` and
`H(2,1) = 10`, are nonzero, and its columns satisfy `<q(1), q(2)> = −6/5`. -/
theorem restart_basis_not_orthogonal :
    magma_zdotc 3 (ptr_add (first_cycle A_shift 2).q (1 * 3))
      (ptr_add (first_cycle A_shift 2).q (2 * 3)) = 0 ∧
    (first_cycle A_shift 2).H (3 + 2 * 3) = ⟨2, 0⟩ ∧
    (solve A_shift (params 0 2 2 0) 1).loop.cycles = 2 ∧
    (solve A_shift (params 0 2 2 0) 1).loop.st.H (1 + 0 * 3) = ⟨1, 0⟩ ∧
    (solve A_shift (params 0 2 2 0) 1).loop.st.H (2 + 1 * 3) = ⟨10, 0⟩ ∧
    magma_zdotc 3 (ptr_add (solve A_shift (params 0 2 2 0) 1).loop.st.q (1 * 3))
      (ptr_add (solve A_shift (params 0 2 2 0) 1).loop.st.q (2 * 3)) = ⟨-6 / 5, 0⟩ := by
  decide!

/-- C5, counterexample: `A = (1)`, `b = (1)`, `epsilon = 0`, entry value `residual = 7`.
The solve returns `x = b`, whose true residual norm is 0, and reports `residual = 7`. -/
theorem residual_not_reported :
    (solve A_one (params 0 1 1 7) 1).x 0 = ⟨1, 0⟩ ∧
    true_residual sqrtQ A_one unit_vec (solve A_one (params 0 1 1 7) 1).x = 0 ∧
    (solve A_one (params 0 1 1 7) 1).solver_par.residual = 7 ∧
    (solve A_one (params 0 1 1 7) 1).solver_par.residual ≠
      true_residual sqrtQ A_one unit_vec (solve A_one (params 0 1 1 7) 1).x := by
  decide!

/-- C6, failing inputs.  With `A = [[1,0],[1,0]]`, `b = e₁`, `restart = 1`, `maxiter = 2`
and `RNorm = 0` the surrogate of the first cycle is `rNorm = 1`, not below the tolerance
`ATOLERANCE`, yet the loop stops after that cycle.  With `A = (1)`, `b = (1)` and
`RNorm = 1` the surrogate of the first cycle is `0`, below the tolerance, yet a second
cycle runs. -/
theorem stop_test_ignores_surrogate :
    (first_cycle A_real 1).rNorm = 1 ∧
    effective_tolerance (gmres_init sqrtQ A_real unit_vec (fun _ => 0) 1 (zero_stack 0)).1 0
      = ATOLERANCE ∧
    ¬ (first_cycle A_real 1).rNorm < (ATOLERANCE : ℚ) ∧
    (solve A_real (params 0 2 1 0) 0).loop.brk = true ∧
    (solve A_real (params 0 2 1 0) 0).loop.cycles = 1 ∧
    (first_cycle A_one 1).rNorm = 0 ∧
    (first_cycle A_one 1).rNorm < (ATOLERANCE : ℚ) ∧
    (solve A_one (params 0 2 1 0) 1).loop.brk = false ∧
    (solve A_one (params 0 2 1 0) 1).loop.cycles = 2 := by
  decide!

/-- C7, counterexample: two solves of `A = [[1,0],[1,0]]`, `b = e₁`, one left through the
`break` and one by exhausting `maxiter = 1`, return the same value. -/
theorem same_return_on_both_paths :
    (solve A_real (params 0 1 1 0) 0).loop.brk = true ∧
    (solve A_real (params 0 1 1 0) 1).loop.brk = false ∧
    (solve A_real (params 0 1 1 0) 0).ret = (solve A_real (params 0 1 1 0) 1).ret := by
  decide!

/-- C8, counterexample: `epsilon = 0`, `maxiter = 3`, `A = [[1,0],[1,0]]`, `b = e₁`,
`RNorm = 0`: one cycle runs and `numiter = 0` is reported. -/
theorem zero_tolerance_stops_early :
    (params 0 3 1 0).epsilon = 0 ∧ (params 0 3 1 0).maxiter = 3 ∧
    (solve A_real (params 0 3 1 0) 0).loop.cycles = 1 ∧
    (solve A_real (params 0 3 1 0) 0).solver_par.numiter = 0 := by
  decide!

/-- C9, failing input: `A = [[1,0],[1,0]]`, `b = e₁`, `restart = 1`, `maxiter = 2`,
`RNorm = 0`.  One cycle runs, the loop is left through the `break`, and `numiter = 0`;
with `maxiter = 1` and `RNorm = 1` the same cycle ends by exhaustion and `numiter = 1`. -/
theorem numiter_off_by_one_on_break :
    (solve A_real (params 0 2 1 0) 0).loop.brk = true ∧
    (solve A_real (params 0 2 1 0) 0).loop.cycles = 1 ∧
    (solve A_real (params 0 2 1 0) 0).solver_par.numiter = 0 ∧
    (solve A_real (params 0 1 1 0) 1).loop.brk = false ∧
    (solve A_real (params 0 1 1 0) 1).loop.cycles = 1 ∧
    (solve A_real (params 0 1 1 0) 1).solver_par.numiter = 1 := by
  decide!

/-- C2, witness: the first cycle of the solve of `A = [[1,0],[1,0]]`, `b = e₁` with
`restart = 1`. -/
theorem outer_cycle_update_witness :
    (inner_loop sqrtQ A_real 1 (start_state A_real 1)).m = 1 ∧
    (outer_cycle sqrtQ A_real 1 (start_state A_real 1)).x 0 =
      (start_state A_real 1).x 0 + Finset.sum (Finset.Icc 1 1) (fun i =>
        (inner_loop sqrtQ A_real 1 (start_state A_real 1)).y i *
          (inner_loop sqrtQ A_real 1 (start_state A_real 1)).q (i * A_real.num_rows + 0)) ∧
    (outer_cycle sqrtQ A_real 1 (start_state A_real 1)).b = (start_state A_real 1).b ∧
    (outer_cycle sqrtQ A_real 1 (start_state A_real 1)).x 0 = ⟨1 / 2, 0⟩ :=
  have h := outer_cycle_update sqrtQ 0 A_real unit_vec (fun _ => 0) (params 0 1 1 0)
    (zero_stack 0) 1 (start_state A_real 1) (by decide)
  ⟨h.1, h.2.1 0 (by decide), h.2.2.2.1, by decide!⟩

/-- C5, witness: with `epsilon = RTOLERANCE` the solve of `A = (1)`, `b = (1)` reports the
true residual norm of its result. -/
theorem residual_reported_witness :
    (solve A_one (params RTOLERANCE 1 1 7) 1).solver_par.residual =
      true_residual sqrtQ A_one unit_vec (solve A_one (params RTOLERANCE 1 1 7) 1).x :=
  (residual_reported sqrtQ 0 A_one unit_vec (fun _ => 0) (params RTOLERANCE 1 1 7)
    (zero_stack 1)).1 rfl

/-- C8, witness: a solve with `maxiter = 1` that is not left through the `break` runs one
cycle and reports `numiter = 1`. -/
theorem maxiter_bound_witness :
    (solve A_real (params 0 1 1 0) 1).loop.cycles = 1 ∧
    (solve A_real (params 0 1 1 0) 1).solver_par.numiter = 1 :=
  (maxiter_bound sqrtQ 0 A_real unit_vec (fun _ => 0) (params 0 1 1 0) (zero_stack 1) 0).2.1
    (by decide!)

end Runs

section FrameOfSteps

variable {K : Type} [LinearOrderedField K]

/-- The Gram-Schmidt loop writes only `H` and `r`. -/
theorem mgs_loop_frame (dofs ldh k n : Nat) (s : GmresState K) :
    (forUp (mgs_body dofs ldh k) 1 n s).x = s.x ∧
    (forUp (mgs_body dofs ldh k) 1 n s).HH = s.HH ∧
    (forUp (mgs_body dofs ldh k) 1 n s).y = s.y ∧
    (forUp (mgs_body dofs ldh k) 1 n s).h1 = s.h1 ∧
    (forUp (mgs_body dofs ldh k) 1 n s).n_spmv = s.n_spmv ∧
    (forUp (mgs_body dofs ldh k) 1 n s).div_ok = s.div_ok :=
  forUp_preserves (fun st : GmresState K => st.x = s.x ∧ st.HH = s.HH ∧ st.y = s.y ∧
      st.h1 = s.h1 ∧ st.n_spmv = s.n_spmv ∧ st.div_ok = s.div_ok)
    (mgs_body dofs ldh k) 1 n s ⟨rfl, rfl, rfl, rfl, rfl, rfl⟩ (fun _ _ h => h)

/-- The least-squares part of an inner step writes only `HH`, `h1`, `y` (and records its
divisions): it leaves `H`, `r`, `q` and the count of sparse products alone. -/
theorem lsq_step_frame (ldh k : Nat) (s : GmresState K) :
    (lsq_step ldh k s).H = s.H ∧ (lsq_step ldh k s).r = s.r ∧ (lsq_step ldh k s).q = s.q ∧
    (lsq_step ldh k s).n_spmv = s.n_spmv := by
  have e1 := forUp_preserves
    (fun t : GmresState K => t.H = s.H ∧ t.r = s.r ∧ t.q = s.q ∧ t.n_spmv = s.n_spmv)
    (hh_body ldh k) 1 k s ⟨rfl, rfl, rfl, rfl⟩ (fun _ _ h => h)
  have hel : ∀ i (t : GmresState K),
      (t.H = s.H ∧ t.r = s.r ∧ t.q = s.q ∧ t.n_spmv = s.n_spmv) →
      ((elim_body ldh k i t).H = s.H ∧ (elim_body ldh k i t).r = s.r ∧
        (elim_body ldh k i t).q = s.q ∧ (elim_body ldh k i t).n_spmv = s.n_spmv) := by
    intro i t h
    exact forUp_preserves
      (fun t : GmresState K => t.H = s.H ∧ t.r = s.r ∧ t.q = s.q ∧ t.n_spmv = s.n_spmv)
      (elim_inner ldh k i) (i + 1) (k - (i + 1)) t h (fun _ _ h => h)
  have hbk : ∀ i (t : GmresState K),
      (t.H = s.H ∧ t.r = s.r ∧ t.q = s.q ∧ t.n_spmv = s.n_spmv) →
      ((back_body ldh k i t).H = s.H ∧ (back_body ldh k i t).r = s.r ∧
        (back_body ldh k i t).q = s.q ∧ (back_body ldh k i t).n_spmv = s.n_spmv) := by
    intro i t h
    exact forUp_preserves
      (fun t : GmresState K => t.H = s.H ∧ t.r = s.r ∧ t.q = s.q ∧ t.n_spmv = s.n_spmv)
      (back_inner ldh i) (i + 1) (k - i) _ h (fun _ _ h => h)
  unfold lsq_step
  by_cases hk : k ≠ 1
  · simp only [if_pos hk]
    apply forDown_preserves
      (fun t : GmresState K => t.H = s.H ∧ t.r = s.r ∧ t.q = s.q ∧ t.n_spmv = s.n_spmv)
      _ _ _ _ hbk
    exact forUp_preserves
      (fun t : GmresState K => t.H = s.H ∧ t.r = s.r ∧ t.q = s.q ∧ t.n_spmv = s.n_spmv)
      (elim_body ldh k) 1 (k - 1) _ e1 hel
  · simp only [if_neg hk]
    exact e1

/-- Flat indices of two Hessenberg columns do not meet: an entry `H(i,j)` with
`i ≤ j + 1` of a column `j < k ≤ restart` is not an entry `H(i2,k)`, `i2 ≥ 1`. -/
theorem hess_index_lt (ldh i j k i2 : Nat) (hj : j < k) (hi : i ≤ j + 1) (hk : k < ldh)
    (hi2 : 1 ≤ i2) : i + j * ldh < i2 + k * ldh := by
  have h1 : (j + 1) * ldh ≤ k * ldh := Nat.mul_le_mul_right ldh hj
  have h2 : (j + 1) * ldh = j * ldh + ldh := by ring
  omega

/-- C20: the Arnoldi part of inner step `k` (`1 ≤ k ≤ restart`, `ldh = restart + 1`)
writes, of the basis and the Hessenberg array, only column `q(k)` and the entries
`H(1..k+1, k)`: every `q(i)`, `i < k`, every `H(i,j)` with `1 ≤ j < k`, `1 ≤ i ≤ j + 1`,
and `H(1,0)` are unchanged, as is every flat cell of `q` outside column `k` and of `H`
outside `H(1..k+1, k)`; and the step dispatches exactly one sparse matrix-vector
product. -/
theorem arnoldi_step_frame (sqrt : K → K) (A : magma_z_sparse_matrix K) (restart k : Nat)
    (s : GmresState K) (hk1 : 1 ≤ k) (hk : k ≤ restart) :
    (∀ i t, i < k → t < A.num_rows →
      (arnoldi_step sqrt A (restart + 1) k s).q (i * A.num_rows + t) =
        s.q (i * A.num_rows + t)) ∧
    (∀ i j, 1 ≤ j → j < k → 1 ≤ i → i ≤ j + 1 →
      (arnoldi_step sqrt A (restart + 1) k s).H (i + j * (restart + 1)) =
        s.H (i + j * (restart + 1))) ∧
    (arnoldi_step sqrt A (restart + 1) k s).H (1 + 0 * (restart + 1)) =
      s.H (1 + 0 * (restart + 1)) ∧
    (∀ p, (p < k * A.num_rows ∨ k * A.num_rows + A.num_rows ≤ p) →
      (arnoldi_step sqrt A (restart + 1) k s).q p = s.q p) ∧
    (∀ p, (∀ i, 1 ≤ i → i ≤ k + 1 → p ≠ i + k * (restart + 1)) →
      (arnoldi_step sqrt A (restart + 1) k s).H p = s.H p) ∧
    (arnoldi_step sqrt A (restart + 1) k s).n_spmv = s.n_spmv + 1 := by
  obtain ⟨hq, -, -, hF⟩ :=
    mgs_loop_spec A.num_rows (restart + 1) k (arnoldi_apply A (restart + 1) k s) k
  have hfr := mgs_loop_frame A.num_rows (restart + 1) k k (arnoldi_apply A (restart + 1) k s)
  generalize hst : forUp (mgs_body A.num_rows (restart + 1) k) 1 k
    (arnoldi_apply A (restart + 1) k s) = st at hq hF hfr
  have eq : (arnoldi_step sqrt A (restart + 1) k s).q = (arnoldi_apply A (restart + 1) k s).q := by
    simp only [arnoldi_step, hst]; exact hq
  have eH : ∀ p, (arnoldi_step sqrt A (restart + 1) k s).H p =
      Function.update st.H (k + 1 + k * (restart + 1))
        (MAGMA_Z_MAKE (magma_dznrm2 sqrt A.num_rows st.r) 0) p := by
    intro p; simp only [arnoldi_step, hst]
  have en : (arnoldi_step sqrt A (restart + 1) k s).n_spmv = st.n_spmv := by
    simp only [arnoldi_step, hst]
  have eq0 : ∀ p, (p < k * A.num_rows ∨ k * A.num_rows + A.num_rows ≤ p) →
      (arnoldi_apply A (restart + 1) k s).q p = s.q p := by
    intro p hp
    have h0 : (arnoldi_apply A (restart + 1) k s).q p =
        magma_zscal A.num_rows (MAGMA_Z_MAKE 1 0 / s.H (k + (k - 1) * (restart + 1)))
          (magma_zcopy A.num_rows s.r s.q (k * A.num_rows)) (k * A.num_rows) p := rfl
    rw [h0]
    unfold magma_zscal magma_zcopy
    have hn : ¬ (k * A.num_rows ≤ p ∧ p < k * A.num_rows + A.num_rows) := by omega
    rw [if_neg hn, if_neg hn]
  have eH0 : ∀ p, (∀ i, 1 ≤ i → i ≤ k + 1 → p ≠ i + k * (restart + 1)) →
      (arnoldi_step sqrt A (restart + 1) k s).H p = s.H p := by
    intro p hp
    rw [eH, Function.update_noteq (hp (k + 1) (by omega) (by omega)), hF p]
    · rfl
    · intro i h1 h2
      exact hp i h1 (by omega)
  refine ⟨?_, ?_, ?_, ?_, eH0, ?_⟩
  · intro i t hi ht
    rw [eq]
    apply eq0
    left
    have h1 : (i + 1) * A.num_rows ≤ k * A.num_rows := Nat.mul_le_mul_right _ hi
    have h2 : (i + 1) * A.num_rows = i * A.num_rows + A.num_rows := by ring
    omega
  · intro i j hj1 hj hi1 hi
    apply eH0
    intro i2 h1 _ heq
    have := hess_index_lt (restart + 1) i j k i2 hj hi (by omega) h1
    omega
  · apply eH0
    intro i2 h1 _ heq
    have := hess_index_lt (restart + 1) 1 0 k i2 (by omega) (by omega) (by omega) h1
    omega
  · intro p hp
    rw [eq]
    exact eq0 p hp
  · rw [en, hfr.2.2.2.2.1]
    rfl

end FrameOfSteps

section Surrogate

variable {K : Type} [LinearOrderedField K]

/-- What inner step `k` leaves in `H`, `r`, `q` and the product count is what its Arnoldi
part left there. -/
theorem inner_step_arnoldi (sqrt : K → K) (A : magma_z_sparse_matrix K) (ldh k : Nat)
    (s : GmresState K) :
    (inner_step sqrt A ldh k s).H = (arnoldi_step sqrt A ldh k s).H ∧
    (inner_step sqrt A ldh k s).r = (arnoldi_step sqrt A ldh k s).r ∧
    (inner_step sqrt A ldh k s).q = (arnoldi_step sqrt A ldh k s).q ∧
    (inner_step sqrt A ldh k s).n_spmv = (arnoldi_step sqrt A ldh k s).n_spmv ∧
    (inner_step sqrt A ldh k s).m = k ∧
    (inner_step sqrt A ldh k s).rNorm =
      |MAGMA_Z_REAL ((arnoldi_step sqrt A ldh k s).H (k + 1 + k * ldh))| := by
  obtain ⟨h1, h2, h3, h4⟩ := lsq_step_frame ldh k (arnoldi_step sqrt A ldh k s)
  refine ⟨h1, h2, h3, h4, rfl, ?_⟩
  show |MAGMA_Z_REAL ((lsq_step ldh k (arnoldi_step sqrt A ldh k s)).H (k + 1 + k * ldh))| = _
  rw [h1]

/-- The Arnoldi part of a step ends by storing the norm of the vector `r` it leaves. -/
theorem arnoldi_step_norm (sqrt : K → K) (A : magma_z_sparse_matrix K) (ldh k : Nat)
    (s : GmresState K) :
    (arnoldi_step sqrt A ldh k s).H (k + 1 + k * ldh) =
      MAGMA_Z_MAKE (magma_dznrm2 sqrt A.num_rows (arnoldi_step sqrt A ldh k s).r) 0 := by
  show Function.update _ (k + 1 + k * ldh) _ (k + 1 + k * ldh) = _
  rw [Function.update_same]
  rfl

/-- C18: when the square root is non-negative, after every inner step `k` the stored
`H(k+1,k)` has zero imaginary part and a non-negative real part, its real part is the
Euclidean norm of the orthogonalised vector `r`, and the surrogate
`rNorm = fabs(Re H(k+1,k))` equals that norm and is the modulus of `H(k+1,k)`
(non-negative, with square `Re² + Im²`). -/
theorem surrogate_is_norm (sqrt : K → K) (A : magma_z_sparse_matrix K) (ldh k : Nat)
    (s : GmresState K) (hs : ∀ a, 0 ≤ sqrt a) :
    ((inner_step sqrt A ldh k s).H (k + 1 + k * ldh)).y = 0 ∧
    0 ≤ ((inner_step sqrt A ldh k s).H (k + 1 + k * ldh)).x ∧
    ((inner_step sqrt A ldh k s).H (k + 1 + k * ldh)).x =
      magma_dznrm2 sqrt A.num_rows (inner_step sqrt A ldh k s).r ∧
    (inner_step sqrt A ldh k s).rNorm =
      magma_dznrm2 sqrt A.num_rows (inner_step sqrt A ldh k s).r ∧
    0 ≤ (inner_step sqrt A ldh k s).rNorm ∧
    (inner_step sqrt A ldh k s).rNorm * (inner_step sqrt A ldh k s).rNorm =
      ((inner_step sqrt A ldh k s).H (k + 1 + k * ldh)).x *
          ((inner_step sqrt A ldh k s).H (k + 1 + k * ldh)).x +
        ((inner_step sqrt A ldh k s).H (k + 1 + k * ldh)).y *
          ((inner_step sqrt A ldh k s).H (k + 1 + k * ldh)).y := by
  obtain ⟨hH, hr, -, -, -, hN⟩ := inner_step_arnoldi sqrt A ldh k s
  have hn := arnoldi_step_norm sqrt A ldh k s
  have hpos : 0 ≤ magma_dznrm2 sqrt A.num_rows (arnoldi_step sqrt A ldh k s).r := hs _
  rw [hH, hr, hN, hn]
  simp only [MAGMA_Z_MAKE, MAGMA_Z_REAL, abs_of_nonneg hpos]
  exact ⟨trivial, hpos, trivial, trivial, hpos, by ring⟩

end Surrogate

section StepCount

variable {K : Type} [LinearOrderedField K]

/-- Every inner step dispatches exactly one sparse matrix-vector product. -/
theorem inner_step_spmv (sqrt : K → K) (A : magma_z_sparse_matrix K) (ldh k : Nat)
    (s : GmresState K) : (inner_step sqrt A ldh k s).n_spmv = s.n_spmv + 1 := by
  rw [(inner_step_arnoldi sqrt A ldh k s).2.2.2.1]
  exact (mgs_loop_frame A.num_rows ldh k k (arnoldi_apply A ldh k s)).2.2.2.2.1

/-- The first `n` inner steps of a cycle dispatch `n` sparse products. -/
theorem inner_steps_spmv (sqrt : K → K) (A : magma_z_sparse_matrix K) (ldh n : Nat)
    (s : GmresState K) : (forUp (inner_step sqrt A ldh) 1 n s).n_spmv = s.n_spmv + n := by
  induction n with
  | zero => rfl
  | succ n ih =>
    show (inner_step sqrt A ldh (1 + n) (forUp (inner_step sqrt A ldh) 1 n s)).n_spmv = _
    rw [inner_step_spmv, ih]
    omega

/-- C15 (amended): in every outer cycle the inner loop runs all `restart` steps, whatever
the surrogate `rNorm` of a step is: step `k + 1` is applied to the state left by step `k`
unconditionally, the cycle dispatches `restart` sparse products (one per step), and for
`restart ≥ 1` the solution update uses `m = restart` columns. -/
theorem inner_loop_runs_all_steps (sqrt : K → K) (A : magma_z_sparse_matrix K)
    (restart : Nat) (s : GmresState K) :
    (∀ k, forUp (inner_step sqrt A (restart + 1)) 1 (k + 1) s =
      inner_step sqrt A (restart + 1) (1 + k) (forUp (inner_step sqrt A (restart + 1)) 1 k s)) ∧
    (inner_loop sqrt A restart s).n_spmv = s.n_spmv + restart ∧
    (1 ≤ restart → (inner_loop sqrt A restart s).m = restart) :=
  ⟨fun _ => rfl, inner_steps_spmv sqrt A (restart + 1) restart s,
    fun h => inner_loop_m sqrt A restart s h⟩

end StepCount

section EntryChecks

variable {K : Type} [LinearOrderedField K]

/-- An outer cycle dispatches `restart` sparse products. -/
theorem outer_cycle_spmv (sqrt : K → K) (A : magma_z_sparse_matrix K) (restart : Nat)
    (s : GmresState K) : (outer_cycle sqrt A restart s).n_spmv = s.n_spmv + restart := by
  have hp : ∀ (n : Nat) (st : GmresState K),
      (forUp (post_body (restart + 1) (restart + 1)) 1 n st).n_spmv = st.n_spmv := by
    intro n st
    exact forUp_preserves (fun t : GmresState K => t.n_spmv = st.n_spmv)
      (post_body (restart + 1) (restart + 1)) 1 n st rfl
      (fun i _ h => forUp_preserves (fun t : GmresState K => t.n_spmv = st.n_spmv)
        (post_inner (restart + 1) (restart + 1) i) 1 (i + 1) _ h (fun _ _ h => h))
  unfold outer_cycle
  rw [hp]
  exact inner_steps_spmv sqrt A (restart + 1) restart s

/-- The outer loop dispatches `restart` sparse products for each cycle it runs. -/
theorem outer_loop_spmv (sqrt : K → K) (A : magma_z_sparse_matrix K) (restart : Nat)
    (RNorm r0 : K) (n iter cycles : Nat) (s : GmresState K) :
    (outer_loop sqrt A restart RNorm r0 n iter cycles s).st.n_spmv + cycles * restart =
      s.n_spmv + (outer_loop sqrt A restart RNorm r0 n iter cycles s).cycles * restart := by
  induction n generalizing iter cycles s with
  | zero => rfl
  | succ n ih =>
    unfold outer_loop
    by_cases hb : |RNorm * RNorm| < r0
    · simp only [if_pos hb]
      rw [outer_cycle_spmv]
      ring
    · simp only [if_neg hb]
      have := ih (iter + 1) (cycles + 1) (outer_cycle sqrt A restart s)
      rw [outer_cycle_spmv] at this
      have e : (cycles + 1) * restart = cycles * restart + restart := by ring
      omega

/-- Values set by the initialisation: `x = 0` and `r = b` on the first `dofs` entries, and
`r0 = ‖b‖`. -/
theorem gmres_init_values (sqrt : K → K) (A : magma_z_sparse_matrix K)
    (b x : Nat → magmaDoubleComplex K) (restart : Nat) (u : Uninit K) :
    (∀ t, t < A.num_rows → (gmres_init sqrt A b x restart u).2.x t = 0) ∧
    (∀ t, t < A.num_rows → (gmres_init sqrt A b x restart u).2.r t = b t) ∧
    (gmres_init sqrt A b x restart u).1 = magma_dznrm2 sqrt A.num_rows b := by
  have hx : ∀ t, t < A.num_rows → (gmres_init sqrt A b x restart u).2.x t = 0 := by
    intro t ht
    show magma_zscal A.num_rows MAGMA_Z_ZERO x 0 t = 0
    unfold magma_zscal
    rw [if_pos ⟨Nat.zero_le _, by omega⟩, MAGMA_Z_ZERO_eq, zero_mul]
  have hr : ∀ t, t < A.num_rows → (gmres_init sqrt A b x restart u).2.r t = b t := by
    intro t ht
    show magma_zcopy A.num_rows b (fun _ => MAGMA_Z_ZERO) 0 t = b t
    unfold magma_zcopy
    rw [if_pos ⟨Nat.zero_le _, by omega⟩, Nat.sub_zero]
  refine ⟨hx, hr, ?_⟩
  show magma_dznrm2 sqrt A.num_rows (magma_zcopy A.num_rows b (fun _ => MAGMA_Z_ZERO) 0) = _
  unfold magma_dznrm2
  congr 1
  apply Finset.sum_congr rfl
  intro t ht
  have : magma_zcopy A.num_rows b (fun _ => MAGMA_Z_ZERO) 0 t = b t :=
    hr t (Finset.mem_range.mp ht)
  rw [this]

/-- C14 (amended): whatever `x` holds on entry, the solver first sets `x = 0` (line 79);
the residual it starts from is `r = b`, which is `b − A x` for that zero vector and not
for the entry content, and `r0` is the norm of `b`.  The entry content of `x` has no
influence on `r` and `r0`. -/
theorem initial_residual_ignores_guess (sqrt : K → K) (A : magma_z_sparse_matrix K)
    (b x x2 : Nat → magmaDoubleComplex K) (restart : Nat) (u : Uninit K) :
    (∀ t, t < A.num_rows → (gmres_init sqrt A b x restart u).2.x t = 0) ∧
    (∀ t, t < A.num_rows → (gmres_init sqrt A b x restart u).2.r t = b t) ∧
    (∀ t, t < A.num_rows → (gmres_init sqrt A b x restart u).2.r t =
      residual_vec A b (gmres_init sqrt A b x restart u).2.x t) ∧
    (gmres_init sqrt A b x restart u).1 =
      magma_dznrm2 sqrt A.num_rows (gmres_init sqrt A b x restart u).2.r ∧
    (gmres_init sqrt A b x restart u).1 = magma_dznrm2 sqrt A.num_rows b ∧
    (gmres_init sqrt A b x restart u).2.r = (gmres_init sqrt A b x2 restart u).2.r ∧
    (gmres_init sqrt A b x restart u).1 = (gmres_init sqrt A b x2 restart u).1 := by
  obtain ⟨hx, hr, hn⟩ := gmres_init_values sqrt A b x restart u
  refine ⟨hx, hr, ?_, rfl, hn, rfl, rfl⟩
  intro t ht
  rw [hr t ht]
  unfold residual_vec mat_apply
  have : (Finset.sum (Finset.range A.num_rows) fun j =>
      A.val t j * (gmres_init sqrt A b x restart u).2.x j) = 0 := by
    apply Finset.sum_eq_zero
    intro j hj
    rw [hx j (Finset.mem_range.mp hj), mul_zero]
  rw [this, sub_zero]

/-- C16 (amended): the solver makes no dimension check.  The length a right-hand side
declares has no influence on the call, which returns `MAGMA_SUCCESS`, resets `x`, and
dispatches `restart` sparse products in each of the cycles it runs, reading the first
`A.num_rows` entries of `b.val`. -/
theorem no_dimension_check (sqrt : K → K) (MAGMA_SUCCESS : Int) (A : magma_z_sparse_matrix K)
    (b x : magma_z_vector K) (solver_par : magma_solver_parameters K) (u : Uninit K)
    (n : Nat) :
    magma_zgmres_call sqrt MAGMA_SUCCESS A ⟨n, b.val⟩ x solver_par u =
      magma_zgmres_call sqrt MAGMA_SUCCESS A b x solver_par u ∧
    (magma_zgmres_call sqrt MAGMA_SUCCESS A b x solver_par u).ret = MAGMA_SUCCESS ∧
    (magma_zgmres_call sqrt MAGMA_SUCCESS A b x solver_par u).loop.st.n_spmv =
      (magma_zgmres_call sqrt MAGMA_SUCCESS A b x solver_par u).loop.cycles *
        solver_par.restart := by
  refine ⟨rfl, rfl, ?_⟩
  have h := outer_loop_spmv sqrt A solver_par.restart u.RNorm
    (effective_tolerance (gmres_init sqrt A b.val x.val solver_par.restart u).1
      solver_par.epsilon)
    solver_par.maxiter 0 0 (gmres_init sqrt A b.val x.val solver_par.restart u).2
  have h0 : (gmres_init sqrt A b.val x.val solver_par.restart u).2.n_spmv = 0 := rfl
  rw [h0] at h
  simpa [magma_zgmres_call, magma_zgmres] using h

end EntryChecks

section Divisions

variable {K : Type} [LinearOrderedField K]

theorem div_check_eq_true (ok : Bool) (d : magmaDoubleComplex K) :
    div_check ok d = true ↔ ok = true ∧ d ≠ 0 := by
  simp [div_check]

/-- A diagonal cell `HH(i,i)` with `i < k < ldh` does not lie in row `k` of `HH`. -/
theorem diag_not_in_row (ldh i k m : Nat) (hi : i < k) (hk : k < ldh) :
    i + i * ldh ≠ k + m * ldh := by
  intro h
  rcases Nat.lt_trichotomy m i with hm | hm | hm
  · have h1 : (m + 1) * ldh ≤ i * ldh := Nat.mul_le_mul_right ldh hm
    have h2 : (m + 1) * ldh = m * ldh + ldh := by ring
    omega
  · subst hm
    omega
  · have h1 : (i + 1) * ldh ≤ m * ldh := Nat.mul_le_mul_right ldh hm
    have h2 : (i + 1) * ldh = i * ldh + ldh := by ring
    omega

/-- The loop of line 110 writes row `k` of `HH` only and divides nothing. -/
theorem hh_loop_frame (ldh k n : Nat) (s : GmresState K) :
    (∀ p, (∀ m, p ≠ k + m * ldh) → (forUp (hh_body ldh k) 1 n s).HH p = s.HH p) ∧
    (forUp (hh_body ldh k) 1 n s).div_ok = s.div_ok ∧
    (forUp (hh_body ldh k) 1 n s).h1 = s.h1 :=
  forUp_preserves
    (fun t : GmresState K => (∀ p, (∀ m, p ≠ k + m * ldh) → t.HH p = s.HH p) ∧
      t.div_ok = s.div_ok ∧ t.h1 = s.h1)
    (hh_body ldh k) 1 n s ⟨fun _ _ => rfl, rfl, rfl⟩
    (fun i t h => ⟨fun p hp => by
        show Function.update t.HH (k + i * ldh) _ p = s.HH p
        rw [Function.update_noteq (hp i)]
        exact h.1 p hp, h.2.1, h.2.2⟩)

/-- One pass of the elimination loop writes row `k` of `HH` only and divides twice by
the pivot `HH(i,i)`. -/
theorem elim_body_spec (ldh k i : Nat) (s : GmresState K) (hi : i < k) (hk : k < ldh) :
    (∀ p, (∀ m, p ≠ k + m * ldh) → (elim_body ldh k i s).HH p = s.HH p) ∧
    ((elim_body ldh k i s).div_ok = true ↔ s.div_ok = true ∧ s.HH (i + i * ldh) ≠ 0) := by
  have e1 := forUp_preserves
    (fun t : GmresState K => (∀ p, (∀ m, p ≠ k + m * ldh) → t.HH p = s.HH p) ∧
      t.div_ok = s.div_ok)
    (elim_inner ldh k i) (i + 1) (k - (i + 1)) s ⟨fun _ _ => rfl, rfl⟩
    (fun j t h => ⟨fun p hp => by
        show Function.update t.HH (k + j * ldh) _ p = s.HH p
        rw [Function.update_noteq (hp j)]
        exact h.1 p hp, h.2⟩)
  generalize hs1 : forUp (elim_inner ldh k i) (i + 1) (k - (i + 1)) s = s1 at e1
  have hHH : ∀ p, (elim_body ldh k i s).HH p =
      Function.update (Function.update s1.HH (k + k * ldh)
        (s1.HH (k + k * ldh) - s1.HH (k + i * ldh) * s1.HH (k + i * ldh) / s1.HH (i + i * ldh)))
        (k + i * ldh)
        (Function.update s1.HH (k + k * ldh)
          (s1.HH (k + k * ldh) - s1.HH (k + i * ldh) * s1.HH (k + i * ldh) / s1.HH (i + i * ldh))
          (k + i * ldh) /
         Function.update s1.HH (k + k * ldh)
          (s1.HH (k + k * ldh) - s1.HH (k + i * ldh) * s1.HH (k + i * ldh) / s1.HH (i + i * ldh))
          (i + i * ldh)) p := by
    intro p
    simp only [elim_body, hs1]
  have hdv : (elim_body ldh k i s).div_ok =
      div_check (div_check s1.div_ok (s1.HH (i + i * ldh)))
        (Function.update s1.HH (k + k * ldh)
          (s1.HH (k + k * ldh) - s1.HH (k + i * ldh) * s1.HH (k + i * ldh) / s1.HH (i + i * ldh))
          (i + i * ldh)) := by
    simp only [elim_body, hs1]
  have hd : ∀ m, i + i * ldh ≠ k + m * ldh := fun m => diag_not_in_row ldh i k m hi hk
  constructor
  · intro p hp
    rw [hHH, Function.update_noteq (hp i), Function.update_noteq (hp k)]
    exact e1.1 p hp
  · rw [hdv, Function.update_noteq (hd k), div_check_eq_true, div_check_eq_true, e1.2,
      e1.1 _ hd]
    tauto

/-- The elimination loop of lines 119-126 after `n ≤ k − 1` passes. -/
theorem elim_loop_spec (ldh k : Nat) (s : GmresState K) (hk : k < ldh) (n : Nat)
    (hn : n + 1 ≤ k) :
    (∀ p, (∀ m, p ≠ k + m * ldh) → (forUp (elim_body ldh k) 1 n s).HH p = s.HH p) ∧
    ((forUp (elim_body ldh k) 1 n s).div_ok = true ↔
      s.div_ok = true ∧ ∀ i, 1 ≤ i → i < n + 1 → s.HH (i + i * ldh) ≠ 0) := by
  induction n with
  | zero =>
    refine ⟨fun _ _ => rfl, ?_⟩
    show s.div_ok = true ↔ _
    constructor
    · intro h
      exact ⟨h, fun i h1 h2 => by omega⟩
    · intro h
      exact h.1
  | succ n ih =>
    obtain ⟨ih1, ih2⟩ := ih (by omega)
    obtain ⟨b1, b2⟩ := elim_body_spec ldh k (1 + n) (forUp (elim_body ldh k) 1 n s)
      (by omega) hk
    have hd : ∀ m, (1 + n) + (1 + n) * ldh ≠ k + m * ldh :=
      fun m => diag_not_in_row ldh (1 + n) k m (by omega) hk
    constructor
    · intro p hp
      show (elim_body ldh k (1 + n) (forUp (elim_body ldh k) 1 n s)).HH p = s.HH p
      rw [b1 p hp, ih1 p hp]
    · show (elim_body ldh k (1 + n) (forUp (elim_body ldh k) 1 n s)).div_ok = true ↔ _
      rw [b2, ih2, ih1 _ hd]
      constructor
      · rintro ⟨⟨h1, h2⟩, h3⟩
        refine ⟨h1, fun i hi1 hi2 => ?_⟩
        by_cases hi : i < n + 1
        · exact h2 i hi1 hi
        · have : i = 1 + n := by omega
          subst this
          exact h3
      · rintro ⟨h1, h2⟩
        exact ⟨⟨h1, fun i hi1 hi2 => h2 i hi1 (by omega)⟩, h2 (1 + n) (by omega) (by omega)⟩

/-- The back-substitution loop of lines 129-133 leaves `HH` alone and divides by the
pivots `HH(i,i)`, `i = n..1`. -/
theorem back_loop_spec (ldh k n : Nat) (s : GmresState K) :
    (forDown (back_body ldh k) n s).HH = s.HH ∧
    ((forDown (back_body ldh k) n s).div_ok = true ↔
      s.div_ok = true ∧ ∀ i, 1 ≤ i → i ≤ n → s.HH (i + i * ldh) ≠ 0) := by
  have hb : ∀ i (t : GmresState K), (back_body ldh k i t).HH = t.HH ∧
      (back_body ldh k i t).div_ok = div_check t.div_ok (t.HH (i + i * ldh)) := by
    intro i t
    exact forUp_preserves
      (fun u : GmresState K => u.HH = t.HH ∧
        u.div_ok = div_check t.div_ok (t.HH (i + i * ldh)))
      (back_inner ldh i) (i + 1) (k - i) _ ⟨rfl, rfl⟩ (fun _ _ h => h)
  induction n generalizing s with
  | zero =>
    refine ⟨rfl, ?_⟩
    show s.div_ok = true ↔ _
    constructor
    · intro h
      exact ⟨h, fun i h1 h2 => by omega⟩
    · intro h
      exact h.1
  | succ n ih =>
    obtain ⟨i1, i2⟩ := ih (back_body ldh k (n + 1) s)
    obtain ⟨b1, b2⟩ := hb (n + 1) s
    constructor
    · show (forDown (back_body ldh k) n (back_body ldh k (n + 1) s)).HH = s.HH
      rw [i1, b1]
    · show (forDown (back_body ldh k) n (back_body ldh k (n + 1) s)).div_ok = true ↔ _
      rw [i2, b2, b1, div_check_eq_true]
      constructor
      · rintro ⟨⟨h1, h2⟩, h3⟩
        refine ⟨h1, fun i hi1 hi2 => ?_⟩
        by_cases hi : i ≤ n
        · exact h3 i hi1 hi
        · have : i = n + 1 := by omega
          subst this
          exact h2
      · rintro ⟨h1, h2⟩
        exact ⟨⟨h1, h2 (n + 1) (by omega) (by omega)⟩, fun i hi1 hi2 => h2 i hi1 (by omega)⟩

end Divisions

section Breakdown

variable {K : Type} [LinearOrderedField K]

/-- The least-squares part of inner step `k` (`1 ≤ k < ldh`) changes only row `k` of `HH`,
and it is free of divisions by zero exactly when it starts so and the pivots `HH(i,i)`,
`i < k`, and the pivot `HH(k,k)` it computes are nonzero. -/
theorem lsq_step_div (ldh k : Nat) (s : GmresState K) (hk1 : 1 ≤ k) (hk : k < ldh) :
    (∀ p, (∀ m, p ≠ k + m * ldh) → (lsq_step ldh k s).HH p = s.HH p) ∧
    ((lsq_step ldh k s).div_ok = true ↔
      s.div_ok = true ∧ (∀ i, 1 ≤ i → i < k → s.HH (i + i * ldh) ≠ 0) ∧
        (lsq_step ldh k s).HH (k + k * ldh) ≠ 0) := by
  let s1 := forUp (hh_body ldh k) 1 k s
  let s2 : GmresState K :=
    { s1 with h1 := Function.update s1.h1 k (s1.H (1 + k * ldh) * s1.H (1 + 0 * ldh)) }
  let s3 := forUp (elim_body ldh k) 1 (k - 1) s2
  let s4 : GmresState K :=
    { s3 with y := Function.update s3.y k (s3.h1 k / s3.HH (k + k * ldh)),
              div_ok := div_check s3.div_ok (s3.HH (k + k * ldh)) }
  have hfin : lsq_step ldh k s = forDown (back_body ldh k) (k - 1) s4 := by
    by_cases h : k ≠ 1
    · simp only [lsq_step, if_pos h, s4, s3, s2, s1]
    · have h1 : k = 1 := not_not.mp h
      subst h1
      rfl
  obtain ⟨a1, a2, -⟩ := hh_loop_frame ldh k k s
  obtain ⟨e1, e2⟩ := elim_loop_spec ldh k s2 hk (k - 1) (by omega)
  obtain ⟨b1, b2⟩ := back_loop_spec ldh k (k - 1) s4
  have a1' : ∀ p, (∀ m, p ≠ k + m * ldh) → s2.HH p = s.HH p := a1
  have a2' : s2.div_ok = s.div_ok := a2
  have e1' : ∀ p, (∀ m, p ≠ k + m * ldh) → s3.HH p = s2.HH p := e1
  have e2' : s3.div_ok = true ↔
      s2.div_ok = true ∧ ∀ i, 1 ≤ i → i < k - 1 + 1 → s2.HH (i + i * ldh) ≠ 0 := e2
  have c4 : s4.HH = s3.HH := rfl
  have d4 : s4.div_ok = div_check s3.div_ok (s3.HH (k + k * ldh)) := rfl
  have hdiag : ∀ i, i < k → s3.HH (i + i * ldh) = s.HH (i + i * ldh) := by
    intro i hi
    have hd : ∀ m, i + i * ldh ≠ k + m * ldh := fun m => diag_not_in_row ldh i k m hi hk
    rw [e1' _ hd, a1' _ hd]
  have hdiag2 : ∀ i, i < k → s2.HH (i + i * ldh) = s.HH (i + i * ldh) := by
    intro i hi
    exact a1' _ (fun m => diag_not_in_row ldh i k m hi hk)
  rw [hfin]
  constructor
  · intro p hp
    rw [b1, c4, e1' p hp, a1' p hp]
  · rw [b2, b1, c4, d4, div_check_eq_true, e2', a2']
    constructor
    · rintro ⟨⟨⟨h1, h2⟩, h3⟩, -⟩
      refine ⟨h1, fun i hi1 hi2 => ?_, h3⟩
      rw [← hdiag2 i hi2]
      exact h2 i hi1 (by omega)
    · rintro ⟨h1, h2, h3⟩
      refine ⟨⟨⟨h1, fun i hi1 hi2 => ?_⟩, h3⟩, fun i hi1 hi2 => ?_⟩
      · rw [hdiag2 i (by omega)]
        exact h2 i hi1 (by omega)
      · rw [hdiag i (by omega)]
        exact h2 i hi1 (by omega)

/-- The Arnoldi part of a step leaves `HH` alone and makes one division, by `H(k,k-1)`. -/
theorem arnoldi_step_div (sqrt : K → K) (A : magma_z_sparse_matrix K) (ldh k : Nat)
    (s : GmresState K) :
    (arnoldi_step sqrt A ldh k s).HH = s.HH ∧
    (arnoldi_step sqrt A ldh k s).div_ok = div_check s.div_ok (s.H (k + (k - 1) * ldh)) := by
  have h := mgs_loop_frame A.num_rows ldh k k (arnoldi_apply A ldh k s)
  exact ⟨h.2.1, h.2.2.2.2.2⟩

/-- C11 (amended): the solver has no breakdown detection.  Inner step `k`
(`1 ≤ k ≤ restart`, `ldh = restart + 1`) divides by `H(k,k-1)` on line 94 and by the
pivots `HH(i,i)`, `i = 1..k`, on lines 123-130 whatever their values: it is free of
divisions by zero exactly when no earlier division had a zero divisor and `H(k,k-1)`, the
pivots `HH(i,i)`, `i < k`, and the pivot `HH(k,k)` it computes are all nonzero. -/
theorem inner_step_div_ok_iff (sqrt : K → K) (A : magma_z_sparse_matrix K)
    (restart k : Nat) (s : GmresState K) (hk1 : 1 ≤ k) (hk : k ≤ restart) :
    (inner_step sqrt A (restart + 1) k s).div_ok = true ↔
      s.div_ok = true ∧ s.H (k + (k - 1) * (restart + 1)) ≠ 0 ∧
        (∀ i, 1 ≤ i → i < k → s.HH (i + i * (restart + 1)) ≠ 0) ∧
        (inner_step sqrt A (restart + 1) k s).HH (k + k * (restart + 1)) ≠ 0 := by
  obtain ⟨a1, a2⟩ := arnoldi_step_div sqrt A (restart + 1) k s
  obtain ⟨-, l2⟩ := lsq_step_div (restart + 1) k (arnoldi_step sqrt A (restart + 1) k s) hk1
    (by omega)
  have e1 : (inner_step sqrt A (restart + 1) k s).div_ok =
      (lsq_step (restart + 1) k (arnoldi_step sqrt A (restart + 1) k s)).div_ok := rfl
  have e2 : (inner_step sqrt A (restart + 1) k s).HH =
      (lsq_step (restart + 1) k (arnoldi_step sqrt A (restart + 1) k s)).HH := rfl
  rw [e1, e2, l2, a2, a1, div_check_eq_true]
  tauto

end Breakdown

section Identity

variable {K : Type} [LinearOrderedField K]

theorem zmake_mul (a b : K) :
    MAGMA_Z_MAKE a 0 * MAGMA_Z_MAKE b 0 = MAGMA_Z_MAKE (a * b) 0 := by
  ext <;> simp [MAGMA_Z_MAKE]

theorem zconj_mul_self (z : magmaDoubleComplex K) :
    magmaDoubleComplex.conj z * z = MAGMA_Z_MAKE (z.x * z.x + z.y * z.y) 0 := by
  ext
  · simp [MAGMA_Z_MAKE]
  · simp [MAGMA_Z_MAKE]; ring

theorem zconj_mul (a b : magmaDoubleComplex K) :
    magmaDoubleComplex.conj (a * b) = magmaDoubleComplex.conj a * magmaDoubleComplex.conj b := by
  ext <;> simp <;> ring

theorem zmake_sum (n : Nat) (f : Nat → K) :
    (Finset.sum (Finset.range n) fun t => MAGMA_Z_MAKE (f t) 0) =
      MAGMA_Z_MAKE (Finset.sum (Finset.range n) f) 0 := by
  induction n with
  | zero => rfl
  | succ n ih =>
    rw [Finset.sum_range_succ, Finset.sum_range_succ, ih]
    ext <;> simp [MAGMA_Z_MAKE]

/-- The conjugated dot product of a vector with itself is its squared norm. -/
theorem zdotc_self (n : Nat) (c : magmaDoubleComplex K) (v : Nat → magmaDoubleComplex K) :
    magma_zdotc n (fun t => c * v t) (fun t => c * v t) =
      magmaDoubleComplex.conj c * c * MAGMA_Z_MAKE (norm_sq n v) 0 := by
  unfold magma_zdotc norm_sq
  rw [← zmake_sum, Finset.mul_sum]
  apply Finset.sum_congr rfl
  intro t _
  beta_reduce
  rw [← zconj_mul_self, zconj_mul]
  ring

/-- State left by inner step 1 of the first cycle for the identity operator, restart
length 1 and a right-hand side of nonzero norm: `q(1) = b/β`, `H(1,1) = 1`, `r = 0`,
`y[1] = β`, and no division by zero. -/
theorem identity_first_step (sqrt : K → K) (A : magma_z_sparse_matrix K)
    (b x : Nat → magmaDoubleComplex K) (u : Uninit K)
    (hA : ∀ i j, i < A.num_rows → j < A.num_rows → A.val i j = if i = j then 1 else 0)
    (hb : sqrt (norm_sq A.num_rows b) * sqrt (norm_sq A.num_rows b) = norm_sq A.num_rows b)
    (hne : norm_sq A.num_rows b ≠ 0) (h0 : sqrt 0 = 0) :
    (∀ t, t < A.num_rows →
      (inner_step sqrt A 2 1 (gmres_init sqrt A b x 1 u).2).q (1 * A.num_rows + t) =
        MAGMA_Z_MAKE (1 / sqrt (norm_sq A.num_rows b)) 0 * b t) ∧
    (inner_step sqrt A 2 1 (gmres_init sqrt A b x 1 u).2).y 1 =
      MAGMA_Z_MAKE (sqrt (norm_sq A.num_rows b)) 0 ∧
    (inner_step sqrt A 2 1 (gmres_init sqrt A b x 1 u).2).div_ok = true ∧
    (inner_step sqrt A 2 1 (gmres_init sqrt A b x 1 u).2).H (2 + 1 * 2) = 0 := by
  have hβ : sqrt (norm_sq A.num_rows b) ≠ 0 := by
    intro h
    rw [h, mul_zero] at hb
    exact hne hb.symm
  generalize hβdef : sqrt (norm_sq A.num_rows b) = β at hb hβ
  obtain ⟨-, g_r, g_n⟩ := gmres_init_values sqrt A b x 1 u
  have i_H : (gmres_init sqrt A b x 1 u).2.H 1 = MAGMA_Z_MAKE β 0 := by
    show Function.update u.H (1 + 0 * (1 + 1)) (MAGMA_Z_MAKE (gmres_init sqrt A b x 1 u).1 0) 1 = _
    rw [g_n, ← hβdef]
    simp [magma_dznrm2, norm_sq]
  have i_d : (gmres_init sqrt A b x 1 u).2.div_ok = true := rfl
  generalize (gmres_init sqrt A b x 1 u).2 = init at g_r i_H i_d
  -- scalars
  have hcβ : (MAGMA_Z_MAKE β 0 : magmaDoubleComplex K) ≠ 0 := by
    intro h
    exact hβ (congrArg magmaDoubleComplex.x h)
  have hv : (MAGMA_Z_MAKE 1 0 / MAGMA_Z_MAKE β 0 : magmaDoubleComplex K) =
      MAGMA_Z_MAKE (1 / β) 0 := by
    ext
    · simp [MAGMA_Z_MAKE]
    · simp [MAGMA_Z_MAKE]
  -- lines 94-98
  have a_q : ∀ t, t < A.num_rows →
      (arnoldi_apply A 2 1 init).q (1 * A.num_rows + t) = MAGMA_Z_MAKE (1 / β) 0 * b t := by
    intro t ht
    show magma_zscal A.num_rows (MAGMA_Z_MAKE 1 0 / init.H 1)
      (magma_zcopy A.num_rows init.r init.q (1 * A.num_rows)) (1 * A.num_rows)
      (1 * A.num_rows + t) = _
    unfold magma_zscal magma_zcopy
    rw [if_pos ⟨by omega, by omega⟩, if_pos ⟨by omega, by omega⟩, Nat.add_sub_cancel_left,
      g_r t ht, i_H, hv]
  have a_r : ∀ t, t < A.num_rows →
      (arnoldi_apply A 2 1 init).r t = MAGMA_Z_MAKE (1 / β) 0 * b t := by
    intro t ht
    show magma_z_spmv MAGMA_Z_ONE A (ptr_add (arnoldi_apply A 2 1 init).q (1 * A.num_rows))
      MAGMA_Z_ZERO init.r t = _
    unfold magma_z_spmv ptr_add
    rw [if_pos ht, MAGMA_Z_ONE_eq, MAGMA_Z_ZERO_eq, one_mul, zero_mul, add_zero]
    have : (Finset.sum (Finset.range A.num_rows) fun j =>
        A.val t j * (arnoldi_apply A 2 1 init).q (1 * A.num_rows + j)) =
        Finset.sum (Finset.range A.num_rows) fun j =>
          if t = j then MAGMA_Z_MAKE (1 / β) 0 * b j else 0 := by
      apply Finset.sum_congr rfl
      intro j hj
      rw [hA t j ht (Finset.mem_range.mp hj), a_q j (Finset.mem_range.mp hj)]
      split_ifs <;> simp
    rw [this, Finset.sum_ite_eq, if_pos (Finset.mem_range.mpr ht)]
  have a_H : (arnoldi_apply A 2 1 init).H = init.H := rfl
  have a_d : (arnoldi_apply A 2 1 init).div_ok = true := by
    show div_check init.div_ok (init.H 1) = true
    rw [div_check_eq_true, i_H]
    exact ⟨i_d, hcβ⟩
  -- lines 100-105
  obtain ⟨m_q, m_r, m_H, m_F⟩ := mgs_loop_spec A.num_rows 2 1 (arnoldi_apply A 2 1 init) 1
  have m_fr := mgs_loop_frame A.num_rows 2 1 1 (arnoldi_apply A 2 1 init)
  have s_H : ∀ p, (arnoldi_step sqrt A 2 1 init).H p =
      Function.update (forUp (mgs_body A.num_rows 2 1) 1 1 (arnoldi_apply A 2 1 init)).H 4
        (MAGMA_Z_MAKE (magma_dznrm2 sqrt A.num_rows
          (forUp (mgs_body A.num_rows 2 1) 1 1 (arnoldi_apply A 2 1 init)).r) 0) p :=
    fun p => rfl
  have s_q : (arnoldi_step sqrt A 2 1 init).q =
      (forUp (mgs_body A.num_rows 2 1) 1 1 (arnoldi_apply A 2 1 init)).q := rfl
  have s_d : (arnoldi_step sqrt A 2 1 init).div_ok =
      (forUp (mgs_body A.num_rows 2 1) 1 1 (arnoldi_apply A 2 1 init)).div_ok := rfl
  generalize forUp (mgs_body A.num_rows 2 1) 1 1 (arnoldi_apply A 2 1 init) = st
    at m_q m_r m_H m_F m_fr s_H s_q s_d
  have h11 : st.H 3 = 1 := by
    have e := m_H 1 (le_refl 1) (by omega)
    have e2 : magma_zdotc A.num_rows (ptr_add (arnoldi_apply A 2 1 init).q (1 * A.num_rows))
        (fun t => (arnoldi_apply A 2 1 init).r t -
          Finset.sum (Finset.Ico 1 1) fun j =>
            st.H (j + 1 * 2) * (arnoldi_apply A 2 1 init).q (j * A.num_rows + t)) =
        magma_zdotc A.num_rows (fun t => MAGMA_Z_MAKE (1 / β) 0 * b t)
          (fun t => MAGMA_Z_MAKE (1 / β) 0 * b t) := by
      unfold magma_zdotc ptr_add
      apply Finset.sum_congr rfl
      intro t ht
      beta_reduce
      rw [a_q t (Finset.mem_range.mp ht), a_r t (Finset.mem_range.mp ht)]
      simp
    rw [e2, zdotc_self, ← hb] at e
    rw [show (3 : Nat) = 1 + 1 * 2 from rfl, e]
    ext
    · simp [MAGMA_Z_MAKE]; field_simp
    · simp [MAGMA_Z_MAKE]
  have hr0 : ∀ t, t < A.num_rows → st.r t = 0 := by
    intro t ht
    rw [m_r t, if_pos ht]
    have : (Finset.Ico 1 (1 + 1) : Finset Nat) = {1} := by decide
    rw [this, Finset.sum_singleton, show 1 + 1 * 2 = 3 from rfl, h11, a_q t ht, a_r t ht]
    ring
  have hn0 : magma_dznrm2 sqrt A.num_rows st.r = 0 := by
    unfold magma_dznrm2
    have : (Finset.sum (Finset.range A.num_rows) fun t =>
        (st.r t).x * (st.r t).x + (st.r t).y * (st.r t).y) = 0 := by
      apply Finset.sum_eq_zero
      intro t ht
      rw [hr0 t (Finset.mem_range.mp ht)]
      simp
    rw [this, h0]
  have r1 : (arnoldi_step sqrt A 2 1 init).H 1 = MAGMA_Z_MAKE β 0 := by
    rw [s_H, Function.update_noteq (by decide), m_F 1 (fun i h1 h2 => by omega), a_H, i_H]
  have r3 : (arnoldi_step sqrt A 2 1 init).H 3 = 1 := by
    rw [s_H, Function.update_noteq (by decide), h11]
  have r4 : (arnoldi_step sqrt A 2 1 init).H 4 = 0 := by
    rw [s_H, Function.update_same, hn0]
    rfl
  have rd : (arnoldi_step sqrt A 2 1 init).div_ok = true := by
    rw [s_d, m_fr.2.2.2.2.2, a_d]
  have rq : ∀ t, t < A.num_rows →
      (arnoldi_step sqrt A 2 1 init).q (1 * A.num_rows + t) = MAGMA_Z_MAKE (1 / β) 0 * b t := by
    intro t ht
    rw [s_q, m_q, a_q t ht]
  -- lines 107-133
  have hpiv : cblas_zdotc_sub 2 (ptr_add (arnoldi_step sqrt A 2 1 init).H 3)
      (ptr_add (arnoldi_step sqrt A 2 1 init).H 3) = 1 := by
    unfold cblas_zdotc_sub ptr_add
    rw [Finset.sum_range_succ, Finset.sum_range_one, r3, show 3 + 1 = 4 from rfl, r4]
    ext <;> simp
  obtain ⟨f_H, -, f_q, -⟩ := inner_step_arnoldi sqrt A 2 1 init
  have f_y : (inner_step sqrt A 2 1 init).y 1 =
      (arnoldi_step sqrt A 2 1 init).H 3 * (arnoldi_step sqrt A 2 1 init).H 1 /
        cblas_zdotc_sub 2 (ptr_add (arnoldi_step sqrt A 2 1 init).H 3)
          (ptr_add (arnoldi_step sqrt A 2 1 init).H 3) := by
    simp [inner_step, lsq_step, forUp, hh_body]
  have f_d : (inner_step sqrt A 2 1 init).div_ok =
      div_check (arnoldi_step sqrt A 2 1 init).div_ok
        (cblas_zdotc_sub 2 (ptr_add (arnoldi_step sqrt A 2 1 init).H 3)
          (ptr_add (arnoldi_step sqrt A 2 1 init).H 3)) := by
    simp [inner_step, lsq_step, forUp, hh_body]
  refine ⟨?_, ?_, ?_, ?_⟩
  · intro t ht
    rw [f_q, rq t ht]
  · rw [f_y, hpiv, r3, r1]
    simp
  · rw [f_d, hpiv, rd, div_check_eq_true]
    exact ⟨rfl, one_ne_zero⟩
  · rw [f_H]
    exact r4

end Identity

section IdentitySolve

variable {K : Type} [LinearOrderedField K]

/-- The solution update and the loop after it record no division. -/
theorem outer_cycle_div (sqrt : K → K) (A : magma_z_sparse_matrix K) (restart : Nat)
    (s : GmresState K) :
    (outer_cycle sqrt A restart s).div_ok = (inner_loop sqrt A restart s).div_ok := by
  have hp : ∀ (n : Nat) (st : GmresState K),
      (forUp (post_body (restart + 1) (restart + 1)) 1 n st).div_ok = st.div_ok := by
    intro n st
    exact forUp_preserves (fun t : GmresState K => t.div_ok = st.div_ok)
      (post_body (restart + 1) (restart + 1)) 1 n st rfl
      (fun i _ h => forUp_preserves (fun t : GmresState K => t.div_ok = st.div_ok)
        (post_inner (restart + 1) (restart + 1) i) 1 (i + 1) _ h (fun _ _ h => h))
  unfold outer_cycle
  rw [hp]
  rfl

/-- With `maxiter = 1` the solve consists of exactly one outer cycle. -/
theorem single_cycle_solve (sqrt : K → K) (MAGMA_SUCCESS : Int) (A : magma_z_sparse_matrix K)
    (b x : Nat → magmaDoubleComplex K) (epsilon residual : K) (restart numiter : Nat)
    (u : Uninit K) :
    (magma_zgmres sqrt MAGMA_SUCCESS A b x ⟨epsilon, 1, restart, numiter, residual⟩ u).x =
      (outer_cycle sqrt A restart (gmres_init sqrt A b x restart u).2).x ∧
    (magma_zgmres sqrt MAGMA_SUCCESS A b x
      ⟨epsilon, 1, restart, numiter, residual⟩ u).loop.cycles = 1 := by
  unfold magma_zgmres
  simp only [outer_loop]
  split_ifs <;> exact ⟨rfl, rfl⟩

/-- C12 (amended): for `A` the identity, a right-hand side `b` of nonzero norm and
`restart = 1` (exact arithmetic, the square root exact at `‖b‖²` and at 0), the first
outer cycle performs exactly one inner step (one sparse product), divides by no zero, and
leaves `x = b`, whose true residual norm `‖A x − b‖` is 0; with `maxiter = 1` the solve
is that one cycle and returns this `x`. -/
theorem identity_one_step (sqrt : K → K) (MAGMA_SUCCESS : Int) (A : magma_z_sparse_matrix K)
    (b x : Nat → magmaDoubleComplex K) (epsilon residual : K) (numiter : Nat) (u : Uninit K)
    (hA : ∀ i j, i < A.num_rows → j < A.num_rows → A.val i j = if i = j then 1 else 0)
    (hb : sqrt (norm_sq A.num_rows b) * sqrt (norm_sq A.num_rows b) = norm_sq A.num_rows b)
    (hne : norm_sq A.num_rows b ≠ 0) (h0 : sqrt 0 = 0) :
    (∀ t, t < A.num_rows →
      (outer_cycle sqrt A 1 (gmres_init sqrt A b x 1 u).2).x t = b t) ∧
    (outer_cycle sqrt A 1 (gmres_init sqrt A b x 1 u).2).n_spmv = 1 ∧
    (outer_cycle sqrt A 1 (gmres_init sqrt A b x 1 u).2).div_ok = true ∧
    true_residual sqrt A b (outer_cycle sqrt A 1 (gmres_init sqrt A b x 1 u).2).x = 0 ∧
    (magma_zgmres sqrt MAGMA_SUCCESS A b x ⟨epsilon, 1, 1, numiter, residual⟩ u).x =
      (outer_cycle sqrt A 1 (gmres_init sqrt A b x 1 u).2).x ∧
    (magma_zgmres sqrt MAGMA_SUCCESS A b x
      ⟨epsilon, 1, 1, numiter, residual⟩ u).loop.cycles = 1 := by
  obtain ⟨s_q, s_y, s_d, -⟩ := identity_first_step sqrt A b x u hA hb hne h0
  obtain ⟨g_x, -, -⟩ := gmres_init_values sqrt A b x 1 u
  have hβ : sqrt (norm_sq A.num_rows b) ≠ 0 := by
    intro h
    rw [h, mul_zero] at hb
    exact hne hb.symm
  have hloop : inner_loop sqrt A 1 (gmres_init sqrt A b x 1 u).2 =
      inner_step sqrt A 2 1 (gmres_init sqrt A b x 1 u).2 := rfl
  have hx : ∀ t, t < A.num_rows →
      (outer_cycle sqrt A 1 (gmres_init sqrt A b x 1 u).2).x t = b t := by
    intro t ht
    have e : (outer_cycle sqrt A 1 (gmres_init sqrt A b x 1 u).2).x t =
        (update_x A.num_rows (inner_loop sqrt A 1 (gmres_init sqrt A b x 1 u).2)).x t := by
      unfold outer_cycle
      rw [(post_block_frame _ _ _ _).1]
    rw [e, update_x_spec, if_pos ht, inner_loop_m sqrt A 1 _ (le_refl 1),
      (inner_loop_frame sqrt A 1 _).1, g_x t ht, hloop]
    have hIcc : (Finset.Icc 1 1 : Finset Nat) = {1} := by decide
    rw [hIcc, Finset.sum_singleton, s_y, s_q t ht, zero_add, ← mul_assoc, zmake_mul]
    have : sqrt (norm_sq A.num_rows b) * (1 / sqrt (norm_sq A.num_rows b)) = 1 := by
      field_simp
    rw [this]
    exact one_mul _
  refine ⟨hx, ?_, ?_, ?_, ?_⟩
  · rw [outer_cycle_spmv]
    rfl
  · rw [outer_cycle_div, hloop, s_d]
  · unfold true_residual magma_dznrm2
    have : (Finset.sum (Finset.range A.num_rows) fun t =>
        (mat_apply A (outer_cycle sqrt A 1 (gmres_init sqrt A b x 1 u).2).x t - b t).x *
          (mat_apply A (outer_cycle sqrt A 1 (gmres_init sqrt A b x 1 u).2).x t - b t).x +
        (mat_apply A (outer_cycle sqrt A 1 (gmres_init sqrt A b x 1 u).2).x t - b t).y *
          (mat_apply A (outer_cycle sqrt A 1 (gmres_init sqrt A b x 1 u).2).x t - b t).y) = 0 := by
      apply Finset.sum_eq_zero
      intro t ht
      have ht' : t < A.num_rows := Finset.mem_range.mp ht
      have hm : mat_apply A (outer_cycle sqrt A 1 (gmres_init sqrt A b x 1 u).2).x t = b t := by
        unfold mat_apply
        have : (Finset.sum (Finset.range A.num_rows) fun j =>
            A.val t j * (outer_cycle sqrt A 1 (gmres_init sqrt A b x 1 u).2).x j) =
            Finset.sum (Finset.range A.num_rows) fun j => if t = j then b j else 0 := by
          apply Finset.sum_congr rfl
          intro j hj
          rw [hA t j ht' (Finset.mem_range.mp hj), hx j (Finset.mem_range.mp hj)]
          split_ifs <;> simp
        rw [this, Finset.sum_ite_eq, if_pos ht]
      rw [hm]
      simp
    rw [this, h0]
  · exact single_cycle_solve sqrt MAGMA_SUCCESS A b x epsilon residual 1 numiter u

end IdentitySolve

section RunsOfRestarts

/-- The rational square root is never negative. -/
theorem sqrtQ_nonneg (a : ℚ) : 0 ≤ sqrtQ a :=
  div_nonneg (Nat.cast_nonneg _) (Nat.cast_nonneg _)

/-- C11, counterexample: rank-1 operators, `b = e₁`, `restart = 2`.  For `A e₁ = e₁`,
`A e₂ = 0` step 1 ends with `H(2,1) = 0`; step 2 is executed all the same (`m = 2`) and
line 94 divides by that zero.  For `A e₁ = e₂`, `A e₂ = 0` step 1 is regular
(`H(2,1) = 1`), step 2 breaks down (`H(3,2) = 0`) and its pivot `HH(2,2) = 0` is used as a
divisor on line 127. -/
theorem breakdown_not_detected :
    (first_step A_rank1 2).H (2 + 1 * 3) = 0 ∧
    (first_step A_rank1 2).div_ok = true ∧
    (inner_loop sqrtQ A_rank1 2 (start_state A_rank1 2)).m = 2 ∧
    (inner_loop sqrtQ A_rank1 2 (start_state A_rank1 2)).div_ok = false ∧
    (first_step A_nil 2).H (2 + 1 * 3) = ⟨1, 0⟩ ∧
    (first_step A_nil 2).div_ok = true ∧
    (inner_loop sqrtQ A_nil 2 (start_state A_nil 2)).H (3 + 2 * 3) = 0 ∧
    (inner_loop sqrtQ A_nil 2 (start_state A_nil 2)).HH (2 + 2 * 3) = 0 ∧
    (inner_loop sqrtQ A_nil 2 (start_state A_nil 2)).m = 2 ∧
    (inner_loop sqrtQ A_nil 2 (start_state A_nil 2)).div_ok = false := by
  decide!

/-- C11, witness: inner step 1 of the solve of `A = [[1,0],[1,0]]`, `b = e₁`, `restart = 1`
divides by `H(1,0) = 1` and by the pivot `HH(1,1) = 2`. -/
theorem inner_step_div_ok_witness :
    (inner_step sqrtQ A_real (1 + 1) 1 (start_state A_real 1)).div_ok = true :=
  (inner_step_div_ok_iff sqrtQ A_real 1 1 (start_state A_real 1) (by decide) (by decide)).mpr
    ⟨by decide!, by decide!, fun _ h1 h2 => absurd h1 (by omega), by decide!⟩

/-- C12, counterexample: `A = (1)`, `b = (1)`, `restart = 2`.  Step 1 ends with
`H(2,1) = 0`; the cycle still performs two inner steps (two sparse products, `m = 2`),
and step 2 divides by zero. -/
theorem identity_restart_two :
    (first_step A_one 2).H (2 + 1 * 3) = 0 ∧
    (inner_loop sqrtQ A_one 2 (start_state A_one 2)).n_spmv = 2 ∧
    (inner_loop sqrtQ A_one 2 (start_state A_one 2)).m = 2 ∧
    (inner_loop sqrtQ A_one 2 (start_state A_one 2)).div_ok = false ∧
    (solve A_one (params 0 1 2 0) 1).loop.st.n_spmv = 2 := by
  decide!

/-- C12, witness: `A = (1)`, `b = (1)`, `restart = 1`. -/
theorem identity_one_step_witness :
    (outer_cycle sqrtQ A_one 1 (gmres_init sqrtQ A_one unit_vec (fun _ => 0) 1
      (zero_stack 1)).2).x 0 = unit_vec 0 :=
  (identity_one_step sqrtQ 0 A_one unit_vec (fun _ => 0) 0 0 0 (zero_stack 1)
    (fun i j hi hj => by
      have hi0 : i = 0 := by
        have : i < 1 := hi
        omega
      have hj0 : j = 0 := by
        have : j < 1 := hj
        omega
      subst hi0 hj0
      rfl)
    (by decide!) (by decide!) (by decide!)).1 0 (by decide)

/-- C13, failing input: `A = [[1,0],[1,1]]`, `b = e₁`, `restart = 1`, `maxiter = 2`, no
`break`.  After the first cycle `x = (1/2, 0)`, so the new residual is
`b − A x = (1/2, −1/2)` with squared norm `1/2`; the vector left in `r` is `(0, 1)`.  The
second cycle puts `r / H(1,0) = (0, 1)` into basis column 1 and uses `β = H(1,0) = 1`,
the norm of `b`; no division by zero occurs. -/
theorem restart_not_reseeded :
    (first_cycle A_tri 1).x 0 = ⟨1 / 2, 0⟩ ∧ (first_cycle A_tri 1).x 1 = 0 ∧
    residual_vec A_tri unit_vec (first_cycle A_tri 1).x 0 = ⟨1 / 2, 0⟩ ∧
    residual_vec A_tri unit_vec (first_cycle A_tri 1).x 1 = ⟨-1 / 2, 0⟩ ∧
    norm_sq 2 (residual_vec A_tri unit_vec (first_cycle A_tri 1).x) = 1 / 2 ∧
    (first_cycle A_tri 1).r 0 = 0 ∧ (first_cycle A_tri 1).r 1 = ⟨1, 0⟩ ∧
    (solve A_tri (params 0 2 1 0) 1).loop.cycles = 2 ∧
    (solve A_tri (params 0 2 1 0) 1).loop.st.q (1 * 2 + 0) = 0 ∧
    (solve A_tri (params 0 2 1 0) 1).loop.st.q (1 * 2 + 1) = ⟨1, 0⟩ ∧
    (solve A_tri (params 0 2 1 0) 1).loop.st.H (1 + 0 * 2) = ⟨1, 0⟩ ∧
    (solve A_tri (params 0 2 1 0) 1).loop.st.h1 1 = ⟨1, 0⟩ ∧
    (solve A_tri (params 0 2 1 0) 1).loop.st.div_ok = true := by
  decide!

/-- C14, counterexample: `A = (1)`, `b = (1)` and the entry content `x = (1)`, for which
`b − A x = 0`: the solver starts from `r = (1)` and `r0 = 1`. -/
theorem initial_guess_discarded :
    residual_vec A_one unit_vec unit_vec 0 = 0 ∧
    true_residual sqrtQ A_one unit_vec unit_vec = 0 ∧
    (gmres_init sqrtQ A_one unit_vec unit_vec 1 (zero_stack 0)).2.r 0 = ⟨1, 0⟩ ∧
    (gmres_init sqrtQ A_one unit_vec unit_vec 1 (zero_stack 0)).1 = 1 ∧
    (gmres_init sqrtQ A_one unit_vec unit_vec 1 (zero_stack 0)).2.x 0 = 0 := by
  decide!

/-- C15, counterexample: `A e₁ = 2e₂`, `A e₂ = 2e₃`, `A e₃ = 4e₁ + e₃`, `b = e₁`,
`restart = 2`, `epsilon = 10`.  The effective tolerance is 10 and the surrogate after
inner step 1 is `rNorm = 2 < 10`, yet step 2 is executed: the inner loop dispatches two
sparse products and the update uses `m = 2` columns. -/
theorem inner_loop_ignores_surrogate :
    effective_tolerance (gmres_init sqrtQ A_shift unit_vec (fun _ => 0) 2 (zero_stack 0)).1 10
      = 10 ∧
    (first_step A_shift 2).rNorm = 2 ∧
    (first_step A_shift 2).rNorm <
      effective_tolerance (gmres_init sqrtQ A_shift unit_vec (fun _ => 0) 2 (zero_stack 0)).1
        10 ∧
    (inner_loop sqrtQ A_shift 2 (start_state A_shift 2)).n_spmv = 2 ∧
    (inner_loop sqrtQ A_shift 2 (start_state A_shift 2)).m = 2 := by
  decide!

/-- C16, counterexample: `A` is 2 × 2, `b` declares length 3, `x` holds `(7, 7)` on entry.
The call returns `MAGMA_SUCCESS` (here 0), as the call with a `b` of length 2 does, has
dispatched a sparse product, and has overwritten `x`. -/
theorem mismatched_length_accepted :
    (⟨3, unit_vec⟩ : magma_z_vector ℚ).num_rows ≠ A_real.num_rows ∧
    (magma_zgmres_call sqrtQ 0 A_real ⟨3, unit_vec⟩ ⟨2, fun _ => ⟨7, 0⟩⟩ (params 0 1 1 0)
      (zero_stack 1)).ret = 0 ∧
    (magma_zgmres_call sqrtQ 0 A_real ⟨2, unit_vec⟩ ⟨2, fun _ => ⟨7, 0⟩⟩ (params 0 1 1 0)
      (zero_stack 1)).ret = 0 ∧
    (magma_zgmres_call sqrtQ 0 A_real ⟨3, unit_vec⟩ ⟨2, fun _ => ⟨7, 0⟩⟩ (params 0 1 1 0)
      (zero_stack 1)).loop.st.n_spmv = 1 ∧
    (magma_zgmres_call sqrtQ 0 A_real ⟨3, unit_vec⟩ ⟨2, fun _ => ⟨7, 0⟩⟩ (params 0 1 1 0)
      (zero_stack 1)).x 0 = ⟨1 / 2, 0⟩ ∧
    (magma_zgmres_call sqrtQ 0 A_real ⟨3, unit_vec⟩ ⟨2, fun _ => ⟨7, 0⟩⟩ (params 0 1 1 0)
      (zero_stack 1)).x 1 = 0 := by
  decide!

/-- C17, failing input: the strictly diagonally dominant `A = [[2,0],[1,2]]`, `b = e₁`,
`restart = 1`, `maxiter = 2`, no `break`, no division by zero.  The squared true residual
norm `‖b − A x‖²` is `1/5` after the first cycle and `2` after the second: the residual
norm grows from `√(1/5)` to `√2`. -/
theorem residual_grows_after_restart :
    norm_sq 2 (residual_vec A_dom unit_vec (first_cycle A_dom 1).x) = 1 / 5 ∧
    (solve A_dom (params 0 2 1 0) 1).loop.cycles = 2 ∧
    (solve A_dom (params 0 2 1 0) 1).loop.st.div_ok = true ∧
    norm_sq 2 (residual_vec A_dom unit_vec (solve A_dom (params 0 2 1 0) 1).x) = 2 ∧
    norm_sq 2 (residual_vec A_dom unit_vec (first_cycle A_dom 1).x) <
      norm_sq 2 (residual_vec A_dom unit_vec (solve A_dom (params 0 2 1 0) 1).x) := by
  decide!

/-- C18, witness: inner step 1 of the solve of `A = [[1,0],[1,0]]`, `b = e₁`. -/
theorem surrogate_is_norm_witness :
    (inner_step sqrtQ A_real 2 1 (start_state A_real 1)).rNorm =
      magma_dznrm2 sqrtQ A_real.num_rows (inner_step sqrtQ A_real 2 1 (start_state A_real 1)).r ∧
    (inner_step sqrtQ A_real 2 1 (start_state A_real 1)).rNorm = 1 :=
  ⟨(surrogate_is_norm sqrtQ A_real 2 1 (start_state A_real 1) sqrtQ_nonneg).2.2.2.1,
    by decide!⟩

/-- C19, failing input: `A e₁ = 2e₂`, `A e₂ = 2e₃`, `A e₃ = 4e₁ + e₃`, `b = e₁`,
`restart = 2`, `maxiter = 2`, no `break`.  The columns of the first cycle have norm 1.
The first cycle leaves `r = 2e₃`, of norm `H(3,2) = 2`; step 1 of the second cycle divides
it by `H(1,0) = 1` and stores `q(1) = 2e₃`, of squared norm 4. -/
theorem restart_column_not_unit :
    norm_sq 3 (ptr_add (first_cycle A_shift 2).q (1 * 3)) = 1 ∧
    norm_sq 3 (ptr_add (first_cycle A_shift 2).q (2 * 3)) = 1 ∧
    (first_cycle A_shift 2).r 2 = ⟨2, 0⟩ ∧
    magma_dznrm2 sqrtQ 3 (first_cycle A_shift 2).r = 2 ∧
    (first_cycle A_shift 2).H (1 + 0 * 3) = ⟨1, 0⟩ ∧
    (solve A_shift (params 0 2 2 0) 1).loop.cycles = 2 ∧
    (solve A_shift (params 0 2 2 0) 1).loop.st.q (1 * 3 + 2) = ⟨2, 0⟩ ∧
    norm_sq 3 (ptr_add (solve A_shift (params 0 2 2 0) 1).loop.st.q (1 * 3)) = 4 := by
  decide!

/-- C20, witness: inner step 2 of the first cycle of the solve of the 3 × 3 operator
above with `restart = 2` leaves `q(1)`, `H(1,0)`, `H(1,1)`, `H(2,1)` alone. -/
theorem arnoldi_step_frame_witness :
    (arnoldi_step sqrtQ A_shift (2 + 1) 2 (first_step A_shift 2)).q (1 * A_shift.num_rows + 0) =
      (first_step A_shift 2).q (1 * A_shift.num_rows + 0) ∧
    (arnoldi_step sqrtQ A_shift (2 + 1) 2 (first_step A_shift 2)).H (2 + 1 * (2 + 1)) =
      (first_step A_shift 2).H (2 + 1 * (2 + 1)) ∧
    (arnoldi_step sqrtQ A_shift (2 + 1) 2 (first_step A_shift 2)).H (1 + 0 * (2 + 1)) =
      (first_step A_shift 2).H (1 + 0 * (2 + 1)) ∧
    (arnoldi_step sqrtQ A_shift (2 + 1) 2 (first_step A_shift 2)).n_spmv =
      (first_step A_shift 2).n_spmv + 1 :=
  have h := arnoldi_step_frame sqrtQ A_shift 2 2 (first_step A_shift 2) (by decide) (by decide)
  ⟨h.1 1 0 (by decide) (by decide), h.2.1 2 1 (by decide) (by decide) (by decide) (by decide),
    h.2.2.1, h.2.2.2.2.2⟩

end RunsOfRestarts

section HipComplexLaws

variable {K : Type} [Field K]

/-- C24: `hipConj` returns its argument with the sign of the imaginary part kept. At
`z = (0, 1)` the result is `(0, 1)`, not the conjugate `(0, -1)` that `hipConjf` returns
for the same components, and `hipCmul(z, hipConj(z)) = (-1, 0)` while
`(hipCsqabs(z), 0) = (1, 0)`. -/
theorem hipConj_keeps_sign :
    hipConj (⟨0, 1⟩ : hipDoubleComplex ℚ) = ⟨0, 1⟩ ∧
    hipConj (⟨0, 1⟩ : hipDoubleComplex ℚ) ≠ ⟨0, -1⟩ ∧
    hipConjf (⟨0, 1⟩ : hipFloatComplex ℚ) = ⟨0, -1⟩ ∧
    hipCmul (⟨0, 1⟩ : hipDoubleComplex ℚ) (hipConj ⟨0, 1⟩) = ⟨-1, 0⟩ ∧
    (⟨hipCsqabs (⟨0, 1⟩ : hipDoubleComplex ℚ), 0⟩ : hipDoubleComplex ℚ) = ⟨1, 0⟩ ∧
    hipCmul (⟨0, 1⟩ : hipDoubleComplex ℚ) (hipConj ⟨0, 1⟩) ≠
      ⟨hipCsqabs (⟨0, 1⟩ : hipDoubleComplex ℚ), 0⟩ := by
  decide!

/-- C25: over a field, for `hipCsqabs(q) ≠ 0` the helper `hipCdiv` undoes `hipCmul` on
both sides, `hipCmul(hipCdiv(p, q), q) = p` and `hipCdiv(hipCmul(p, q), q) = p`, and for
`hipCsqabsf(qf) ≠ 0` the same holds of `hipCdivf` and `hipCmulf`. -/
theorem hipCdiv_undoes_hipCmul (p q : hipDoubleComplex K) (pf qf : hipFloatComplex K)
    (hq : hipCsqabs q ≠ 0) (hqf : hipCsqabsf qf ≠ 0) :
    hipCmul (hipCdiv p q) q = p ∧ hipCdiv (hipCmul p q) q = p ∧
    hipCmulf (hipCdivf pf qf) qf = pf ∧ hipCdivf (hipCmulf pf qf) qf = pf := by
  have hq' : q.x * q.x + q.y * q.y ≠ 0 := hq
  have hqf' : qf.x * qf.x + qf.y * qf.y ≠ 0 := hqf
  refine ⟨?_, ?_, ?_, ?_⟩
  · apply hipDoubleComplex.ext
    · show (p.x * q.x + p.y * q.y) / (q.x * q.x + q.y * q.y) * q.x -
        (p.y * q.x - p.x * q.y) / (q.x * q.x + q.y * q.y) * q.y = p.x
      field_simp
      ring
    · show (p.y * q.x - p.x * q.y) / (q.x * q.x + q.y * q.y) * q.x +
        (p.x * q.x + p.y * q.y) / (q.x * q.x + q.y * q.y) * q.y = p.y
      field_simp
      ring
  · apply hipDoubleComplex.ext
    · show ((p.x * q.x - p.y * q.y) * q.x + (p.y * q.x + p.x * q.y) * q.y) /
        (q.x * q.x + q.y * q.y) = p.x
      field_simp
      ring
    · show ((p.y * q.x + p.x * q.y) * q.x - (p.x * q.x - p.y * q.y) * q.y) /
        (q.x * q.x + q.y * q.y) = p.y
      field_simp
      ring
  · apply hipFloatComplex.ext
    · show (pf.x * qf.x + pf.y * qf.y) / (qf.x * qf.x + qf.y * qf.y) * qf.x -
        (pf.y * qf.x - pf.x * qf.y) / (qf.x * qf.x + qf.y * qf.y) * qf.y = pf.x
      field_simp
      ring
    · show (pf.y * qf.x - pf.x * qf.y) / (qf.x * qf.x + qf.y * qf.y) * qf.x +
        (pf.x * qf.x + pf.y * qf.y) / (qf.x * qf.x + qf.y * qf.y) * qf.y = pf.y
      field_simp
      ring
  · apply hipFloatComplex.ext
    · show ((pf.x * qf.x - pf.y * qf.y) * qf.x + (pf.y * qf.x + pf.x * qf.y) * qf.y) /
        (qf.x * qf.x + qf.y * qf.y) = pf.x
      field_simp
      ring
    · show ((pf.y * qf.x + pf.x * qf.y) * qf.x - (pf.x * qf.x - pf.y * qf.y) * qf.y) /
        (qf.x * qf.x + qf.y * qf.y) = pf.y
      field_simp
      ring

/-- C25, witness: `p = (1, 2)`, `q = (3, 4)` over `ℚ`, where `hipCsqabs(q) = 25`. -/
theorem hipCdiv_undoes_hipCmul_witness :
    hipCsqabs (⟨3, 4⟩ : hipDoubleComplex ℚ) = 25 ∧
    hipCdiv (⟨1, 2⟩ : hipDoubleComplex ℚ) ⟨3, 4⟩ = ⟨11 / 25, 2 / 25⟩ ∧
    hipCmul (hipCdiv (⟨1, 2⟩ : hipDoubleComplex ℚ) ⟨3, 4⟩) ⟨3, 4⟩ = ⟨1, 2⟩ ∧
    hipCdivf (hipCmulf (⟨1, 2⟩ : hipFloatComplex ℚ) ⟨3, 4⟩) ⟨3, 4⟩ = ⟨1, 2⟩ :=
  have h := hipCdiv_undoes_hipCmul (⟨1, 2⟩ : hipDoubleComplex ℚ) ⟨3, 4⟩
    (⟨1, 2⟩ : hipFloatComplex ℚ) ⟨3, 4⟩ (by decide!) (by decide!)
  ⟨by decide!, by decide!, h.1, h.2.2.2⟩

/-- C26: over a field, `hipCfma(p, q, r) = hipCadd(hipCmul(p, q), r)` for all `p`, `q`,
`r`, and `hipCfmaf(p, q, r) = hipCaddf(hipCmulf(p, q), r)`. -/
theorem hipCfma_eq_mul_add (p q r : hipDoubleComplex K) (pf qf rf : hipFloatComplex K) :
    hipCfma p q r = hipCadd (hipCmul p q) r ∧
    hipCfmaf pf qf rf = hipCaddf (hipCmulf pf qf) rf := by
  constructor
  · apply hipDoubleComplex.ext
    · show -(p.y * q.y) + (p.x * q.x + r.x) = p.x * q.x - p.y * q.y + r.x
      ring
    · show p.x * q.y + (q.x * p.y + r.y) = p.y * q.x + p.x * q.y + r.y
      ring
  · apply hipFloatComplex.ext
    · show -(pf.y * qf.y) + (pf.x * qf.x + rf.x) = pf.x * qf.x - pf.y * qf.y + rf.x
      ring
    · show pf.x * qf.y + (qf.x * pf.y + rf.y) = pf.y * qf.x + pf.x * qf.y + rf.y
      ring

end HipComplexLaws

section TestDriver

open testing_zunmql_gpu

variable {K : Type} [LinearOrderedField K]

/-- Wrapping to `w` bits changes a value by a multiple of `2^w`. -/
theorem wrap_signed_modEq (w : Nat) (v : Int) : Int.ModEq (2 ^ w) (wrap_signed w v) v := by
  unfold wrap_signed
  have h := (Int.mod_modEq (v + 2 ^ (w - 1)) (2 ^ w)).sub_right (2 ^ (w - 1))
  rwa [add_sub_cancel_right] at h

/-- Values that agree modulo `2^w`, `w ≥ 8`, give the same exit status. -/
theorem exit_status_congr (w : Nat) (a b : Int) (hw : 8 ≤ w) (h : Int.ModEq (2 ^ w) a b) :
    exit_status a = exit_status b := by
  have hd : (256 : Int) ∣ 2 ^ w := by
    obtain ⟨d, rfl⟩ : ∃ d, w = 8 + d := ⟨w - 8, by omega⟩
    exact ⟨2 ^ d, by rw [pow_add]; norm_num⟩
  have h2 : Int.ModEq 256 a b := h.of_dvd hd
  unfold exit_status
  rw [h2]

/-- The exit status of a natural number below 256 is that number. -/
theorem exit_status_natCast (c : Nat) : exit_status (c : Int) = c % 256 := by
  unfold exit_status
  omega

/-- A counting loop on the variable `status`: when every pass keeps the process running
and adds `g i` to `status` modulo `M`, so do `n` passes with the sum of `g`. -/
theorem forUp_counts (M : Int) (body : Nat → DriverState → DriverState) (g : Nat → Nat)
    (h : ∀ i s, s.exited = none →
      (body i s).exited = none ∧ Int.ModEq M (body i s).status (s.status + g i))
    (n : Nat) (s : DriverState) (hs : s.exited = none) :
    (forUp body 0 n s).exited = none ∧
    Int.ModEq M (forUp body 0 n s).status (s.status + (Finset.sum (Finset.range n) g : Nat)) := by
  induction n with
  | zero => exact ⟨hs, by simp [forUp]⟩
  | succ n ih =>
    obtain ⟨i1, i2⟩ := ih
    obtain ⟨b1, b2⟩ := h (0 + n) (forUp body 0 n s) i1
    refine ⟨b1, ?_⟩
    show Int.ModEq M (body (0 + n) (forUp body 0 n s)).status _
    refine b2.trans ?_
    rw [Finset.sum_range_succ, Nat.zero_add, Nat.cast_add, ← add_assoc]
    exact i2.add_right _

/-- One pass of the loop body in a running process whose allocations succeed adds 1 to
`status`, modulo `2^bits`, when the case is executed and its error is not below `tol`,
and adds 0 otherwise. -/
theorem case_body_adds (bits : Nat) (opts : magma_opts K) (tol : K)
    (error : Nat → Nat → Nat → Nat → K) (alloc_exit : Nat → Nat → Nat → Nat → Option Int)
    (itest iside itran iter : Nat) (s : DriverState) (hs : s.exited = none)
    (ha : alloc_exit itest iside itran iter = none) :
    (case_body bits opts tol error alloc_exit itest iside itran iter s).exited = none ∧
    Int.ModEq (2 ^ bits)
      (case_body bits opts tol error alloc_exit itest iside itran iter s).status
      (s.status + ((if skipped opts itest iside = false ∧ ¬ error itest iside itran iter < tol
        then 1 else 0 : Nat) : Int)) := by
  have hsome : s.exited.isSome = false := by rw [hs]; rfl
  unfold case_body skipped
  simp only [hsome, Bool.false_eq_true, if_false, ha]
  by_cases h1 : side iside = magma_side_t.MagmaLeft ∧ opts.msize itest < opts.ksize itest
  · rw [if_pos h1]
    refine ⟨hs, ?_⟩
    simp [h1]
  · by_cases h2 : side iside = magma_side_t.MagmaRight ∧ opts.nsize itest < opts.ksize itest
    · rw [if_neg h1, if_pos h2]
      refine ⟨hs, ?_⟩
      simp [h2]
    · rw [if_neg h1, if_neg h2]
      refine ⟨hs, (wrap_signed_modEq bits _).trans ?_⟩
      have hsk : ((decide (side iside = magma_side_t.MagmaLeft) &&
          decide (opts.msize itest < opts.ksize itest)) ||
          (decide (side iside = magma_side_t.MagmaRight) &&
            decide (opts.nsize itest < opts.ksize itest))) = false := by
        simp only [Bool.or_eq_false_iff, Bool.and_eq_false_imp, decide_eq_true_eq,
          decide_eq_false_iff_not]
        exact ⟨fun a b => h1 ⟨a, b⟩, fun a b => h2 ⟨a, b⟩⟩
      by_cases h3 : error itest iside itran iter < tol
      · simp [h3]
      · simp [h3, hsk]

/-- When no allocation fails, the process reaches `return status` with `status` equal,
modulo `2^bits`, to the four-fold sum over the loop indices of the failed executed cases. -/
theorem main_eq_sum (bits : Nat) (opts : magma_opts K) (eps : K)
    (error : Nat → Nat → Nat → Nat → K) (alloc_exit : Nat → Nat → Nat → Nat → Option Int)
    (halloc : ∀ itest iside itran iter, alloc_exit itest iside itran iter = none) :
    (run bits opts eps error alloc_exit).exited = none ∧
    Int.ModEq (2 ^ bits) (run bits opts eps error alloc_exit).status
      ((Finset.sum (Finset.range opts.ntest) fun itest =>
        Finset.sum (Finset.range 2) fun iside =>
          Finset.sum (Finset.range 2) fun itran =>
            Finset.sum (Finset.range opts.niter) fun iter =>
              if skipped opts itest iside = false ∧
                  ¬ error itest iside itran iter < tol opts eps then 1 else 0 : Nat) : Int) := by
  have key := forUp_counts (2 ^ bits)
    (fun itest =>
      forUp (fun iside =>
        forUp (fun itran =>
          forUp (fun iter =>
            case_body bits opts (tol opts eps) error alloc_exit itest iside itran iter)
            0 opts.niter) 0 2) 0 2)
    (fun itest =>
      Finset.sum (Finset.range 2) fun iside =>
        Finset.sum (Finset.range 2) fun itran =>
          Finset.sum (Finset.range opts.niter) fun iter =>
            if skipped opts itest iside = false ∧
                ¬ error itest iside itran iter < tol opts eps then 1 else 0)
    (fun itest s hs => forUp_counts (2 ^ bits) _ _
      (fun iside s hs => forUp_counts (2 ^ bits) _ _
        (fun itran s hs => forUp_counts (2 ^ bits) _ _
          (fun iter s hs => case_body_adds bits opts (tol opts eps) error alloc_exit
            itest iside itran iter s hs (halloc itest iside itran iter))
          opts.niter s hs) 2 s hs) 2 s hs)
    opts.ntest ⟨0, none⟩ rfl
  have e : ((0 : Int) + ((Finset.sum (Finset.range opts.ntest) fun itest =>
        Finset.sum (Finset.range 2) fun iside =>
          Finset.sum (Finset.range 2) fun itran =>
            Finset.sum (Finset.range opts.niter) fun iter =>
              if skipped opts itest iside = false ∧
                  ¬ error itest iside itran iter < tol opts eps then 1 else 0 : Nat) : Int)) =
      ((Finset.sum (Finset.range opts.ntest) fun itest =>
        Finset.sum (Finset.range 2) fun iside =>
          Finset.sum (Finset.range 2) fun itran =>
            Finset.sum (Finset.range opts.niter) fun iter =>
              if skipped opts itest iside = false ∧
                  ¬ error itest iside itran iter < tol opts eps then 1 else 0 : Nat) : Int) :=
    zero_add _
  rw [← e]
  exact key

/-- The four-fold sum of the failed executed cases is the number of elements of
`failed_cases`. -/
theorem failed_cases_card (opts : magma_opts K) (tol : K) (error : Nat → Nat → Nat → Nat → K) :
    (Finset.sum (Finset.range opts.ntest) fun itest =>
      Finset.sum (Finset.range 2) fun iside =>
        Finset.sum (Finset.range 2) fun itran =>
          Finset.sum (Finset.range opts.niter) fun iter =>
            if skipped opts itest iside = false ∧ ¬ error itest iside itran iter < tol
              then 1 else 0) = (failed_cases opts tol error).card := by
  rw [failed_cases, Finset.card_filter, Finset.sum_product]
  refine Finset.sum_congr rfl fun itest _ => ?_
  rw [Finset.sum_product]
  refine Finset.sum_congr rfl fun iside _ => ?_
  rw [Finset.sum_product]

/-- Exit status of a run without allocation failure: the number of failed executed cases
modulo 256, for every width `bits ≥ 8` of `magma_int_t`. -/
theorem main_exit_status (bits : Nat) (opts : magma_opts K) (eps : K)
    (error : Nat → Nat → Nat → Nat → K) (alloc_exit : Nat → Nat → Nat → Nat → Option Int)
    (hbits : 8 ≤ bits)
    (halloc : ∀ itest iside itran iter, alloc_exit itest iside itran iter = none) :
    main bits opts eps error alloc_exit = (failed_cases opts (tol opts eps) error).card % 256 := by
  obtain ⟨h1, h2⟩ := main_eq_sum bits opts eps error alloc_exit halloc
  rw [failed_cases_card] at h2
  unfold main
  rw [h1]
  show exit_status (wrap_signed 32 (run bits opts eps error alloc_exit).status) = _
  rw [exit_status_congr 32 _ _ (by decide) (wrap_signed_modEq 32 _),
    exit_status_congr bits _ _ hbits h2, exit_status_natCast]

/-- C23 (amended): in a run in which no allocation macro ends the process, with
`magma_int_t` of `bits ≥ 8` bits, the exit status of the driver is the number of executed
cases whose error is not strictly below `tol = max(60, opts.tolerance) * eps`, reduced
modulo 256; when fewer than 256 executed cases fail it is that number, and is then 0
exactly when every executed case has `error < tol`; and a pass for a skipped case (left
side with `m < k`, right side with `n < k`) leaves `status` as it was. -/
theorem driver_status_counts_failures (bits : Nat) (opts : magma_opts K) (eps : K)
    (error : Nat → Nat → Nat → Nat → K) (alloc_exit : Nat → Nat → Nat → Nat → Option Int)
    (hbits : 8 ≤ bits)
    (halloc : ∀ itest iside itran iter, alloc_exit itest iside itran iter = none) :
    tol opts eps = max 60 opts.tolerance * eps ∧
    main bits opts eps error alloc_exit =
      (failed_cases opts (tol opts eps) error).card % 256 ∧
    ((failed_cases opts (tol opts eps) error).card < 256 →
      main bits opts eps error alloc_exit = (failed_cases opts (tol opts eps) error).card ∧
      (main bits opts eps error alloc_exit = 0 ↔
        ∀ itest iside itran iter, itest < opts.ntest → iside < 2 → itran < 2 →
          iter < opts.niter → skipped opts itest iside = false →
          error itest iside itran iter < tol opts eps)) ∧
    (∀ itest iside itran iter s,
      (side iside = magma_side_t.MagmaLeft ∧ opts.msize itest < opts.ksize itest) ∨
        (side iside = magma_side_t.MagmaRight ∧ opts.nsize itest < opts.ksize itest) →
      case_body bits opts (tol opts eps) error alloc_exit itest iside itran iter s = s) := by
  have hex := main_exit_status bits opts eps error alloc_exit hbits halloc
  refine ⟨rfl, hex, ?_, ?_⟩
  · intro hlt
    have hcard : main bits opts eps error alloc_exit =
        (failed_cases opts (tol opts eps) error).card := by
      rw [hex, Nat.mod_eq_of_lt hlt]
    refine ⟨hcard, ?_⟩
    rw [hcard, Finset.card_eq_zero, failed_cases, Finset.filter_eq_empty_iff]
    constructor
    · intro h itest iside itran iter h1 h2 h3 h4 hs
      have := h (x := (itest, iside, itran, iter)) (by simp [h1, h2, h3, h4])
      simp only [not_and, not_not] at this
      exact this hs
    · intro h c hc
      simp only [Finset.mem_product, Finset.mem_range] at hc
      simp only [not_and, not_not]
      exact h c.1 c.2.1 c.2.2.1 c.2.2.2 hc.1 hc.2.1 hc.2.2.1 hc.2.2.2
  · intro itest iside itran iter s h
    unfold case_body
    by_cases he : s.exited.isSome
    · rw [if_pos he]
    · rw [if_neg he]
      rcases h with h | h
      · simp [h]
      · by_cases h1 : side iside = magma_side_t.MagmaLeft ∧
            opts.msize itest < opts.ksize itest
        · simp [h1]
        · simp [h1, h]

/-- C23, witness: one test with `m = 2`, `n = 1`, `k = 2` and one iteration on a 32-bit
`magma_int_t`, every error equal to 1 and `tol = 60/1000`: the two left-side cases are
executed and fail, the two right-side cases are skipped, the exit status is 2. -/
theorem driver_status_counts_failures_witness :
    (8 ≤ 32) ∧
    (failed_cases opts_one (tol opts_one (1 / 1000)) fun _ _ _ _ => 1).card = 2 ∧
    main 32 opts_one (1 / 1000) (fun _ _ _ _ => 1) (fun _ _ _ _ => none) =
      (failed_cases opts_one (tol opts_one (1 / 1000)) fun _ _ _ _ => 1).card % 256 :=
  ⟨by decide, by decide!,
    (driver_status_counts_failures 32 opts_one (1 / 1000) (fun _ _ _ _ => 1)
      (fun _ _ _ _ => none) (by decide) (fun _ _ _ _ => rfl)).2.1⟩

/-- C23 (as stated) fails: with 64 tests of size `m = n = k = 1`, one iteration each, every
error equal to 1 and `tol = 60/1000`, all 256 cases are executed and none has
`error < tol`, yet the exit status is 0; and when an allocation macro ends the process
with `exit(-1)` in the second executed case of the one-test run, the exit status is 255
while one case has been executed and has failed. -/
theorem exit_status_wraps_at_256 :
    tol opts_many (1 / 1000) = 3 / 50 ∧
    (failed_cases opts_many (tol opts_many (1 / 1000)) fun _ _ _ _ => 1).card = 256 ∧
    main 32 opts_many (1 / 1000) (fun _ _ _ _ => 1) (fun _ _ _ _ => none) = 0 ∧
    main 64 opts_many (1 / 1000) (fun _ _ _ _ => 1) (fun _ _ _ _ => none) = 0 ∧
    main 32 opts_one (1 / 1000) (fun _ _ _ _ => 1)
      (fun _ _ itran _ => if itran = 1 then some (-1) else none) = 255 := by
  decide!

end TestDriver

section WorkspaceBounds

/-- Index arithmetic of the inner steps: for `1 ≤ k ≤ restart` and `ldh = restart + 1`, the
flat indices that step `k` forms for `H` (`H(k,k-1)`, `H(i,k)` with `i ≤ k+1`, `H(1,0)`),
for `HH` (`HH(i,m)` with `i, m ≤ k`) and for `y`, `h1` (at most `k`) lie below the
declared sizes. -/
theorem inner_step_indices_in_bounds (restart k : Nat) (hk1 : 1 ≤ k) (hk : k ≤ restart) :
    k + (k - 1) * (restart + 1) < H_size (restart + 1) ∧
    (∀ i, i ≤ k + 1 → i + k * (restart + 1) < H_size (restart + 1)) ∧
    1 + 0 * (restart + 1) < H_size (restart + 1) ∧
    (∀ i m, i ≤ k → m ≤ k → i + m * (restart + 1) < HH_size (restart + 1)) ∧
    (∀ i, i ≤ k → i < y_size (restart + 1)) := by
  unfold H_size HH_size y_size
  refine ⟨?_, ?_, ?_, ?_, ?_⟩
  · have h1 : (k - 1) * (restart + 1) ≤ restart * (restart + 1) :=
      Nat.mul_le_mul_right _ (by omega)
    nlinarith
  · intro i hi
    have h1 : k * (restart + 1) ≤ restart * (restart + 1) := Nat.mul_le_mul_right _ hk
    nlinarith
  · nlinarith
  · intro i m hi hm
    have h1 : m * (restart + 1) ≤ restart * (restart + 1) :=
      Nat.mul_le_mul_right _ (by omega)
    nlinarith
  · intro i hi
    omega

/-- C27: the block after the inner loop leaves the declared arrays and reads cells of `H`
that the solve never wrote. For `restart = 1` (`ldh = 2`, `HH` of 4 and `H` of 6 elements,
`k = 2` on loop exit) and the 2 × 2 matrix with first column `(1, 1)`: cell 4 of `HH`, one
past its end, is written with `H(1,2) * H(1,1) + H(2,2) * H(2,1)`, which is the entry
content 7 of the never-written cell `H[5]`, and equally the content 7 of `H[6]`, one past
the end of `H`; cell 6 of `HH` receives the square of the content of `H[7]`. None of the
three cells of `H` is written by the cycle. -/
theorem post_block_leaves_workspace :
    HH_size (1 + 1) = 4 ∧ H_size (1 + 1) = 6 ∧
    2 + 1 * (1 + 1) = HH_size (1 + 1) ∧ 2 + 2 * (1 + 1) = H_size (1 + 1) ∧
    (marked_cycle A_real 1 5 7).HH (2 + 1 * (1 + 1)) = ⟨7, 0⟩ ∧
    (marked_cycle A_real 1 5 0).HH (2 + 1 * (1 + 1)) = ⟨0, 0⟩ ∧
    (marked_cycle A_real 1 6 7).HH (2 + 1 * (1 + 1)) = ⟨7, 0⟩ ∧
    (marked_cycle A_real 1 7 7).HH (2 + 2 * (1 + 1)) = ⟨49, 0⟩ ∧
    (marked_cycle A_real 1 5 7).H (1 + 2 * (1 + 1)) = ⟨7, 0⟩ ∧
    (marked_cycle A_real 1 6 7).H (2 + 2 * (1 + 1)) = ⟨7, 0⟩ ∧
    (marked_cycle A_real 1 7 7).H (3 + 2 * (1 + 1)) = ⟨7, 0⟩ := by
  decide!

end WorkspaceBounds

section FactorisationCells

variable {K : Type} [LinearOrderedField K]

/-- The flat index `a + b * ldh` determines the row `a < ldh` and the column `b`. -/
theorem flat_index_inj (ldh a b a2 b2 : Nat) (ha : a < ldh) (ha2 : a2 < ldh)
    (h : a + b * ldh = a2 + b2 * ldh) : a = a2 ∧ b = b2 := by
  have h1 : (a + b * ldh) % ldh = a := by
    rw [Nat.add_mul_mod_self_right, Nat.mod_eq_of_lt ha]
  have h2 : (a2 + b2 * ldh) % ldh = a2 := by
    rw [Nat.add_mul_mod_self_right, Nat.mod_eq_of_lt ha2]
  have e : a = a2 := by rw [← h1, h, h2]
  subst e
  have h3 : b * ldh = b2 * ldh := by omega
  exact ⟨rfl, Nat.eq_of_mul_eq_mul_right (by omega) h3⟩

/-- The loop of line 110 stores in `HH(k,i)`, `1 ≤ i ≤ n`, the product of column `k` with
the first `i + 1` entries of column `i` of `H`, and changes nothing else. -/
theorem hh_loop_values (ldh k n : Nat) (s : GmresState K) (hk : k < ldh) :
    (forUp (hh_body ldh k) 1 n s).H = s.H ∧ (forUp (hh_body ldh k) 1 n s).y = s.y ∧
    (forUp (hh_body ldh k) 1 n s).h1 = s.h1 ∧
    (∀ i, 1 ≤ i → i ≤ n → (forUp (hh_body ldh k) 1 n s).HH (k + i * ldh) =
      cblas_zdotc_sub (i + 1) (ptr_add s.H (1 + k * ldh)) (ptr_add s.H (1 + i * ldh))) ∧
    (∀ p, (∀ m, 1 ≤ m → m ≤ n → p ≠ k + m * ldh) →
      (forUp (hh_body ldh k) 1 n s).HH p = s.HH p) := by
  induction n with
  | zero => exact ⟨rfl, rfl, rfl, fun i h1 h2 => by omega, fun _ _ => rfl⟩
  | succ n ih =>
    obtain ⟨i1, i2, i3, i4, i5⟩ := ih
    have hstep : ∀ p, (forUp (hh_body ldh k) 1 (n + 1) s).HH p =
        Function.update (forUp (hh_body ldh k) 1 n s).HH (k + (1 + n) * ldh)
          (cblas_zdotc_sub (1 + n + 1) (ptr_add (forUp (hh_body ldh k) 1 n s).H (1 + k * ldh))
            (ptr_add (forUp (hh_body ldh k) 1 n s).H (1 + (1 + n) * ldh))) p :=
      fun p => rfl
    refine ⟨i1, i2, i3, ?_, ?_⟩
    · intro i h1 h2
      rw [hstep]
      by_cases hi : i = 1 + n
      · subst hi
        rw [Function.update_same, i1]
      · have hne : k + i * ldh ≠ k + (1 + n) * ldh := fun h =>
          hi (flat_index_inj ldh k i k (1 + n) hk hk h).2
        rw [Function.update_noteq hne]
        exact i4 i h1 (by omega)
    · intro p hp
      rw [hstep, Function.update_noteq (hp (1 + n) (by omega) (by omega))]
      exact i5 p fun m h1 h2 => hp m h1 (by omega)

/-- The inner loop of line 120 after `t` passes: `HH(k,m)` has lost
`HH(k,i) * HH(m,i)` for `i < m ≤ i + t`, and nothing else has changed. -/
theorem elim_inner_loop_spec (ldh k i t : Nat) (s : GmresState K) (hk : k < ldh)
    (ht : i + t < k) :
    (forUp (elim_inner ldh k i) (i + 1) t s).H = s.H ∧
    (forUp (elim_inner ldh k i) (i + 1) t s).h1 = s.h1 ∧
    (forUp (elim_inner ldh k i) (i + 1) t s).y = s.y ∧
    (∀ m, i < m → m ≤ i + t → (forUp (elim_inner ldh k i) (i + 1) t s).HH (k + m * ldh) =
      s.HH (k + m * ldh) - s.HH (k + i * ldh) * s.HH (m + i * ldh)) ∧
    (∀ p, (∀ m, i < m → m ≤ i + t → p ≠ k + m * ldh) →
      (forUp (elim_inner ldh k i) (i + 1) t s).HH p = s.HH p) := by
  induction t with
  | zero => exact ⟨rfl, rfl, rfl, fun m h1 h2 => by omega, fun _ _ => rfl⟩
  | succ t ih =>
    obtain ⟨i1, i2, i3, i4, i5⟩ := ih (by omega)
    have hstep : ∀ p, (forUp (elim_inner ldh k i) (i + 1) (t + 1) s).HH p =
        Function.update (forUp (elim_inner ldh k i) (i + 1) t s).HH (k + (i + 1 + t) * ldh)
          ((forUp (elim_inner ldh k i) (i + 1) t s).HH (k + (i + 1 + t) * ldh) -
            (forUp (elim_inner ldh k i) (i + 1) t s).HH (k + i * ldh) *
            (forUp (elim_inner ldh k i) (i + 1) t s).HH (i + 1 + t + i * ldh)) p :=
      fun p => rfl
    refine ⟨i1, i2, i3, ?_, ?_⟩
    · intro m h1 h2
      rw [hstep]
      by_cases hm : m = i + 1 + t
      · subst hm
        rw [Function.update_same, i5, i5, i5]
        · intro m h3 h4 h
          have := (flat_index_inj ldh (i + 1 + t) i k m (by omega) hk h).1
          omega
        · intro m h3 h4 h
          have := (flat_index_inj ldh k i k m hk hk h).2
          omega
        · intro m h3 h4 h
          have := (flat_index_inj ldh k (i + 1 + t) k m hk hk h).2
          omega
      · have hne : k + m * ldh ≠ k + (i + 1 + t) * ldh := fun h =>
          hm (flat_index_inj ldh k m k (i + 1 + t) hk hk h).2
        rw [Function.update_noteq hne]
        exact i4 m h1 (by omega)
    · intro p hp
      rw [hstep, Function.update_noteq (hp (i + 1 + t) (by omega) (by omega))]
      exact i5 p fun m h1 h2 => hp m h1 (by omega)

/-- One pass `i` of the elimination loop of lines 119-126, cell by cell. -/
theorem elim_body_values (ldh k i : Nat) (s : GmresState K) (hi : i < k) (hk : k < ldh) :
    (elim_body ldh k i s).H = s.H ∧ (elim_body ldh k i s).y = s.y ∧
    (elim_body ldh k i s).HH (k + i * ldh) = s.HH (k + i * ldh) / s.HH (i + i * ldh) ∧
    (elim_body ldh k i s).HH (k + k * ldh) =
      s.HH (k + k * ldh) - s.HH (k + i * ldh) * s.HH (k + i * ldh) / s.HH (i + i * ldh) ∧
    (∀ m, i < m → m < k → (elim_body ldh k i s).HH (k + m * ldh) =
      s.HH (k + m * ldh) - s.HH (k + i * ldh) * s.HH (m + i * ldh)) ∧
    (∀ p, (∀ m, i ≤ m → m ≤ k → p ≠ k + m * ldh) → (elim_body ldh k i s).HH p = s.HH p) ∧
    (elim_body ldh k i s).h1 k =
      s.h1 k - s.h1 i * (s.HH (k + i * ldh) / s.HH (i + i * ldh)) ∧
    (∀ p, p ≠ k → (elim_body ldh k i s).h1 p = s.h1 p) := by
  obtain ⟨e1, e2, e3, e4, e5⟩ :=
    elim_inner_loop_spec ldh k i (k - (i + 1)) s hk (by omega)
  generalize hs1 : forUp (elim_inner ldh k i) (i + 1) (k - (i + 1)) s = s1 at e1 e2 e3 e4 e5
  have hHH : ∀ p, (elim_body ldh k i s).HH p =
      Function.update (Function.update s1.HH (k + k * ldh)
        (s1.HH (k + k * ldh) - s1.HH (k + i * ldh) * s1.HH (k + i * ldh) / s1.HH (i + i * ldh)))
        (k + i * ldh)
        (Function.update s1.HH (k + k * ldh)
          (s1.HH (k + k * ldh) - s1.HH (k + i * ldh) * s1.HH (k + i * ldh) / s1.HH (i + i * ldh))
          (k + i * ldh) /
         Function.update s1.HH (k + k * ldh)
          (s1.HH (k + k * ldh) - s1.HH (k + i * ldh) * s1.HH (k + i * ldh) / s1.HH (i + i * ldh))
          (i + i * ldh)) p := by
    intro p
    simp only [elim_body, hs1]
  have hh1 : ∀ p, (elim_body ldh k i s).h1 p =
      Function.update s1.h1 k (s1.h1 k - s1.h1 i * (elim_body ldh k i s).HH (k + i * ldh)) p := by
    intro p
    simp only [elim_body, hs1]
  have hd : ∀ m, i + i * ldh ≠ k + m * ldh := fun m => diag_not_in_row ldh i k m hi hk
  have hik : k + i * ldh ≠ k + k * ldh := fun h => by
    have := (flat_index_inj ldh k i k k hk hk h).2
    omega
  have sk : s1.HH (k + k * ldh) = s.HH (k + k * ldh) := e5 _ fun m h1 h2 h => by
    have := (flat_index_inj ldh k k k m hk hk h).2
    omega
  have si : s1.HH (k + i * ldh) = s.HH (k + i * ldh) := e5 _ fun m h1 h2 h => by
    have := (flat_index_inj ldh k i k m hk hk h).2
    omega
  have sd : s1.HH (i + i * ldh) = s.HH (i + i * ldh) := e5 _ fun m _ _ => hd m
  have v1 : (elim_body ldh k i s).HH (k + i * ldh) =
      s.HH (k + i * ldh) / s.HH (i + i * ldh) := by
    rw [hHH, Function.update_same, Function.update_noteq hik, Function.update_noteq (hd k),
      si, sd]
  refine ⟨?_, ?_, v1, ?_, ?_, ?_, ?_, ?_⟩
  · simp only [elim_body, hs1]; exact e1
  · simp only [elim_body, hs1]; exact e3
  · rw [hHH, Function.update_noteq hik.symm, Function.update_same, sk, si, sd]
  · intro m h1 h2
    have hmi : k + m * ldh ≠ k + i * ldh := fun h => by
      have := (flat_index_inj ldh k m k i hk hk h).2
      omega
    have hmk : k + m * ldh ≠ k + k * ldh := fun h => by
      have := (flat_index_inj ldh k m k k hk hk h).2
      omega
    rw [hHH, Function.update_noteq hmi, Function.update_noteq hmk]
    exact e4 m h1 (by omega)
  · intro p hp
    rw [hHH, Function.update_noteq (hp i (le_refl i) (by omega)),
      Function.update_noteq (hp k (by omega) (le_refl k))]
    exact e5 p fun m h1 h2 => hp m (by omega) (by omega)
  · rw [hh1, Function.update_same, v1, e2]
  · intro p hp
    rw [hh1, Function.update_noteq hp, e2]

end FactorisationCells

section FactorisationLoop

variable {K : Type} [LinearOrderedField K]

/-- The elimination loop of lines 119-126 after `n < k` passes, with nonzero pivots
`HH(i,i)`, `i < k`. Writing `G(m)` for the entry content of `HH(k,m)`: the finished
entries `m ≤ n` satisfy `G(m) = Σ_{p<m} HH(k,p) D(p) HH(m,p) + HH(k,m) D(m)`, the entries
`n < m < k` and the diagonal hold the partially reduced values, `h1[k]` has lost
`Σ_{p≤n} h1[p] HH(k,p)`, and nothing outside `HH(k,1..k)` and `h1[k]` has changed. -/
theorem elim_loop_ldl (ldh k : Nat) (s : GmresState K) (hk : k < ldh)
    (hpiv : ∀ i, 1 ≤ i → i < k → s.HH (i + i * ldh) ≠ 0) (n : Nat) (hn : n < k) :
    (forUp (elim_body ldh k) 1 n s).H = s.H ∧
    (forUp (elim_body ldh k) 1 n s).y = s.y ∧
    (∀ p, (∀ m, 1 ≤ m → m ≤ k → p ≠ k + m * ldh) →
      (forUp (elim_body ldh k) 1 n s).HH p = s.HH p) ∧
    (∀ m, 1 ≤ m → m ≤ n → s.HH (k + m * ldh) =
      (Finset.sum (Finset.Ico 1 m) fun p =>
        (forUp (elim_body ldh k) 1 n s).HH (k + p * ldh) * s.HH (p + p * ldh) *
          s.HH (m + p * ldh)) +
      (forUp (elim_body ldh k) 1 n s).HH (k + m * ldh) * s.HH (m + m * ldh)) ∧
    (∀ m, n < m → m < k → (forUp (elim_body ldh k) 1 n s).HH (k + m * ldh) =
      s.HH (k + m * ldh) - Finset.sum (Finset.Ico 1 (n + 1)) fun p =>
        (forUp (elim_body ldh k) 1 n s).HH (k + p * ldh) * s.HH (p + p * ldh) *
          s.HH (m + p * ldh)) ∧
    (forUp (elim_body ldh k) 1 n s).HH (k + k * ldh) =
      s.HH (k + k * ldh) - (Finset.sum (Finset.Ico 1 (n + 1)) fun p =>
        (forUp (elim_body ldh k) 1 n s).HH (k + p * ldh) *
          (forUp (elim_body ldh k) 1 n s).HH (k + p * ldh) * s.HH (p + p * ldh)) ∧
    (forUp (elim_body ldh k) 1 n s).h1 k =
      s.h1 k - (Finset.sum (Finset.Ico 1 (n + 1)) fun p =>
        s.h1 p * (forUp (elim_body ldh k) 1 n s).HH (k + p * ldh)) ∧
    (∀ p, p ≠ k → (forUp (elim_body ldh k) 1 n s).h1 p = s.h1 p) := by
  induction n with
  | zero =>
    refine ⟨rfl, rfl, fun _ _ => rfl, fun m h1 h2 => by omega, ?_, ?_, ?_, fun _ _ => rfl⟩
    · intro m _ _
      show s.HH (k + m * ldh) = _
      simp
    · show s.HH (k + k * ldh) = _
      simp
    · show s.h1 k = _
      simp
  | succ n ih =>
    obtain ⟨iH, iy, ifr, ia, ib, ic, id, ie⟩ := ih (by omega)
    have e : forUp (elim_body ldh k) 1 (n + 1) s =
        elim_body ldh k (n + 1) (forUp (elim_body ldh k) 1 n s) := by
      show elim_body ldh k (1 + n) _ = _
      rw [Nat.add_comm]
    rw [e]
    generalize forUp (elim_body ldh k) 1 n s = st at iH iy ifr ia ib ic id ie
    obtain ⟨vH, vy, v1, v2, v3, v4, v5, v6⟩ := elim_body_values ldh k (n + 1) st hn hk
    generalize elim_body ldh k (n + 1) st = st2 at vH vy v1 v2 v3 v4 v5 v6
    -- cells outside row k keep their entry content
    have old : ∀ m p, m < k → st.HH (m + p * ldh) = s.HH (m + p * ldh) := fun m p hm =>
      ifr _ fun m2 _ _ h => by
        have := (flat_index_inj ldh m p k m2 (by omega) hk h).1
        omega
    have low : ∀ p, p < n + 1 → st2.HH (k + p * ldh) = st.HH (k + p * ldh) := fun p hp =>
      v4 _ fun m h1 _ h => by
        have := (flat_index_inj ldh k p k m hk hk h).2
        omega
    have hd : s.HH (n + 1 + (n + 1) * ldh) ≠ 0 := hpiv (n + 1) (by omega) hn
    have hu : st2.HH (k + (n + 1) * ldh) * s.HH (n + 1 + (n + 1) * ldh) =
        st.HH (k + (n + 1) * ldh) := by
      rw [v1, old (n + 1) (n + 1) hn, div_mul_cancel₀ _ hd]
    have hsum : ∀ (b : Nat) (f g : Nat → magmaDoubleComplex K), b ≤ n + 1 →
        (∀ p, f p = g p) →
        (Finset.sum (Finset.Ico 1 b) fun p => st2.HH (k + p * ldh) * f p) =
          Finset.sum (Finset.Ico 1 b) fun p => st.HH (k + p * ldh) * g p := by
      intro b f g hb hfg
      refine Finset.sum_congr rfl fun p hp => ?_
      rw [Finset.mem_Ico] at hp
      rw [low p (by omega), hfg]
    refine ⟨vH.trans iH, vy.trans iy, ?_, ?_, ?_, ?_, ?_, ?_⟩
    · intro p hp
      rw [v4 p fun m h1 h2 => hp m (by omega) h2]
      exact ifr p hp
    · intro m h1 h2
      have hs := hsum m (fun p => s.HH (p + p * ldh) * s.HH (m + p * ldh))
        (fun p => s.HH (p + p * ldh) * s.HH (m + p * ldh)) h2 (fun _ => rfl)
      simp only [← mul_assoc] at hs
      rw [hs]
      by_cases hm : m ≤ n
      · rw [low m (by omega)]
        exact ia m h1 hm
      · have hm2 : m = n + 1 := by omega
        subst hm2
        rw [hu, ib (n + 1) (by omega) hn]
        ring
    · intro m h1 h2
      have hs := hsum (n + 1) (fun p => s.HH (p + p * ldh) * s.HH (m + p * ldh))
        (fun p => s.HH (p + p * ldh) * s.HH (m + p * ldh)) (le_refl _) (fun _ => rfl)
      simp only [← mul_assoc] at hs
      rw [Finset.sum_Ico_succ_top (by omega : 1 ≤ n + 1), hs, hu, v3 m (by omega) h2,
        ib m (by omega) h2, old m (n + 1) h2]
      ring
    · have hs : (Finset.sum (Finset.Ico 1 (n + 1)) fun p =>
          st2.HH (k + p * ldh) * st2.HH (k + p * ldh) * s.HH (p + p * ldh)) =
          Finset.sum (Finset.Ico 1 (n + 1)) fun p =>
            st.HH (k + p * ldh) * st.HH (k + p * ldh) * s.HH (p + p * ldh) := by
        refine Finset.sum_congr rfl fun p hp => ?_
        rw [Finset.mem_Ico] at hp
        rw [low p (by omega)]
      rw [Finset.sum_Ico_succ_top (by omega : 1 ≤ n + 1), hs, v2, ic, v1,
        old (n + 1) (n + 1) hn]
      field_simp
      ring
    · have hs : (Finset.sum (Finset.Ico 1 (n + 1)) fun p =>
          s.h1 p * st2.HH (k + p * ldh)) =
          Finset.sum (Finset.Ico 1 (n + 1)) fun p => s.h1 p * st.HH (k + p * ldh) := by
        refine Finset.sum_congr rfl fun p hp => ?_
        rw [Finset.mem_Ico] at hp
        rw [low p (by omega)]
      rw [Finset.sum_Ico_succ_top (by omega : 1 ≤ n + 1), hs, v5, id, v1,
        ie (n + 1) (by omega), old (n + 1) (n + 1) hn]
      ring
    · intro p hp
      rw [v6 p hp]
      exact ie p hp

end FactorisationLoop

section BackSubstitution

variable {K : Type} [LinearOrderedField K]

/-- The inner loop of line 131 after `t` passes: `y[i]` has lost `y[j] * HH(j,i)` for
`i < j ≤ i + t`. -/
theorem back_inner_loop_spec (ldh i t : Nat) (s : GmresState K) :
    (forUp (back_inner ldh i) (i + 1) t s).H = s.H ∧
    (forUp (back_inner ldh i) (i + 1) t s).HH = s.HH ∧
    (forUp (back_inner ldh i) (i + 1) t s).h1 = s.h1 ∧
    (forUp (back_inner ldh i) (i + 1) t s).y i =
      s.y i - (Finset.sum (Finset.Ico (i + 1) (i + 1 + t)) fun j =>
        s.y j * s.HH (j + i * ldh)) ∧
    (∀ p, p ≠ i → (forUp (back_inner ldh i) (i + 1) t s).y p = s.y p) := by
  induction t with
  | zero =>
    refine ⟨rfl, rfl, rfl, ?_, fun _ _ => rfl⟩
    show s.y i = _
    simp
  | succ t ih =>
    obtain ⟨i1, i2, i3, i4, i5⟩ := ih
    have hy : ∀ p, (forUp (back_inner ldh i) (i + 1) (t + 1) s).y p =
        Function.update (forUp (back_inner ldh i) (i + 1) t s).y i
          ((forUp (back_inner ldh i) (i + 1) t s).y i -
            (forUp (back_inner ldh i) (i + 1) t s).y (i + 1 + t) *
            (forUp (back_inner ldh i) (i + 1) t s).HH (i + 1 + t + i * ldh)) p :=
      fun p => rfl
    refine ⟨i1, i2, i3, ?_, ?_⟩
    · rw [hy, Function.update_same, i4, i5 (i + 1 + t) (by omega), i2,
        ← Nat.add_assoc (i + 1) t 1, Finset.sum_Ico_succ_top (by omega : i + 1 ≤ i + 1 + t)]
      ring
    · intro p hp
      rw [hy, Function.update_noteq hp]
      exact i5 p hp

/-- One pass `i ≤ k` of the back-substitution loop of lines 129-133:
`y[i] = h1[i] / HH(i,i) − Σ_{j=i+1..k} y[j] HH(j,i)`, nothing else changes. -/
theorem back_body_values (ldh k i : Nat) (s : GmresState K) (hi : i ≤ k) :
    (back_body ldh k i s).H = s.H ∧ (back_body ldh k i s).HH = s.HH ∧
    (back_body ldh k i s).h1 = s.h1 ∧
    (back_body ldh k i s).y i = s.h1 i / s.HH (i + i * ldh) -
      (Finset.sum (Finset.Ico (i + 1) (k + 1)) fun j => s.y j * s.HH (j + i * ldh)) ∧
    (∀ p, p ≠ i → (back_body ldh k i s).y p = s.y p) := by
  have hki : i + 1 + (k - i) = k + 1 := by omega
  have h := back_inner_loop_spec ldh i (k - i)
    { s with y := Function.update s.y i (s.h1 i / s.HH (i + i * ldh)),
             div_ok := div_check s.div_ok (s.HH (i + i * ldh)) }
  rw [hki] at h
  obtain ⟨b1, b2, b3, b4, b5⟩ := h
  refine ⟨b1, b2, b3, ?_, ?_⟩
  · refine b4.trans ?_
    show Function.update s.y i (s.h1 i / s.HH (i + i * ldh)) i -
      (Finset.sum (Finset.Ico (i + 1) (k + 1)) fun j =>
        Function.update s.y i (s.h1 i / s.HH (i + i * ldh)) j * s.HH (j + i * ldh)) = _
    rw [Function.update_same]
    congr 1
    refine Finset.sum_congr rfl fun j hj => ?_
    rw [Finset.mem_Ico] at hj
    rw [Function.update_noteq (by omega)]
  · intro p hp
    refine (b5 p hp).trans ?_
    show Function.update s.y i (s.h1 i / s.HH (i + i * ldh)) p = _
    rw [Function.update_noteq hp]

/-- The back-substitution loop over `i = n, …, 1` (`n ≤ k`): the entries `y[i]`, `i ≤ n`,
satisfy the triangular recurrence in the final `y`, the entries above `n` are untouched. -/
theorem back_loop_values (ldh k n : Nat) (s : GmresState K) (hn : n ≤ k) :
    (forDown (back_body ldh k) n s).H = s.H ∧ (forDown (back_body ldh k) n s).HH = s.HH ∧
    (forDown (back_body ldh k) n s).h1 = s.h1 ∧
    (∀ p, n < p → (forDown (back_body ldh k) n s).y p = s.y p) ∧
    (∀ i, 1 ≤ i → i ≤ n → (forDown (back_body ldh k) n s).y i =
      s.h1 i / s.HH (i + i * ldh) - (Finset.sum (Finset.Ico (i + 1) (k + 1)) fun j =>
        (forDown (back_body ldh k) n s).y j * s.HH (j + i * ldh))) := by
  induction n generalizing s with
  | zero => exact ⟨rfl, rfl, rfl, fun _ _ => rfl, fun i h1 h2 => by omega⟩
  | succ n ih =>
    obtain ⟨b1, b2, b3, b4, b5⟩ := back_body_values ldh k (n + 1) s hn
    obtain ⟨i1, i2, i3, i4, i5⟩ := ih (back_body ldh k (n + 1) s) (by omega)
    have e : forDown (back_body ldh k) (n + 1) s =
        forDown (back_body ldh k) n (back_body ldh k (n + 1) s) := rfl
    rw [e]
    generalize back_body ldh k (n + 1) s = s1 at b1 b2 b3 b4 b5 i1 i2 i3 i4 i5
    generalize forDown (back_body ldh k) n s1 = st at i1 i2 i3 i4 i5
    refine ⟨i1.trans b1, i2.trans b2, i3.trans b3, ?_, ?_⟩
    · intro p hp
      rw [i4 p (by omega), b5 p (by omega)]
    · intro i h1 h2
      by_cases hi : i ≤ n
      · rw [i5 i h1 hi, b3, b2]
      · have hi2 : i = n + 1 := by omega
        subst hi2
        rw [i4 (n + 1) (by omega), b4]
        congr 1
        refine Finset.sum_congr rfl fun j hj => ?_
        rw [Finset.mem_Ico] at hj
        rw [i4 j (by omega), b5 j (by omega)]

/-- The triangular recurrence of the back substitution has one solution: two arrays that
both satisfy it for `1 ≤ i ≤ k` agree on `1..k`. -/
theorem back_subst_unique (ldh k : Nat) (h1 HH y y2 : Nat → magmaDoubleComplex K)
    (hy : ∀ i, 1 ≤ i → i ≤ k → y i = h1 i / HH (i + i * ldh) -
      (Finset.sum (Finset.Ico (i + 1) (k + 1)) fun j => y j * HH (j + i * ldh)))
    (hy2 : ∀ i, 1 ≤ i → i ≤ k → y2 i = h1 i / HH (i + i * ldh) -
      (Finset.sum (Finset.Ico (i + 1) (k + 1)) fun j => y2 j * HH (j + i * ldh))) :
    ∀ i, 1 ≤ i → i ≤ k → y i = y2 i := by
  have key : ∀ d i, 1 ≤ i → i ≤ k → k - i ≤ d → y i = y2 i := by
    intro d
    induction d with
    | zero =>
      intro i h1i hik hd
      rw [hy i h1i hik, hy2 i h1i hik]
      congr 1
      refine Finset.sum_congr rfl fun j hj => ?_
      rw [Finset.mem_Ico] at hj
      omega
    | succ d ih =>
      intro i h1i hik hd
      rw [hy i h1i hik, hy2 i h1i hik]
      congr 1
      refine Finset.sum_congr rfl fun j hj => ?_
      rw [Finset.mem_Ico] at hj
      rw [ih j (by omega) (by omega) (by omega)]
  exact fun i h1i hik => key (k - i) i h1i hik (le_refl _)

end BackSubstitution

section LeastSquaresStep

variable {K : Type} [LinearOrderedField K]

/-- The least-squares part of inner step `k` (`1 ≤ k < ldh`) with nonzero pivots
`HH(i,i)`, `i < k`. With `G(m)` the product of column `k` with the first `m + 1` entries
of column `m` of `H`: row `k` of `HH` holds the row of the factorisation,
`G(m) = Σ_{p<m} HH(k,p) D(p) HH(m,p) + HH(k,m) D(m)` for `m < k` and
`G(k) = Σ_{p<k} HH(k,p)² D(p) + HH(k,k)`; `h1[k]` holds the forward-eliminated
right-hand side, `H(1,k) H(1,0) = Σ_{p<k} h1[p] HH(k,p) + h1[k]`; `y[1..k]` satisfy the
back-substitution recurrence; cells of `HH` outside `HH(k,1..k)` and `h1[p]`, `p ≠ k`,
are unchanged. -/
theorem lsq_step_values (ldh k : Nat) (s : GmresState K) (hk1 : 1 ≤ k) (hk : k < ldh)
    (hpiv : ∀ i, 1 ≤ i → i < k → s.HH (i + i * ldh) ≠ 0) :
    (∀ p, (∀ m, 1 ≤ m → m ≤ k → p ≠ k + m * ldh) → (lsq_step ldh k s).HH p = s.HH p) ∧
    (∀ m, 1 ≤ m → m < k →
      cblas_zdotc_sub (m + 1) (ptr_add s.H (1 + k * ldh)) (ptr_add s.H (1 + m * ldh)) =
      (Finset.sum (Finset.Ico 1 m) fun p =>
        (lsq_step ldh k s).HH (k + p * ldh) * (lsq_step ldh k s).HH (p + p * ldh) *
          (lsq_step ldh k s).HH (m + p * ldh)) +
      (lsq_step ldh k s).HH (k + m * ldh) * (lsq_step ldh k s).HH (m + m * ldh)) ∧
    (cblas_zdotc_sub (k + 1) (ptr_add s.H (1 + k * ldh)) (ptr_add s.H (1 + k * ldh)) =
      (Finset.sum (Finset.Ico 1 k) fun p =>
        (lsq_step ldh k s).HH (k + p * ldh) * (lsq_step ldh k s).HH (k + p * ldh) *
          (lsq_step ldh k s).HH (p + p * ldh)) +
      (lsq_step ldh k s).HH (k + k * ldh)) ∧
    (s.H (1 + k * ldh) * s.H (1 + 0 * ldh) =
      (Finset.sum (Finset.Ico 1 k) fun p =>
        (lsq_step ldh k s).h1 p * (lsq_step ldh k s).HH (k + p * ldh)) +
      (lsq_step ldh k s).h1 k) ∧
    (∀ p, p ≠ k → (lsq_step ldh k s).h1 p = s.h1 p) ∧
    (∀ i, 1 ≤ i → i ≤ k → (lsq_step ldh k s).y i =
      (lsq_step ldh k s).h1 i / (lsq_step ldh k s).HH (i + i * ldh) -
      (Finset.sum (Finset.Ico (i + 1) (k + 1)) fun j =>
        (lsq_step ldh k s).y j * (lsq_step ldh k s).HH (j + i * ldh))) := by
  obtain ⟨k, rfl⟩ : ∃ k2, k = k2 + 1 := ⟨k - 1, by omega⟩
  -- the loop of line 110
  obtain ⟨a1, a2, a3, a4, a5⟩ := hh_loop_values ldh (k + 1) (k + 1) s hk
  generalize hs1 : forUp (hh_body ldh (k + 1)) 1 (k + 1) s = s1 at a1 a2 a3 a4 a5
  -- the elimination loop
  have hp2 : ∀ i, 1 ≤ i → i < k + 1 →
      ({ s1 with
        h1 := Function.update s1.h1 (k + 1)
          (s1.H (1 + (k + 1) * ldh) * s1.H (1 + 0 * ldh)) } : GmresState K).HH
        (i + i * ldh) ≠ 0 := by
    intro i h1 h2
    show s1.HH (i + i * ldh) ≠ 0
    rw [a5 _ fun m _ _ => diag_not_in_row ldh i (k + 1) m h2 hk]
    exact hpiv i h1 h2
  obtain ⟨b1, b2, b3, b4, b5, b6, b7, b8⟩ := elim_loop_ldl ldh (k + 1)
    { s1 with
        h1 := Function.update s1.h1 (k + 1)
          (s1.H (1 + (k + 1) * ldh) * s1.H (1 + 0 * ldh)) } hk hp2 k (by omega)
  generalize hs3 : forUp (elim_body ldh (k + 1)) 1 k
    { s1 with
        h1 := Function.update s1.h1 (k + 1)
          (s1.H (1 + (k + 1) * ldh) * s1.H (1 + 0 * ldh)) } = s3 at b1 b2 b3 b4 b5 b6 b7 b8
  -- the back substitution
  obtain ⟨c1, c2, c3, c4, c5⟩ := back_loop_values ldh (k + 1) k
    { s3 with
        y := Function.update s3.y (k + 1)
          (s3.h1 (k + 1) / s3.HH (k + 1 + (k + 1) * ldh)),
        div_ok := div_check s3.div_ok (s3.HH (k + 1 + (k + 1) * ldh)) } (by omega)
  have hst : lsq_step ldh (k + 1) s = forDown (back_body ldh (k + 1)) k
      { s3 with
        y := Function.update s3.y (k + 1)
          (s3.h1 (k + 1) / s3.HH (k + 1 + (k + 1) * ldh)),
        div_ok := div_check s3.div_ok (s3.HH (k + 1 + (k + 1) * ldh)) } := by
    unfold lsq_step
    simp only [hs1, Nat.add_sub_cancel]
    by_cases hk0 : k = 0
    · subst hk0
      simp only [Nat.zero_add, ne_eq, not_true_eq_false, if_false]
      rw [← hs3]
      rfl
    · have hne : k + 1 ≠ 1 := by omega
      simp only [if_pos hne, hs3]
  rw [hst]
  generalize forDown (back_body ldh (k + 1)) k
      { s3 with
        y := Function.update s3.y (k + 1)
          (s3.h1 (k + 1) / s3.HH (k + 1 + (k + 1) * ldh)),
        div_ok := div_check s3.div_ok (s3.HH (k + 1 + (k + 1) * ldh)) } = st
    at c1 c2 c3 c4 c5
  have c2' : st.HH = s3.HH := c2
  have c3' : st.h1 = s3.h1 := c3
  have b3' : ∀ p, (∀ m, 1 ≤ m → m ≤ k + 1 → p ≠ k + 1 + m * ldh) → s3.HH p = s1.HH p := b3
  have old : ∀ m p, m < k + 1 → s3.HH (m + p * ldh) = s1.HH (m + p * ldh) := fun m p hm =>
    b3' _ fun m2 _ _ h => by
      have := (flat_index_inj ldh m p (k + 1) m2 (by omega) hk h).1
      omega
  rw [c2', c3']
  refine ⟨?_, ?_, ?_, ?_, ?_, ?_⟩
  · intro p hp
    rw [b3' p hp, a5 p hp]
  · intro m h1 h2
    rw [← a4 m h1 (by omega), old m m h2]
    refine (b4 m h1 (by omega)).trans ?_
    congr 1
    refine Finset.sum_congr rfl fun p hp => ?_
    rw [Finset.mem_Ico] at hp
    rw [old p p (by omega), old m p h2]
  · rw [← a4 (k + 1) (by omega) (le_refl _)]
    have h6 : s3.HH (k + 1 + (k + 1) * ldh) = s1.HH (k + 1 + (k + 1) * ldh) -
        Finset.sum (Finset.Ico 1 (k + 1)) fun p =>
          s3.HH (k + 1 + p * ldh) * s3.HH (k + 1 + p * ldh) * s1.HH (p + p * ldh) := b6
    have h7 : (Finset.sum (Finset.Ico 1 (k + 1)) fun p =>
          s3.HH (k + 1 + p * ldh) * s3.HH (k + 1 + p * ldh) * s3.HH (p + p * ldh)) =
        Finset.sum (Finset.Ico 1 (k + 1)) fun p =>
          s3.HH (k + 1 + p * ldh) * s3.HH (k + 1 + p * ldh) * s1.HH (p + p * ldh) := by
      refine Finset.sum_congr rfl fun p hp => ?_
      rw [Finset.mem_Ico] at hp
      rw [old p p (by omega)]
    rw [h7, h6]
    ring
  · have h7 : s3.h1 (k + 1) = s1.H (1 + (k + 1) * ldh) * s1.H (1 + 0 * ldh) -
        Finset.sum (Finset.Ico 1 (k + 1)) fun p =>
          Function.update s1.h1 (k + 1) (s1.H (1 + (k + 1) * ldh) * s1.H (1 + 0 * ldh)) p *
            s3.HH (k + 1 + p * ldh) := by
      refine b7.trans ?_
      show Function.update s1.h1 (k + 1) _ (k + 1) - _ = _
      rw [Function.update_same]
    have h8 : (Finset.sum (Finset.Ico 1 (k + 1)) fun p =>
          s3.h1 p * s3.HH (k + 1 + p * ldh)) =
        Finset.sum (Finset.Ico 1 (k + 1)) fun p =>
          Function.update s1.h1 (k + 1) (s1.H (1 + (k + 1) * ldh) * s1.H (1 + 0 * ldh)) p *
            s3.HH (k + 1 + p * ldh) := by
      refine Finset.sum_congr rfl fun p hp => ?_
      rw [Finset.mem_Ico] at hp
      rw [b8 p (by omega)]
    rw [h8, h7, a1]
    ring
  · intro p hp
    rw [b8 p hp]
    show Function.update s1.h1 (k + 1) _ p = _
    rw [Function.update_noteq hp, a3]
  · intro i h1 h2
    by_cases hi : i ≤ k
    · exact c5 i h1 hi
    · have hi2 : i = k + 1 := by omega
      subst hi2
      rw [c4 (k + 1) (by omega), Finset.Ico_self, Finset.sum_empty, sub_zero]
      show Function.update s3.y (k + 1) _ (k + 1) = _
      rw [Function.update_same]

end LeastSquaresStep

section FactorisationInvariant

variable {K : Type} [LinearOrderedField K]

/-- The product that line 113 stores in `HH(k,i)` is entry `(k,i)` of the Gram matrix of
the Hessenberg columns. -/
theorem zdotc_eq_gram (H : Nat → magmaDoubleComplex K) (ldh k i : Nat) :
    cblas_zdotc_sub (i + 1) (ptr_add H (1 + k * ldh)) (ptr_add H (1 + i * ldh)) =
      gram H ldh k i := by
  unfold cblas_zdotc_sub gram ptr_add
  rw [← Nat.Ico_succ_right, Finset.range_eq_Ico,
    ← Finset.sum_Ico_add' (fun t => magmaDoubleComplex.conj (H (t + k * ldh)) * H (t + i * ldh))
      0 (i + 1) 1]
  refine Finset.sum_congr rfl fun t _ => ?_
  have e1 : 1 + k * ldh + t = t + 1 + k * ldh := by omega
  have e2 : 1 + i * ldh + t = t + 1 + i * ldh := by omega
  rw [e1, e2]

/-- The Arnoldi part of inner step `k` leaves `HH`, `h1`, `y` alone and writes `H` only
in `H(1..k+1,k)`. -/
theorem arnoldi_step_cells (sqrt : K → K) (A : magma_z_sparse_matrix K) (ldh k : Nat)
    (s : GmresState K) :
    (arnoldi_step sqrt A ldh k s).HH = s.HH ∧ (arnoldi_step sqrt A ldh k s).h1 = s.h1 ∧
    (arnoldi_step sqrt A ldh k s).y = s.y ∧
    (∀ p, (∀ i, 1 ≤ i → i ≤ k + 1 → p ≠ i + k * ldh) →
      (arnoldi_step sqrt A ldh k s).H p = s.H p) := by
  obtain ⟨-, -, -, hF⟩ := mgs_loop_spec A.num_rows ldh k (arnoldi_apply A ldh k s) k
  have hfr := mgs_loop_frame A.num_rows ldh k k (arnoldi_apply A ldh k s)
  refine ⟨hfr.2.1, hfr.2.2.2.1, hfr.2.2.1, ?_⟩
  intro p hp
  have eH : (arnoldi_step sqrt A ldh k s).H p =
      Function.update (forUp (mgs_body A.num_rows ldh k) 1 k (arnoldi_apply A ldh k s)).H
        (k + 1 + k * ldh)
        (MAGMA_Z_MAKE (magma_dznrm2 sqrt A.num_rows
          (forUp (mgs_body A.num_rows ldh k) 1 k (arnoldi_apply A ldh k s)).r) 0) p := rfl
  rw [eH, Function.update_noteq (hp (k + 1) (by omega) (le_refl _)), hF p]
  · rfl
  · intro i h1 h2
    exact hp i h1 (by omega)

/-- Entry `(j,i)` of `L D Lᵀ` reads `HH` in rows `1..j` only. -/
theorem ldl_entry_congr (HH HH2 : Nat → magmaDoubleComplex K) (ldh j i : Nat) (hij : i ≤ j)
    (h : ∀ a m, 1 ≤ a → a ≤ j → HH2 (a + m * ldh) = HH (a + m * ldh)) :
    ldl_entry HH2 ldh j i = ldl_entry HH ldh j i := by
  unfold ldl_entry ldl_L ldl_D
  refine Finset.sum_congr rfl fun m hm => ?_
  rw [Finset.mem_Icc] at hm
  rw [h j m (by omega) (le_refl _), h m m hm.1 (by omega), h i m (by omega) hij]

/-- Entry `(j,i)` of the Gram matrix reads the first `i + 1` entries of columns `j` and
`i` of `H` only. -/
theorem gram_congr (H H2 : Nat → magmaDoubleComplex K) (ldh j i : Nat)
    (h : ∀ t, 1 ≤ t → t ≤ i + 1 → H2 (t + j * ldh) = H (t + j * ldh) ∧
      H2 (t + i * ldh) = H (t + i * ldh)) :
    gram H2 ldh j i = gram H ldh j i := by
  unfold gram
  refine Finset.sum_congr rfl fun t ht => ?_
  rw [Finset.mem_Icc] at ht
  rw [(h t ht.1 ht.2).1, (h t ht.1 ht.2).2]

/-- Inner step `k` (`1 ≤ k < ldh`) with nonzero pivots `HH(i,i)`, `i < k`: row `k` of
`L D Lᵀ` equals row `k` of the Gram matrix, `h1[k]` is the forward-eliminated right-hand
side, `y[1..k]` satisfy the back-substitution recurrence, and outside `HH(k,1..k)`,
`H(1..k+1,k)` and `h1[k]` the three arrays are unchanged. -/
theorem inner_step_values (sqrt : K → K) (A : magma_z_sparse_matrix K) (ldh k : Nat)
    (s : GmresState K) (hk1 : 1 ≤ k) (hk : k < ldh)
    (hpiv : ∀ i, 1 ≤ i → i < k → s.HH (i + i * ldh) ≠ 0) :
    (∀ p, (∀ m, 1 ≤ m → m ≤ k → p ≠ k + m * ldh) →
      (inner_step sqrt A ldh k s).HH p = s.HH p) ∧
    (∀ p, (∀ i, 1 ≤ i → i ≤ k + 1 → p ≠ i + k * ldh) →
      (inner_step sqrt A ldh k s).H p = s.H p) ∧
    (∀ i, 1 ≤ i → i ≤ k → ldl_entry (inner_step sqrt A ldh k s).HH ldh k i =
      gram (inner_step sqrt A ldh k s).H ldh k i) ∧
    ((inner_step sqrt A ldh k s).H (1 + k * ldh) * (inner_step sqrt A ldh k s).H (1 + 0 * ldh) =
      (Finset.sum (Finset.Ico 1 k) fun p =>
        (inner_step sqrt A ldh k s).h1 p * (inner_step sqrt A ldh k s).HH (k + p * ldh)) +
      (inner_step sqrt A ldh k s).h1 k) ∧
    (∀ p, p ≠ k → (inner_step sqrt A ldh k s).h1 p = s.h1 p) ∧
    (∀ i, 1 ≤ i → i ≤ k → (inner_step sqrt A ldh k s).y i =
      (inner_step sqrt A ldh k s).h1 i / (inner_step sqrt A ldh k s).HH (i + i * ldh) -
      (Finset.sum (Finset.Ico (i + 1) (k + 1)) fun j =>
        (inner_step sqrt A ldh k s).y j * (inner_step sqrt A ldh k s).HH (j + i * ldh))) := by
  obtain ⟨a1, a2, a3, a4⟩ := arnoldi_step_cells sqrt A ldh k s
  obtain ⟨fH, -, -, -⟩ := lsq_step_frame ldh k (arnoldi_step sqrt A ldh k s)
  obtain ⟨b1, b2, b3, b4, b5, b6⟩ := lsq_step_values ldh k (arnoldi_step sqrt A ldh k s) hk1 hk
    (by rw [a1]; exact hpiv)
  have eHH : (inner_step sqrt A ldh k s).HH = (lsq_step ldh k (arnoldi_step sqrt A ldh k s)).HH :=
    rfl
  have eh1 : (inner_step sqrt A ldh k s).h1 = (lsq_step ldh k (arnoldi_step sqrt A ldh k s)).h1 :=
    rfl
  have ey : (inner_step sqrt A ldh k s).y = (lsq_step ldh k (arnoldi_step sqrt A ldh k s)).y :=
    rfl
  have eH : (inner_step sqrt A ldh k s).H = (arnoldi_step sqrt A ldh k s).H := fH
  rw [eHH, eh1, ey, eH]
  generalize lsq_step ldh k (arnoldi_step sqrt A ldh k s) = st at b1 b2 b3 b4 b5 b6
  generalize arnoldi_step sqrt A ldh k s = s1 at a1 a2 a3 a4 b1 b2 b3 b4 b5 b6
  refine ⟨?_, a4, ?_, b4, ?_, b6⟩
  · intro p hp
    rw [b1 p hp, a1]
  · intro i h1 h2
    rw [← zdotc_eq_gram]
    unfold ldl_entry ldl_L ldl_D
    rw [← Nat.Ico_succ_right, Finset.sum_Ico_succ_top h1]
    by_cases hi : i = k
    · subst hi
      rw [b3, if_pos rfl]
      have e : (Finset.sum (Finset.Ico 1 i) fun m =>
          (if m = i then 1 else st.HH (i + m * ldh)) * st.HH (m + m * ldh) *
            (if m = i then 1 else st.HH (i + m * ldh))) =
          Finset.sum (Finset.Ico 1 i) fun p =>
            st.HH (i + p * ldh) * st.HH (i + p * ldh) * st.HH (p + p * ldh) := by
        refine Finset.sum_congr rfl fun m hm => ?_
        rw [Finset.mem_Ico] at hm
        rw [if_neg (by omega)]
        ring
      rw [e]
      ring
    · rw [b2 i h1 (by omega), if_neg hi, if_pos rfl]
      have e : (Finset.sum (Finset.Ico 1 i) fun m =>
          (if m = k then 1 else st.HH (k + m * ldh)) * st.HH (m + m * ldh) *
            (if m = i then 1 else st.HH (i + m * ldh))) =
          Finset.sum (Finset.Ico 1 i) fun p =>
            st.HH (k + p * ldh) * st.HH (p + p * ldh) * st.HH (i + p * ldh) := by
        refine Finset.sum_congr rfl fun m hm => ?_
        rw [Finset.mem_Ico] at hm
        rw [if_neg (by omega), if_neg (by omega)]
      rw [e]
      ring
  · intro p hp
    rw [b5 p hp, a2]

end FactorisationInvariant

section FactorisationSteps

variable {K : Type} [LinearOrderedField K]

/-- Invariant of the inner loop after `n ≤ restart` steps, when the pivots `HH(i,i)`,
`i < n`, are nonzero: `HH` holds the factors of the lower triangle of the Gram matrix of
the Hessenberg columns `1..n`, and `h1[1..n]` is the forward-eliminated right-hand side
`H(1,j) H(1,0)`. -/
theorem inner_steps_invariant (sqrt : K → K) (A : magma_z_sparse_matrix K) (restart : Nat)
    (s : GmresState K) (n : Nat) (hn : n ≤ restart)
    (hpiv : ∀ i, 1 ≤ i → i < n →
      (forUp (inner_step sqrt A (restart + 1)) 1 n s).HH (i + i * (restart + 1)) ≠ 0) :
    (∀ i j, 1 ≤ i → i ≤ j → j ≤ n →
      ldl_entry (forUp (inner_step sqrt A (restart + 1)) 1 n s).HH (restart + 1) j i =
        gram (forUp (inner_step sqrt A (restart + 1)) 1 n s).H (restart + 1) j i) ∧
    (∀ j, 1 ≤ j → j ≤ n →
      (forUp (inner_step sqrt A (restart + 1)) 1 n s).H (1 + j * (restart + 1)) *
        (forUp (inner_step sqrt A (restart + 1)) 1 n s).H (1 + 0 * (restart + 1)) =
      (Finset.sum (Finset.Ico 1 j) fun p =>
        (forUp (inner_step sqrt A (restart + 1)) 1 n s).h1 p *
          (forUp (inner_step sqrt A (restart + 1)) 1 n s).HH (j + p * (restart + 1))) +
      (forUp (inner_step sqrt A (restart + 1)) 1 n s).h1 j) := by
  induction n with
  | zero => exact ⟨fun i j h1 h2 h3 => by omega, fun j h1 h2 => by omega⟩
  | succ n ih =>
    have e : forUp (inner_step sqrt A (restart + 1)) 1 (n + 1) s =
        inner_step sqrt A (restart + 1) (n + 1)
          (forUp (inner_step sqrt A (restart + 1)) 1 n s) := by
      show inner_step sqrt A (restart + 1) (1 + n) _ = _
      rw [Nat.add_comm 1 n]
    rw [e] at hpiv ⊢
    generalize forUp (inner_step sqrt A (restart + 1)) 1 n s = st at ih hpiv
    -- rows 1..n of HH are not touched by step n + 1
    have rowfr : ∀ (t : GmresState K),
        (∀ p, (∀ m, 1 ≤ m → m ≤ n + 1 → p ≠ n + 1 + m * (restart + 1)) →
          t.HH p = st.HH p) →
        ∀ a m, a ≤ n → t.HH (a + m * (restart + 1)) = st.HH (a + m * (restart + 1)) :=
      fun t ht a m ha => ht _ fun m2 _ _ h => by
        have := (flat_index_inj (restart + 1) a m (n + 1) m2 (by omega) (by omega) h).1
        omega
    have hfr0 : ∀ p, (∀ m, p ≠ n + 1 + m * (restart + 1)) →
        (inner_step sqrt A (restart + 1) (n + 1) st).HH p = st.HH p := by
      intro p hp
      have h1 := (lsq_step_div (restart + 1) (n + 1)
        (arnoldi_step sqrt A (restart + 1) (n + 1) st) (by omega) (by omega)).1 p hp
      have h2 := (arnoldi_step_div sqrt A (restart + 1) (n + 1) st).1
      exact h1.trans (by rw [h2])
    have hp0 : ∀ i, 1 ≤ i → i < n + 1 → st.HH (i + i * (restart + 1)) ≠ 0 := by
      intro i h1 h2
      rw [← hfr0 _ fun m => diag_not_in_row (restart + 1) i (n + 1) m h2 (by omega)]
      exact hpiv i h1 h2
    obtain ⟨i1, i2⟩ := ih (by omega) fun i h1 h2 => hp0 i h1 (by omega)
    obtain ⟨v1, v2, v3, v4, v5, -⟩ :=
      inner_step_values sqrt A (restart + 1) (n + 1) st (by omega) (by omega) hp0
    generalize inner_step sqrt A (restart + 1) (n + 1) st = st2 at v1 v2 v3 v4 v5
    have hrow := rowfr st2 v1
    have hcol : ∀ t j, t ≤ j + 1 → j ≤ n →
        st2.H (t + j * (restart + 1)) = st.H (t + j * (restart + 1)) := by
      intro t j h1 h2
      apply v2
      intro i2 hi2 _ h
      have := hess_index_lt (restart + 1) t j (n + 1) i2 (by omega) h1 (by omega) hi2
      omega
    constructor
    · intro i j h1 h2 h3
      by_cases hj : j ≤ n
      · rw [ldl_entry_congr st.HH st2.HH (restart + 1) j i h2 fun a m _ ha =>
            hrow a m (by omega),
          gram_congr st.H st2.H (restart + 1) j i fun t _ ht =>
            ⟨hcol t j (by omega) hj, hcol t i ht (by omega)⟩]
        exact i1 i j h1 h2 hj
      · have hj2 : j = n + 1 := by omega
        subst hj2
        exact v3 i h1 h2
    · intro j h1 h2
      by_cases hj : j ≤ n
      · rw [hcol 1 j (by omega) hj, hcol 1 0 (by omega) (by omega), v5 j (by omega), i2 j h1 hj]
        congr 1
        refine Finset.sum_congr rfl fun p hp => ?_
        rw [Finset.mem_Ico] at hp
        rw [v5 p (by omega), hrow j p hj]
      · have hj2 : j = n + 1 := by omega
        subst hj2
        exact v4

/-- C21: after inner step `k ≤ restart` (`ldh = restart + 1`), if the pivots `HH(i,i)`,
`i < k`, are nonzero, then with `D(m) = HH(m,m)`, `L(j,m) = HH(j,m)` for `m < j` and
`L(j,j) = 1`, for all `1 ≤ i ≤ j ≤ k`:
`Σ_{m=1..i} L(j,m) D(m) L(i,m) = Σ_{t=1..i+1} conj(H(t,j)) H(t,i)`; and step `k ≥ 1`,
from any state, changes no cell of `HH` outside `HH(k,1..k)`, in particular no cell of
the rows `1..k-1`. -/
theorem ldl_factorisation_invariant (sqrt : K → K) (A : magma_z_sparse_matrix K)
    (restart k : Nat) (s : GmresState K) (hk : k ≤ restart)
    (hpiv : ∀ i, 1 ≤ i → i < k →
      (forUp (inner_step sqrt A (restart + 1)) 1 k s).HH (i + i * (restart + 1)) ≠ 0) :
    (∀ i j, 1 ≤ i → i ≤ j → j ≤ k →
      (Finset.sum (Finset.Icc 1 i) fun m =>
        ldl_L (forUp (inner_step sqrt A (restart + 1)) 1 k s).HH (restart + 1) j m *
          ldl_D (forUp (inner_step sqrt A (restart + 1)) 1 k s).HH (restart + 1) m *
          ldl_L (forUp (inner_step sqrt A (restart + 1)) 1 k s).HH (restart + 1) i m) =
      Finset.sum (Finset.Icc 1 (i + 1)) fun t =>
        magmaDoubleComplex.conj
            ((forUp (inner_step sqrt A (restart + 1)) 1 k s).H (t + j * (restart + 1))) *
          (forUp (inner_step sqrt A (restart + 1)) 1 k s).H (t + i * (restart + 1))) ∧
    (1 ≤ k → ∀ (s0 : GmresState K),
      (∀ p, (∀ m, p ≠ k + m * (restart + 1)) →
        (inner_step sqrt A (restart + 1) k s0).HH p = s0.HH p) ∧
      (∀ j m, j < k → (inner_step sqrt A (restart + 1) k s0).HH (j + m * (restart + 1)) =
        s0.HH (j + m * (restart + 1)))) := by
  refine ⟨(inner_steps_invariant sqrt A restart s k hk hpiv).1, ?_⟩
  intro hk1 s0
  have hfr : ∀ p, (∀ m, p ≠ k + m * (restart + 1)) →
      (inner_step sqrt A (restart + 1) k s0).HH p = s0.HH p := by
    intro p hp
    have h1 := (lsq_step_div (restart + 1) k
      (arnoldi_step sqrt A (restart + 1) k s0) hk1 (by omega)).1 p hp
    have h2 := (arnoldi_step_div sqrt A (restart + 1) k s0).1
    exact h1.trans (by rw [h2])
  refine ⟨hfr, ?_⟩
  intro j m hj
  apply hfr
  intro m2 h
  have := (flat_index_inj (restart + 1) j m k m2 (by omega) (by omega) h).1
  omega

/-- C21, witness: the first two inner steps of the solve with the 2 × 2 matrix `A_dom`,
`b = e₁` and `restart = 2`, where `HH(1,1) = 5`, `HH(2,1) = 2/5`, `HH(2,2) = 16/5`:
entry `(2,1)` of `L D Lᵀ` and of the Gram matrix are both 2. -/
theorem ldl_factorisation_invariant_witness :
    (forUp (inner_step sqrtQ A_dom (2 + 1)) 1 2 (start_state A_dom 2)).HH (1 + 1 * (2 + 1)) =
      ⟨5, 0⟩ ∧
    (forUp (inner_step sqrtQ A_dom (2 + 1)) 1 2 (start_state A_dom 2)).HH (2 + 1 * (2 + 1)) =
      ⟨2 / 5, 0⟩ ∧
    (Finset.sum (Finset.Icc 1 1) fun m =>
      ldl_L (forUp (inner_step sqrtQ A_dom (2 + 1)) 1 2 (start_state A_dom 2)).HH (2 + 1) 2 m *
        ldl_D (forUp (inner_step sqrtQ A_dom (2 + 1)) 1 2 (start_state A_dom 2)).HH (2 + 1) m *
        ldl_L (forUp (inner_step sqrtQ A_dom (2 + 1)) 1 2 (start_state A_dom 2)).HH (2 + 1) 1 m) =
    Finset.sum (Finset.Icc 1 (1 + 1)) fun t =>
      magmaDoubleComplex.conj
          ((forUp (inner_step sqrtQ A_dom (2 + 1)) 1 2 (start_state A_dom 2)).H
            (t + 2 * (2 + 1))) *
        (forUp (inner_step sqrtQ A_dom (2 + 1)) 1 2 (start_state A_dom 2)).H
          (t + 1 * (2 + 1)) :=
  have hp : ∀ i, 1 ≤ i → i < 2 →
      (forUp (inner_step sqrtQ A_dom (2 + 1)) 1 2 (start_state A_dom 2)).HH
        (i + i * (2 + 1)) ≠ 0 := by
    intro i h1 h2
    have hi : i = 1 := by omega
    subst hi
    decide!
  ⟨by decide!, by decide!,
    (ldl_factorisation_invariant sqrtQ A_dom 2 2 (start_state A_dom 2) (by decide) hp).1
      1 2 (by decide) (by decide) (by decide)⟩

end FactorisationSteps

section BlindToY

variable {K : Type}

/-- A loop whose body computes every array other than `y` without reading `y` does so
as a whole. -/
theorem forUp_with_y (body : Nat → GmresState K → GmresState K)
    (h : ∀ i s y0, body i (with_y s y0) = with_y (body i s) (body i (with_y s y0)).y)
    (lo n : Nat) (s : GmresState K) (y0 : Nat → magmaDoubleComplex K) :
    forUp body lo n (with_y s y0) =
      with_y (forUp body lo n s) (forUp body lo n (with_y s y0)).y := by
  induction n with
  | zero => rfl
  | succ n ih =>
    show body (lo + n) (forUp body lo n (with_y s y0)) =
      with_y (body (lo + n) (forUp body lo n s))
        (body (lo + n) (forUp body lo n (with_y s y0))).y
    rw [ih, h]
    rfl

/-- The same for a downward loop. -/
theorem forDown_with_y (body : Nat → GmresState K → GmresState K)
    (h : ∀ i s y0, body i (with_y s y0) = with_y (body i s) (body i (with_y s y0)).y)
    (n : Nat) (s : GmresState K) (y0 : Nat → magmaDoubleComplex K) :
    forDown body n (with_y s y0) =
      with_y (forDown body n s) (forDown body n (with_y s y0)).y := by
  induction n generalizing s y0 with
  | zero => rfl
  | succ n ih =>
    show forDown body n (body (n + 1) (with_y s y0)) =
      with_y (forDown body n (body (n + 1) s))
        (forDown body n (body (n + 1) (with_y s y0))).y
    rw [h, ih]
    rfl

/-- An inner step computes `H`, `HH` and `h1` without reading `y`. -/
theorem inner_step_with_y [LinearOrderedField K] (sqrt : K → K) (A : magma_z_sparse_matrix K) (ldh k : Nat)
    (s : GmresState K) (y0 : Nat → magmaDoubleComplex K) :
    (inner_step sqrt A ldh k (with_y s y0)).H = (inner_step sqrt A ldh k s).H ∧
    (inner_step sqrt A ldh k (with_y s y0)).HH = (inner_step sqrt A ldh k s).HH ∧
    (inner_step sqrt A ldh k (with_y s y0)).h1 = (inner_step sqrt A ldh k s).h1 := by
  have hmgs : ∀ i (t : GmresState K) y1, mgs_body A.num_rows ldh k i (with_y t y1) =
      with_y (mgs_body A.num_rows ldh k i t) (mgs_body A.num_rows ldh k i (with_y t y1)).y :=
    fun _ _ _ => rfl
  have harn : ∀ (t : GmresState K) y1, arnoldi_step sqrt A ldh k (with_y t y1) =
      with_y (arnoldi_step sqrt A ldh k t) (arnoldi_step sqrt A ldh k (with_y t y1)).y := by
    intro t y1
    have h := forUp_with_y (mgs_body A.num_rows ldh k) hmgs 1 k (arnoldi_apply A ldh k t) y1
    have e : arnoldi_apply A ldh k (with_y t y1) = with_y (arnoldi_apply A ldh k t) y1 := rfl
    unfold arnoldi_step
    simp only [e]
    rw [h]
    rfl
  have hhh : ∀ i (t : GmresState K) y1, hh_body ldh k i (with_y t y1) =
      with_y (hh_body ldh k i t) (hh_body ldh k i (with_y t y1)).y :=
    fun _ _ _ => rfl
  have hei : ∀ i m (t : GmresState K) y1, elim_inner ldh k i m (with_y t y1) =
      with_y (elim_inner ldh k i m t) (elim_inner ldh k i m (with_y t y1)).y :=
    fun _ _ _ _ => rfl
  have hel : ∀ i (t : GmresState K) y1, elim_body ldh k i (with_y t y1) =
      with_y (elim_body ldh k i t) (elim_body ldh k i (with_y t y1)).y := by
    intro i t y1
    have h := forUp_with_y (elim_inner ldh k i) (hei i) (i + 1) (k - (i + 1)) t y1
    unfold elim_body
    simp only
    rw [h]
    rfl
  have hbi : ∀ i j (t : GmresState K) y1, back_inner ldh i j (with_y t y1) =
      with_y (back_inner ldh i j t) (back_inner ldh i j (with_y t y1)).y :=
    fun _ _ _ _ => rfl
  have hbk : ∀ i (t : GmresState K) y1, back_body ldh k i (with_y t y1) =
      with_y (back_body ldh k i t) (back_body ldh k i (with_y t y1)).y := by
    intro i t y1
    unfold back_body
    simp only
    have e : ({ with_y t y1 with
        y := Function.update (with_y t y1).y i
          ((with_y t y1).h1 i / (with_y t y1).HH (i + i * ldh)),
        div_ok := div_check (with_y t y1).div_ok ((with_y t y1).HH (i + i * ldh)) } :
          GmresState K) =
        with_y { t with
            y := Function.update t.y i (t.h1 i / t.HH (i + i * ldh)),
            div_ok := div_check t.div_ok (t.HH (i + i * ldh)) }
          (Function.update y1 i (t.h1 i / t.HH (i + i * ldh))) := rfl
    rw [e, forUp_with_y (back_inner ldh i) (hbi i)]
    rfl
  have hlsq : ∀ (t : GmresState K) y1, lsq_step ldh k (with_y t y1) =
      with_y (lsq_step ldh k t) (lsq_step ldh k (with_y t y1)).y := by
    have comp : ∀ (f g : GmresState K → GmresState K),
        (∀ t y1, f (with_y t y1) = with_y (f t) (f (with_y t y1)).y) →
        (∀ t y1, g (with_y t y1) = with_y (g t) (g (with_y t y1)).y) →
        ∀ t y1, g (f (with_y t y1)) = with_y (g (f t)) (g (f (with_y t y1))).y := by
      intro f g hf hg t y1
      rw [hf, hg]
      rfl
    let g2 : GmresState K → GmresState K := fun u =>
      { u with h1 := Function.update u.h1 k (u.H (1 + k * ldh) * u.H (1 + 0 * ldh)) }
    let g4 : GmresState K → GmresState K := fun u =>
      { u with
          y := Function.update u.y k (u.h1 k / u.HH (k + k * ldh)),
          div_ok := div_check u.div_ok (u.HH (k + k * ldh)) }
    have b1 := forUp_with_y (hh_body ldh k) hhh 1 k
    have b2 : ∀ (t : GmresState K) y1, g2 (with_y t y1) = with_y (g2 t) (g2 (with_y t y1)).y :=
      fun _ _ => rfl
    have b3 := forUp_with_y (elim_body ldh k) hel 1 (k - 1)
    have b4 : ∀ (t : GmresState K) y1, g4 (with_y t y1) = with_y (g4 t) (g4 (with_y t y1)).y :=
      fun _ _ => rfl
    have b5 := forDown_with_y (back_body ldh k) hbk (k - 1)
    intro t y1
    by_cases hk : k ≠ 1
    · have e : ∀ u : GmresState K, lsq_step ldh k u = forDown (back_body ldh k) (k - 1)
          (g4 (forUp (elim_body ldh k) 1 (k - 1) (g2 (forUp (hh_body ldh k) 1 k u)))) := by
        intro u
        simp only [lsq_step, if_pos hk, g2, g4]
      rw [e, e]
      exact comp
        (fun u => g4 (forUp (elim_body ldh k) 1 (k - 1) (g2 (forUp (hh_body ldh k) 1 k u))))
        (forDown (back_body ldh k) (k - 1))
        (comp (fun u => forUp (elim_body ldh k) 1 (k - 1) (g2 (forUp (hh_body ldh k) 1 k u))) g4
          (comp (fun u => g2 (forUp (hh_body ldh k) 1 k u)) (forUp (elim_body ldh k) 1 (k - 1))
            (comp (forUp (hh_body ldh k) 1 k) g2 b1 b2) b3) b4) b5 t y1
    · have e : ∀ u : GmresState K, lsq_step ldh k u = g4 (g2 (forUp (hh_body ldh k) 1 k u)) := by
        intro u
        simp only [lsq_step, if_neg hk, g2, g4]
      rw [e, e]
      exact comp (fun u => g2 (forUp (hh_body ldh k) 1 k u)) g4
        (comp (forUp (hh_body ldh k) 1 k) g2 b1 b2) b4 t y1
  have hin : inner_step sqrt A ldh k (with_y s y0) =
      with_y (inner_step sqrt A ldh k s) (inner_step sqrt A ldh k (with_y s y0)).y := by
    unfold inner_step
    simp only
    rw [harn, hlsq]
    rfl
  rw [hin]
  exact ⟨rfl, rfl, rfl⟩

end BlindToY

section NormalEquations

variable {K : Type} [LinearOrderedField K]

theorem zconj_real (z : magmaDoubleComplex K) (h : z.y = 0) : magmaDoubleComplex.conj z = z := by
  ext
  · rfl
  · simp [h]

/-- A sum over `1..k` of terms that vanish above `i ≤ k` is the sum over `1..i`. -/
theorem sum_Icc_upto (k i : Nat) (f : Nat → magmaDoubleComplex K) (hi : i ≤ k) :
    (Finset.sum (Finset.Icc 1 k) fun m => if m ≤ i then f m else 0) =
      Finset.sum (Finset.Icc 1 i) f := by
  rw [← Finset.sum_filter]
  congr 1
  ext m
  simp only [Finset.mem_filter, Finset.mem_Icc]
  omega

/-- A sum over `1..k` of terms that vanish below `m ≥ 1` is the sum over `m..k`. -/
theorem sum_Icc_from (k m : Nat) (f : Nat → magmaDoubleComplex K) (hm : 1 ≤ m) :
    (Finset.sum (Finset.Icc 1 k) fun j => if m ≤ j then f j else 0) =
      Finset.sum (Finset.Ico m (k + 1)) f := by
  rw [← Finset.sum_filter]
  congr 1
  ext j
  simp only [Finset.mem_filter, Finset.mem_Icc, Finset.mem_Ico]
  omega

/-- For real Hessenberg columns `a ≤ b ≤ k`, the entries `(a,b)` and `(b,a)` of
`H_kᵀ H_k` are both entry `(b,a)` of the Gram matrix. -/
theorem normal_matrix_eq_gram (H : Nat → magmaDoubleComplex K) (ldh k a b : Nat)
    (hab : a ≤ b) (hb : b ≤ k)
    (hreal : ∀ t, 1 ≤ t → t ≤ a + 1 → (H (t + b * ldh)).y = 0) :
    normal_matrix H ldh k a b = gram H ldh b a ∧ normal_matrix H ldh k b a = gram H ldh b a := by
  have hg : gram H ldh b a =
      Finset.sum (Finset.Icc 1 (a + 1)) fun t => H (t + a * ldh) * H (t + b * ldh) := by
    unfold gram
    refine Finset.sum_congr rfl fun t ht => ?_
    rw [Finset.mem_Icc] at ht
    rw [zconj_real _ (hreal t ht.1 ht.2), mul_comm]
  have h1 : normal_matrix H ldh k a b = gram H ldh b a := by
    rw [hg, ← sum_Icc_upto (k + 1) (a + 1) _ (by omega)]
    unfold normal_matrix hess
    refine Finset.sum_congr rfl fun t _ => ?_
    by_cases ht : t ≤ a + 1
    · rw [if_pos ht, if_pos ht, if_pos (by omega)]
    · rw [if_neg ht, if_neg ht, zero_mul]
  refine ⟨h1, ?_⟩
  rw [← h1]
  unfold normal_matrix
  refine Finset.sum_congr rfl fun t _ => ?_
  rw [mul_comm]

/-- From the factorisation to the normal equations: if `HH` holds the factors of the
Gram matrix of real Hessenberg columns `1..k` with nonzero pivots, `h1` the
forward-eliminated right-hand side `H(1,j) H(1,0)`, and `y` satisfies the
back-substitution recurrence, then `y` solves `H_kᵀ H_k y = H_kᵀ (H(1,0) e₁)`. -/
theorem normal_equations_of_factors (H HH h1 y : Nat → magmaDoubleComplex K) (ldh k : Nat)
    (hreal : ∀ i j, 1 ≤ j → j ≤ k → 1 ≤ i → i ≤ j + 1 → (H (i + j * ldh)).y = 0)
    (hpiv : ∀ i, 1 ≤ i → i ≤ k → HH (i + i * ldh) ≠ 0)
    (hldl : ∀ i j, 1 ≤ i → i ≤ j → j ≤ k → ldl_entry HH ldh j i = gram H ldh j i)
    (hfwd : ∀ j, 1 ≤ j → j ≤ k → H (1 + j * ldh) * H (1 + 0 * ldh) =
      (Finset.sum (Finset.Ico 1 j) fun p => h1 p * HH (j + p * ldh)) + h1 j)
    (hback : ∀ i, 1 ≤ i → i ≤ k → y i = h1 i / HH (i + i * ldh) -
      (Finset.sum (Finset.Ico (i + 1) (k + 1)) fun j => y j * HH (j + i * ldh))) :
    ∀ i, 1 ≤ i → i ≤ k →
      (Finset.sum (Finset.Icc 1 k) fun j => normal_matrix H ldh k i j * y j) =
        H (1 + i * ldh) * H (1 + 0 * ldh) := by
  obtain ⟨Lt, hLt⟩ : ∃ Lt : Nat → Nat → magmaDoubleComplex K,
      ∀ i m, Lt i m = if m ≤ i then ldl_L HH ldh i m else 0 := ⟨_, fun _ _ => rfl⟩
  -- the matrix of the normal equations as the product of the triangular factors
  have tri : ∀ a b, 1 ≤ a → a ≤ b → b ≤ k →
      (Finset.sum (Finset.Icc 1 k) fun m => Lt a m * (ldl_D HH ldh m * Lt b m)) =
        gram H ldh b a ∧
      (Finset.sum (Finset.Icc 1 k) fun m => Lt b m * (ldl_D HH ldh m * Lt a m)) =
        gram H ldh b a := by
    intro a b h1a hab hbk
    rw [← hldl a b h1a hab hbk]
    unfold ldl_entry
    rw [← sum_Icc_upto k a _ (by omega)]
    constructor
    · refine Finset.sum_congr rfl fun m _ => ?_
      rw [hLt, hLt]
      by_cases hm : m ≤ a
      · rw [if_pos hm, if_pos hm, if_pos (by omega)]
        ring
      · rw [if_neg hm, if_neg hm, zero_mul]
    · refine Finset.sum_congr rfl fun m _ => ?_
      rw [hLt, hLt]
      by_cases hm : m ≤ a
      · rw [if_pos hm, if_pos hm, if_pos (by omega)]
        ring
      · rw [if_neg hm, if_neg hm, mul_zero, mul_zero]
  have K1 : ∀ i j, 1 ≤ i → i ≤ k → 1 ≤ j → j ≤ k → normal_matrix H ldh k i j =
      Finset.sum (Finset.Icc 1 k) fun m => Lt i m * (ldl_D HH ldh m * Lt j m) := by
    intro i j h1i hik h1j hjk
    by_cases hij : i ≤ j
    · rw [(tri i j h1i hij hjk).1]
      exact (normal_matrix_eq_gram H ldh k i j hij hjk fun t h1 h2 =>
        hreal t j h1j hjk h1 (by omega)).1
    · rw [(tri j i h1j (by omega) hik).2]
      exact (normal_matrix_eq_gram H ldh k j i (by omega) hik fun t h1 h2 =>
        hreal t i h1i hik h1 (by omega)).2
  -- back substitution
  have K2 : ∀ m, 1 ≤ m → m ≤ k →
      ldl_D HH ldh m * (Finset.sum (Finset.Icc 1 k) fun j => Lt j m * y j) = h1 m := by
    intro m h1m hmk
    have e1 : (Finset.sum (Finset.Icc 1 k) fun j => Lt j m * y j) =
        Finset.sum (Finset.Ico m (k + 1)) fun j => ldl_L HH ldh j m * y j := by
      rw [← sum_Icc_from k m _ h1m]
      refine Finset.sum_congr rfl fun j _ => ?_
      rw [hLt]
      by_cases hj : m ≤ j
      · rw [if_pos hj, if_pos hj]
      · rw [if_neg hj, if_neg hj, zero_mul]
    have e2 : (Finset.sum (Finset.Ico (m + 1) (k + 1)) fun j => ldl_L HH ldh j m * y j) =
        Finset.sum (Finset.Ico (m + 1) (k + 1)) fun j => y j * HH (j + m * ldh) := by
      refine Finset.sum_congr rfl fun j hj => ?_
      rw [Finset.mem_Ico] at hj
      unfold ldl_L
      rw [if_neg (by omega), mul_comm]
    rw [e1, Finset.sum_eq_sum_Ico_succ_bot (by omega : m < k + 1), e2]
    unfold ldl_L ldl_D
    rw [if_pos rfl, hback m h1m hmk]
    have hd := hpiv m h1m hmk
    field_simp
    ring
  -- forward elimination
  have K3 : ∀ i, 1 ≤ i → i ≤ k →
      (Finset.sum (Finset.Icc 1 k) fun m => Lt i m * h1 m) =
        H (1 + i * ldh) * H (1 + 0 * ldh) := by
    intro i h1i hik
    have e1 : (Finset.sum (Finset.Icc 1 k) fun m => Lt i m * h1 m) =
        Finset.sum (Finset.Icc 1 i) fun m => ldl_L HH ldh i m * h1 m := by
      rw [← sum_Icc_upto k i _ hik]
      refine Finset.sum_congr rfl fun m _ => ?_
      rw [hLt]
      by_cases hm : m ≤ i
      · rw [if_pos hm, if_pos hm]
      · rw [if_neg hm, if_neg hm, zero_mul]
    have e2 : (Finset.sum (Finset.Ico 1 i) fun m => ldl_L HH ldh i m * h1 m) =
        Finset.sum (Finset.Ico 1 i) fun p => h1 p * HH (i + p * ldh) := by
      refine Finset.sum_congr rfl fun m hm => ?_
      rw [Finset.mem_Ico] at hm
      unfold ldl_L
      rw [if_neg (by omega), mul_comm]
    rw [e1, ← Nat.Ico_succ_right, Finset.sum_Ico_succ_top h1i, e2, hfwd i h1i hik]
    unfold ldl_L
    rw [if_pos rfl, one_mul]
  intro i h1i hik
  have e1 : (Finset.sum (Finset.Icc 1 k) fun j => normal_matrix H ldh k i j * y j) =
      Finset.sum (Finset.Icc 1 k) fun j =>
        Finset.sum (Finset.Icc 1 k) fun m => Lt i m * (ldl_D HH ldh m * (Lt j m * y j)) := by
    refine Finset.sum_congr rfl fun j hj => ?_
    rw [Finset.mem_Icc] at hj
    rw [K1 i j h1i hik hj.1 hj.2, Finset.sum_mul]
    refine Finset.sum_congr rfl fun m _ => ?_
    ring
  rw [e1, Finset.sum_comm, ← K3 i h1i hik]
  refine Finset.sum_congr rfl fun m hm => ?_
  rw [Finset.mem_Icc] at hm
  rw [← K2 m hm.1 hm.2, Finset.mul_sum, Finset.mul_sum]

/-- For real Hessenberg columns the conjugated forms `normal_lhs`, `normal_rhs` of the
normal equations are the transposed ones. -/
theorem normal_lhs_real (H y : Nat → magmaDoubleComplex K) (ldh k i : Nat) (h1i : 1 ≤ i)
    (hreal : ∀ t, 1 ≤ t → t ≤ i + 1 → (H (t + i * ldh)).y = 0) :
    normal_lhs H ldh k y i =
      (Finset.sum (Finset.Icc 1 k) fun j => normal_matrix H ldh k i j * y j) ∧
    normal_rhs H ldh i = H (1 + i * ldh) * H (1 + 0 * ldh) := by
  have hh : ∀ t, 1 ≤ t → magmaDoubleComplex.conj (hess H ldh t i) = hess H ldh t i := by
    intro t ht
    apply zconj_real
    unfold hess
    by_cases h : t ≤ i + 1
    · rw [if_pos h]
      exact hreal t ht h
    · rw [if_neg h]
      rfl
  constructor
  · unfold normal_lhs normal_matrix
    refine Finset.sum_congr rfl fun j _ => ?_
    congr 1
    refine Finset.sum_congr rfl fun t ht => ?_
    rw [Finset.mem_Icc] at ht
    rw [hh t ht.1]
  · unfold normal_rhs
    rw [hh 1 (le_refl 1)]
    unfold hess
    rw [if_pos (by omega)]

end NormalEquations

section NormalEquationsOfStep

variable {K : Type} [LinearOrderedField K]

/-- C22: after inner step `k` (`1 ≤ k ≤ restart`, `ldh = restart + 1`), when the entries
of the Hessenberg columns `1..k` are real and the pivots `HH(i,i)`, `i ≤ k`, are nonzero,
`y[1..k]` solves the normal equations: for every `i` in `1..k`,
`Σ_{j=1..k} (H_kᵀ H_k)(i,j) y[j] = H(1,i) H(1,0)`, which for real data is the system
`H_kᴴ H_k y = H_kᴴ (H(1,0) e₁)` of the least-squares problem; and `y[1..k]` after step `k`
do not depend on the content of `y` before the step. -/
theorem real_normal_equations (sqrt : K → K) (A : magma_z_sparse_matrix K) (restart k : Nat)
    (s : GmresState K) (hk1 : 1 ≤ k) (hk : k ≤ restart)
    (hreal : ∀ i j, 1 ≤ j → j ≤ k → 1 ≤ i → i ≤ j + 1 →
      ((forUp (inner_step sqrt A (restart + 1)) 1 k s).H (i + j * (restart + 1))).y = 0)
    (hpiv : ∀ i, 1 ≤ i → i ≤ k →
      (forUp (inner_step sqrt A (restart + 1)) 1 k s).HH (i + i * (restart + 1)) ≠ 0) :
    (∀ i, 1 ≤ i → i ≤ k →
      (Finset.sum (Finset.Icc 1 k) fun j =>
        normal_matrix (forUp (inner_step sqrt A (restart + 1)) 1 k s).H (restart + 1) k i j *
          (forUp (inner_step sqrt A (restart + 1)) 1 k s).y j) =
      (forUp (inner_step sqrt A (restart + 1)) 1 k s).H (1 + i * (restart + 1)) *
        (forUp (inner_step sqrt A (restart + 1)) 1 k s).H (1 + 0 * (restart + 1))) ∧
    (∀ i, 1 ≤ i → i ≤ k →
      normal_lhs (forUp (inner_step sqrt A (restart + 1)) 1 k s).H (restart + 1) k
          (forUp (inner_step sqrt A (restart + 1)) 1 k s).y i =
        normal_rhs (forUp (inner_step sqrt A (restart + 1)) 1 k s).H (restart + 1) i) ∧
    (∀ (y0 : Nat → magmaDoubleComplex K) i, 1 ≤ i → i ≤ k →
      (inner_step sqrt A (restart + 1) k
        (with_y (forUp (inner_step sqrt A (restart + 1)) 1 (k - 1) s) y0)).y i =
      (forUp (inner_step sqrt A (restart + 1)) 1 k s).y i) := by
  obtain ⟨n, rfl⟩ : ∃ n, k = n + 1 := ⟨k - 1, by omega⟩
  obtain ⟨i1, i2⟩ := inner_steps_invariant sqrt A restart s (n + 1) hk
    fun i h1 h2 => hpiv i h1 (by omega)
  have e : forUp (inner_step sqrt A (restart + 1)) 1 (n + 1) s =
      inner_step sqrt A (restart + 1) (n + 1)
        (forUp (inner_step sqrt A (restart + 1)) 1 n s) := by
    show inner_step sqrt A (restart + 1) (1 + n) _ = _
    rw [Nat.add_comm 1 n]
  simp only [Nat.add_sub_cancel]
  rw [e] at hreal hpiv i1 i2 ⊢
  generalize forUp (inner_step sqrt A (restart + 1)) 1 n s = st at hreal hpiv i1 i2
  have hfr0 : ∀ p, (∀ m, p ≠ n + 1 + m * (restart + 1)) →
      (inner_step sqrt A (restart + 1) (n + 1) st).HH p = st.HH p := by
    intro p hp
    have h1 := (lsq_step_div (restart + 1) (n + 1)
      (arnoldi_step sqrt A (restart + 1) (n + 1) st) (by omega) (by omega)).1 p hp
    have h2 := (arnoldi_step_div sqrt A (restart + 1) (n + 1) st).1
    exact h1.trans (by rw [h2])
  have hp0 : ∀ i, 1 ≤ i → i < n + 1 → st.HH (i + i * (restart + 1)) ≠ 0 := by
    intro i h1 h2
    rw [← hfr0 _ fun m => diag_not_in_row (restart + 1) i (n + 1) m h2 (by omega)]
    exact hpiv i h1 (by omega)
  obtain ⟨-, -, -, -, -, v6⟩ :=
    inner_step_values sqrt A (restart + 1) (n + 1) st (by omega) (by omega) hp0
  have hne := normal_equations_of_factors (inner_step sqrt A (restart + 1) (n + 1) st).H
    (inner_step sqrt A (restart + 1) (n + 1) st).HH
    (inner_step sqrt A (restart + 1) (n + 1) st).h1
    (inner_step sqrt A (restart + 1) (n + 1) st).y (restart + 1) (n + 1) hreal hpiv i1 i2 v6
  refine ⟨hne, ?_, ?_⟩
  · intro i h1 h2
    obtain ⟨c1, c2⟩ := normal_lhs_real (inner_step sqrt A (restart + 1) (n + 1) st).H
      (inner_step sqrt A (restart + 1) (n + 1) st).y (restart + 1) (n + 1) i h1
      fun t ht1 ht2 => hreal t i h1 h2 ht1 ht2
    rw [c1, c2]
    exact hne i h1 h2
  · intro y0 i h1 h2
    obtain ⟨-, w2, w3⟩ := inner_step_with_y sqrt A (restart + 1) (n + 1) st y0
    obtain ⟨-, -, -, -, -, u6⟩ :=
      inner_step_values sqrt A (restart + 1) (n + 1) (with_y st y0) (by omega) (by omega) hp0
    rw [w2, w3] at u6
    exact back_subst_unique (restart + 1) (n + 1)
      (inner_step sqrt A (restart + 1) (n + 1) st).h1
      (inner_step sqrt A (restart + 1) (n + 1) st).HH _ _ u6 v6 i h1 h2

/-- C22, witness: the first two inner steps of the solve with the 2 × 2 real matrix
`A_dom`, `b = e₁` and `restart = 2`: the pivots are `HH(1,1) = 5` and `HH(2,2) = 16/5`,
the step leaves `y = (1/2, -1/4)`, and row 1 of the normal equations holds. -/
theorem real_normal_equations_witness :
    (forUp (inner_step sqrtQ A_dom (2 + 1)) 1 2 (start_state A_dom 2)).HH (1 + 1 * (2 + 1)) =
      ⟨5, 0⟩ ∧
    (forUp (inner_step sqrtQ A_dom (2 + 1)) 1 2 (start_state A_dom 2)).HH (2 + 2 * (2 + 1)) =
      ⟨16 / 5, 0⟩ ∧
    (forUp (inner_step sqrtQ A_dom (2 + 1)) 1 2 (start_state A_dom 2)).y 1 = ⟨1 / 2, 0⟩ ∧
    (forUp (inner_step sqrtQ A_dom (2 + 1)) 1 2 (start_state A_dom 2)).y 2 = ⟨-1 / 4, 0⟩ ∧
    (Finset.sum (Finset.Icc 1 2) fun j =>
      normal_matrix (forUp (inner_step sqrtQ A_dom (2 + 1)) 1 2 (start_state A_dom 2)).H
          (2 + 1) 2 1 j *
        (forUp (inner_step sqrtQ A_dom (2 + 1)) 1 2 (start_state A_dom 2)).y j) =
    (forUp (inner_step sqrtQ A_dom (2 + 1)) 1 2 (start_state A_dom 2)).H (1 + 1 * (2 + 1)) *
      (forUp (inner_step sqrtQ A_dom (2 + 1)) 1 2 (start_state A_dom 2)).H (1 + 0 * (2 + 1)) :=
  have hr : ∀ i j, 1 ≤ j → j ≤ 2 → 1 ≤ i → i ≤ j + 1 →
      ((forUp (inner_step sqrtQ A_dom (2 + 1)) 1 2 (start_state A_dom 2)).H
        (i + j * (2 + 1))).y = 0 := by
    intro i j h1 h2 h3 h4
    interval_cases j <;> interval_cases i <;> decide!
  have hp : ∀ i, 1 ≤ i → i ≤ 2 →
      (forUp (inner_step sqrtQ A_dom (2 + 1)) 1 2 (start_state A_dom 2)).HH
        (i + i * (2 + 1)) ≠ 0 := by
    intro i h1 h2
    interval_cases i <;> decide!
  ⟨by decide!, by decide!, by decide!, by decide!,
    (real_normal_equations sqrtQ A_dom 2 2 (start_state A_dom 2) (by decide) (by decide)
      hr hp).1 1 (by decide) (by decide)⟩

end NormalEquationsOfStep
